import Mathlib

/-!
Shallow embedding of the tomli TOML parser (src/tomli/_parser.py together
with the regular expressions it consumes) into Lean 4, used to settle the
claims about the parser.

Conventions of the embedding:
* Python strings become `List Char`; the parser's cursor `state.pos` becomes
  a pair `(rest, n)` where `rest` is the suffix of the source starting at the
  cursor and `n` is the absolute position (used only for error coordinates,
  exactly as in the source, where positions are only consulted by
  `suffix_coord`).
* Python dicts become insertion-ordered association lists with
  replace-or-append assignment (`dictSet`), mirroring dict semantics.
* `TOMLDecodeError` raises become `Except.error` values.  Every raise site
  that goes through `suffix_coord` produces `TomlError.decode kind pos`
  carrying the message pieces and the position; the single raise at
  _parser.py:475 that does not call `suffix_coord` becomes the dedicated
  constructor `TomlError.bareUnclosedInlineTable`; a `ValueError` escaping
  from the `datetime`/`date` constructors becomes `TomlError.valueError`.
  `renderError` turns an error back into the Python message string.
* Loops (`while True`) become structural recursion on a fuel parameter that
  the entry points instantiate with a bound that is provably sufficient
  (`3 * length + 10` for the mutually recursive value productions,
  `length + 1` for the simple character loops); exhausting the fuel yields
  the distinguished `TomlError.outOfFuel`, which also models Python's
  `RecursionError` for deeply nested values.
-/

namespace Tomli

/-! ### Character classes (src/tomli/_parser.py lines 29-43) -/

/-- ASCII control characters: `chr(0)`..`chr(31)` plus `chr(127)`. -/
def isAsciiCtrl (c : Char) : Bool := c.toNat < 32 || c.toNat == 127

/-- `ILLEGAL_BASIC_STR_CHARS = ASCII_CTRL - frozenset("\t")`. -/
def illegalBasicStrChar (c : Char) : Bool := isAsciiCtrl c && !(c == '\t')

/-- `ILLEGAL_MULTILINE_BASIC_STR_CHARS = ASCII_CTRL - frozenset("\t\n\r")`. -/
def illegalMultilineBasicStrChar (c : Char) : Bool :=
  isAsciiCtrl c && !(c == '\t' || c == '\n' || c == '\r')

/-- `ILLEGAL_LITERAL_STR_CHARS = ILLEGAL_BASIC_STR_CHARS`. -/
def illegalLiteralStrChar (c : Char) : Bool := illegalBasicStrChar c

/-- `ILLEGAL_MULTILINE_LITERAL_STR_CHARS = ASCII_CTRL - frozenset("\t\n")`. -/
def illegalMultilineLiteralStrChar (c : Char) : Bool :=
  isAsciiCtrl c && !(c == '\t' || c == '\n')

/-- `ILLEGAL_COMMENT_CHARS = ILLEGAL_BASIC_STR_CHARS`. -/
def illegalCommentChar (c : Char) : Bool := illegalBasicStrChar c

/-- `TOML_WS = frozenset(" \t")`. -/
def isTomlWs (c : Char) : Bool := c == ' ' || c == '\t'

/-- `TOML_WS_AND_NEWLINE = TOML_WS | frozenset("\n")`. -/
def isTomlWsOrNewline (c : Char) : Bool := isTomlWs c || c == '\n'

/-- `BARE_KEY_CHARS = frozenset(string.ascii_letters + string.digits + "-_")`. -/
def isBareKeyChar (c : Char) : Bool :=
  ('a' ≤ c && c ≤ 'z') || ('A' ≤ c && c ≤ 'Z') || ('0' ≤ c && c ≤ '9') ||
    c == '-' || c == '_'

/-- `string.hexdigits` membership. -/
def isHexDigit (c : Char) : Bool :=
  ('0' ≤ c && c ≤ '9') || ('a' ≤ c && c ≤ 'f') || ('A' ≤ c && c ≤ 'F')

def isDigit (c : Char) : Bool := '0' ≤ c && c ≤ '9'

/-! ### Python `repr`, as used by the parser's f-strings

The error messages interpolate keys (tuples of strings) with `{key}` and
single characters with `{char!r}`; we model CPython's `repr` for the cases
that can occur (the backslash-quote-control escapes). -/

/-- Two lowercase hex digits of `n % 256`, as in Python's `\xHH` escapes. -/
def hexDigitChar (n : Nat) : Char :=
  if n < 10 then Char.ofNat ('0'.toNat + n) else Char.ofNat ('a'.toNat + (n - 10))

def hexTwo (n : Nat) : List Char :=
  [hexDigitChar ((n % 256) / 16), hexDigitChar (n % 16)]

/-- Escape one character inside a Python `repr` with quote character `q`. -/
def pyReprChar (q : Char) (c : Char) : List Char :=
  if c == '\\' then ['\\', '\\']
  else if c == q then ['\\', q]
  else if c == '\n' then ['\\', 'n']
  else if c == '\r' then ['\\', 'r']
  else if c == '\t' then ['\\', 't']
  else if isAsciiCtrl c then '\\' :: 'x' :: hexTwo c.toNat
  else [c]

/-- Python `repr` of a string: single quotes, switching to double quotes when
the string contains an apostrophe but no double quote. -/
def pyRepr (s : String) : String :=
  let q : Char := if s.contains '\'' && !(s.contains '"') then '"' else '\''
  ⟨q :: (s.data.flatMap (pyReprChar q) ++ [q])⟩

/-- Python `repr` of a tuple of strings, e.g. `('a', 'b')` and `('a',)`. -/
def pyTupleRepr (ks : List String) : String :=
  match ks with
  | [] => "()"
  | [k] => "(" ++ pyRepr k ++ ",)"
  | _ => "(" ++ String.intercalate ", " (ks.map pyRepr) ++ ")"

/-! ### Errors -/

/-- The message payloads of every `TOMLDecodeError` raise site in
src/tomli/_parser.py that goes through `suffix_coord`. -/
inductive ErrKind where
  | invalidStatement
  | expectedNewline
  | expectedChar (c : Char)
  | foundInvalidChar (c : Char)
  | canNotDeclareTwice (key : List String)
  | canNotOverwrite
  | expectedRBracket
  | canNotMutateImmutable (key : List String)
  | badArrayDeclEnd (marker : String)
  | canNotDefineTwice (key : List String)
  | expectedEquals
  | invalidKeyPartChar
  | unclosedArray
  | unclosedInlineTable
  | duplicateInlineKey (stem : String)
  | unterminatedStr
  | unescapedBackslash
  | invalidHexValue
  | notScalarValue
  | illegalChar (c : Char)
  | unexpectedSequence
  | invalidValue
deriving DecidableEq, Repr

/-- The Python message string of each raise site (the part before the
coordinate suffix), matching the f-strings of src/tomli/_parser.py. -/
def ErrKind.message : ErrKind → String
  | .invalidStatement => "Invalid statement"
  | .expectedNewline => "Expected newline or end of document after a statement"
  | .expectedChar c => "Expected \"" ++ pyRepr ⟨[c]⟩ ++ "\""
  | .foundInvalidChar c => "Found invalid character \"" ++ pyRepr ⟨[c]⟩ ++ "\""
  | .canNotDeclareTwice key => "Can not declare " ++ pyTupleRepr key ++ " twice"
  | .canNotOverwrite => "Can not overwrite a value"
  | .expectedRBracket => "Expected \"]\" at the end of a table declaration"
  | .canNotMutateImmutable key =>
      "Can not mutate immutable namespace " ++ pyTupleRepr key
  | .badArrayDeclEnd marker =>
      "Found \"" ++ pyRepr marker ++ "\" at the end of an array declaration."
        ++ " Expected \"]]\""
  | .canNotDefineTwice key => "Can not define " ++ pyTupleRepr key ++ " twice"
  | .expectedEquals => "Expected \"=\" after a key in a key/value pair"
  | .invalidKeyPartChar => "Invalid initial character for a key part"
  | .unclosedArray => "Unclosed array"
  | .unclosedInlineTable => "Unclosed inline table"
  | .duplicateInlineKey stem => "Duplicate inline table key \"" ++ stem ++ "\""
  | .unterminatedStr => "Unterminated string"
  | .unescapedBackslash => "Unescaped \"\\\" in a string"
  | .invalidHexValue => "Invalid hex value"
  | .notScalarValue => "Escaped character is not a Unicode scalar value"
  | .illegalChar c => "Illegal character \"" ++ pyRepr ⟨[c]⟩ ++ "\""
  | .unexpectedSequence => "Unexpected sequence"
  | .invalidValue => "Invalid value"

/-- Errors escaping the parser.  `decode kind pos` is a `TOMLDecodeError`
built with `suffix_coord` at absolute position `pos`;
`bareUnclosedInlineTable` is the single raise (src/tomli/_parser.py:475)
that bypasses `suffix_coord`; `valueError` models a `ValueError` raised by
the `date`/`datetime` constructors on out-of-range fields (it is not a
`TOMLDecodeError`); `indexError` models the `IndexError` a `cont[-1]` on an
empty list would raise; `outOfFuel` models exceeding the recursion budget
(Python's `RecursionError`). -/
inductive TomlError where
  | decode (kind : ErrKind) (pos : Nat)
  | bareUnclosedInlineTable
  | valueError
  | indexError
  | outOfFuel
deriving DecidableEq, Repr

/-! ### Values and tables -/

/-- A parsed TOML value.  `F` is the type returned by the injected
`parse_float` callback.  Date/time values keep the components the Python
`date`/`time`/`datetime` constructors receive; `datetime`'s `tz` is the UTC
offset in minutes (`timezone(timedelta(hours=h, minutes=m))` compares equal
by total offset), `none` meaning a naive (local) datetime. -/
inductive Value (F : Type) where
  | str (s : String)
  | int (n : Int)
  | float (x : F)
  | bool (b : Bool)
  | date (y m d : Nat)
  | time (h mi s micro : Nat)
  | datetime (y mo d h mi s micro : Nat) (tz : Option Int)
  | arr (xs : List (Value F))
  | table (kvs : List (String × Value F))

/-- A Python dict with string keys, as an insertion-ordered association
list. -/
abbrev Table (F : Type) := List (String × Value F)

/-- `k in d` on a Python dict. -/
def dictMem {F : Type} (t : Table F) (k : String) : Bool :=
  t.any (fun kv => kv.1 == k)

/-- `d[k]` lookup. -/
def dictGet {F : Type} (t : Table F) (k : String) : Option (Value F) :=
  match t with
  | [] => none
  | (k', v) :: rest => if k' == k then some v else dictGet rest k

/-- `d[k] = v`: replace in place when the key exists, else append,
mirroring insertion-ordered dict assignment. -/
def dictSet {F : Type} (t : Table F) (k : String) (v : Value F) : Table F :=
  match t with
  | [] => [(k, v)]
  | (k', v') :: rest =>
      if k' == k then (k', v) :: rest else (k', v') :: dictSet rest k v

/-! ### Flags (src/tomli/_parser.py lines 151-210)

The per-key-path flag trie.  A node carries a local flag set, a recursive
flag set, and the nested trie, exactly like the
`{"flags": set(), "recursive_flags": set(), "nested": {}}` dicts of the
source; flag sets become duplicate-free `List Nat`. -/

/-- `Flags.FROZEN`: marks an immutable namespace (inline array or table). -/
def FROZEN : Nat := 0

/-- `Flags.EXPLICIT_NEST`: marks a nest that can no longer be opened with
the `[table]` syntax. -/
def EXPLICIT_NEST : Nat := 1

inductive FlagNode where
  | mk (flags : List Nat) (recFlags : List Nat) (nested : List (String × FlagNode))

abbrev FlagTrie := List (String × FlagNode)

def FlagNode.flags : FlagNode → List Nat
  | .mk f _ _ => f

def FlagNode.recFlags : FlagNode → List Nat
  | .mk _ r _ => r

def FlagNode.nested : FlagNode → FlagTrie
  | .mk _ _ n => n

/-- A fresh `{"flags": set(), "recursive_flags": set(), "nested": {}}`. -/
def FlagNode.empty : FlagNode := .mk [] [] []

def trieGet (t : FlagTrie) (k : String) : Option FlagNode :=
  match t with
  | [] => none
  | (k', nd) :: rest => if k' == k then some nd else trieGet rest k

def trieSet (t : FlagTrie) (k : String) (nd : FlagNode) : FlagTrie :=
  match t with
  | [] => [(k, nd)]
  | (k', nd') :: rest =>
      if k' == k then (k', nd) :: rest else (k', nd') :: trieSet rest k nd

/-- `cont.pop(key, None)`. -/
def trieRemove (t : FlagTrie) (k : String) : FlagTrie :=
  match t with
  | [] => []
  | (k', nd') :: rest =>
      if k' == k then rest else (k', nd') :: trieRemove rest k

/-- `set.add(flag)` on a duplicate-free list. -/
def addFlag (l : List Nat) (flag : Nat) : List Nat :=
  if l.contains flag then l else l ++ [flag]

/-- `Flags.unset_all(key)`: walk `key[:-1]` (returning unchanged when a
segment is missing) and pop the node at `key[-1]`. -/
def Flags.unsetAll : FlagTrie → List String → FlagTrie
  | t, [] => t
  | t, [k] => trieRemove t k
  | t, k :: rest =>
      match trieGet t k with
      | none => t
      | some nd => trieSet t k (.mk nd.flags nd.recFlags (Flags.unsetAll nd.nested rest))

/-- The second loop of `Flags.set_for_relative_key`: add `flag` to the local
flag set at every prefix of `relKey`. -/
def Flags.addRelative : FlagTrie → List String → Nat → FlagTrie
  | t, [], _ => t
  | t, k :: rest, flag =>
      match trieGet t k with
      | some nd =>
          trieSet t k (.mk (addFlag nd.flags flag) nd.recFlags
            (Flags.addRelative nd.nested rest flag))
      | none => trieSet t k (.mk [flag] [] (Flags.addRelative [] rest flag))

/-- `Flags.set_for_relative_key(head_key, rel_key, flag)`: walk `head_key`
creating flagless nodes, then add `flag` along every prefix of `rel_key`. -/
def Flags.setForRelativeKey (t : FlagTrie) (headKey relKey : List String) (flag : Nat) :
    FlagTrie :=
  match headKey with
  | [] => Flags.addRelative t relKey flag
  | k :: rest =>
      match trieGet t k with
      | none => trieSet t k (.mk [] [] (Flags.setForRelativeKey [] rest relKey flag))
      | some nd =>
          trieSet t k (.mk nd.flags nd.recFlags
            (Flags.setForRelativeKey nd.nested rest relKey flag))

/-- `Flags.set(key, flag, recursive)`: walk `key[:-1]` creating flagless
nodes, then add `flag` to the stem's local or recursive flag set.  (The
source indexes `key[-1]`, so `key` is never empty there; on `[]` we return
the trie unchanged.) -/
def Flags.set (t : FlagTrie) (key : List String) (flag : Nat) (recursive : Bool) :
    FlagTrie :=
  match key with
  | [] => t
  | [k] =>
      let nd := (trieGet t k).getD FlagNode.empty
      trieSet t k
        (if recursive then .mk nd.flags (addFlag nd.recFlags flag) nd.nested
         else .mk (addFlag nd.flags flag) nd.recFlags nd.nested)
  | k :: rest =>
      match trieGet t k with
      | none => trieSet t k (.mk [] [] (Flags.set [] rest flag recursive))
      | some nd =>
          trieSet t k (.mk nd.flags nd.recFlags (Flags.set nd.nested rest flag recursive))

/-- `Flags.is_(key, flag)`: the empty key has no flags; along the proper
prefixes of `key` a recursive flag suffices; at the stem either set
suffices. -/
def Flags.isFlag : FlagTrie → List String → Nat → Bool
  | _, [], _ => false
  | t, [k], flag =>
      match trieGet t k with
      | none => false
      | some nd => nd.flags.contains flag || nd.recFlags.contains flag
  | t, k :: rest, flag =>
      match trieGet t k with
      | none => false
      | some nd => nd.recFlags.contains flag || Flags.isFlag nd.nested rest flag

/-! ### NestedDict (src/tomli/_parser.py lines 213-244)

`get_or_create_nest` returns an alias into the tree that the caller then
mutates; functionally we pass the caller's subsequent mutation as `f`,
applied to the nest the descent reaches, and rebuild the updated root.
`NestErr.keyErr` is the `KeyError` the descent (or the caller's code, for
`append_nest_to_list`) raises; `NestErr.idxErr` is the `IndexError` that
`cont[-1]` would raise on an empty list. -/

inductive NestErr where
  | keyErr
  | idxErr
  | terr (e : TomlError)
deriving DecidableEq

/-- `NestedDict.get_or_create_nest(key, access_lists=...)` followed by the
caller's mutation `f` of the returned nest. -/
def getOrCreateNest {F : Type} (f : Table F → Except NestErr (Table F))
    (accessLists : Bool) : List String → Table F → Except NestErr (Table F)
  | [], t => f t
  | k :: rest, t =>
      match dictGet t k with
      | none =>
          (getOrCreateNest f accessLists rest []).map
            (fun sub => dictSet t k (.table sub))
      | some (.table sub) =>
          (getOrCreateNest f accessLists rest sub).map
            (fun sub' => dictSet t k (.table sub'))
      | some (.arr xs) =>
          if accessLists then
            match xs.getLast? with
            | some (.table sub) =>
                (getOrCreateNest f accessLists rest sub).map
                  (fun sub' => dictSet t k (.arr (xs.dropLast ++ [.table sub'])))
            | some _ => .error .keyErr
            | none => .error .idxErr
          else .error .keyErr
      | some _ => .error .keyErr

/-- `key[:-1]` and `key[-1]` of a nonempty list. -/
def splitLast {α : Type} : List α → Option (List α × α)
  | [] => none
  | [a] => some ([], a)
  | a :: rest => (splitLast rest).map (fun p => (a :: p.1, p.2))

/-- `NestedDict.append_nest_to_list(key)`. -/
def appendNestToList {F : Type} (t : Table F) (key : List String) :
    Except NestErr (Table F) :=
  match splitLast key with
  | none => .error .idxErr
  | some (parent, lastKey) =>
      getOrCreateNest (fun cont =>
        match dictGet cont lastKey with
        | some (.arr xs) => .ok (dictSet cont lastKey (.arr (xs ++ [.table []])))
        | some _ => .error .keyErr
        | none => .ok (dictSet cont lastKey (.arr [.table []]))) true parent t

/-- Read-only companion of `getOrCreateNest`: the nest `f` would receive
(with missing segments read as freshly created empty tables). -/
inductive ReadRes (F : Type) where
  | found (nest : Table F)
  | keyErr
  | idxErr

def readNest {F : Type} (accessLists : Bool) : List String → Table F → ReadRes F
  | [], t => .found t
  | k :: rest, t =>
      match dictGet t k with
      | none => readNest accessLists rest []
      | some (.table sub) => readNest accessLists rest sub
      | some (.arr xs) =>
          if accessLists then
            match xs.getLast? with
            | some (.table sub) => readNest accessLists rest sub
            | some _ => .keyErr
            | none => .idxErr
          else .keyErr
      | some _ => .keyErr

/-! ### Error rendering (src/tomli/_parser.py lines 763-776) -/

/-- `src.count("\n", 0, pos)` when applied to `src.take pos`. -/
def countNewlines (cs : List Char) : Nat := (cs.filter (fun c => c == '\n')).length

/-- Index of the last `'\n'`, i.e. `src.rindex("\n", 0, pos)` on
`src.take pos`. -/
def lastNewlineIdx : List Char → Option Nat
  | [] => none
  | c :: rest =>
      match lastNewlineIdx rest with
      | some i => some (i + 1)
      | none => if c == '\n' then some 0 else none

/-- The `coord_repr` helper of `suffix_coord`. -/
def coordRepr (src : List Char) (pos : Nat) : String :=
  if pos < src.length then
    let line := countNewlines (src.take pos) + 1
    let column :=
      if line == 1 then pos + 1
      else pos - ((lastNewlineIdx (src.take pos)).getD 0)
    "line " ++ toString line ++ ", column " ++ toString column
  else "end of document"

/-- The Python message string carried by each error: `suffix_coord` for the
`decode` errors, the raw message for the coordinate-free raise at
src/tomli/_parser.py:475, and the non-`TOMLDecodeError` exception names
otherwise. -/
def renderError (src : List Char) : TomlError → String
  | .decode k pos => k.message ++ " (at " ++ coordRepr src pos ++ ")"
  | .bareUnclosedInlineTable => "Unclosed inline table"
  | .valueError => "ValueError"
  | .indexError => "IndexError"
  | .outOfFuel => "RecursionError"

/-- `s.replace("\r\n", "\n")`: one left-to-right non-overlapping pass. -/
def normNewlines : List Char → List Char
  | '\r' :: '\n' :: rest => '\n' :: normNewlines rest
  | c :: rest => c :: normNewlines rest
  | [] => []

/-! ### Basic scanners (src/tomli/_parser.py lines 247-298) -/

/-- `skip_chars(state, chars)`. -/
def skipChars (p : Char → Bool) : List Char → Nat → List Char × Nat
  | [], n => ([], n)
  | c :: rest, n => if p c then skipChars p rest (n + 1) else (c :: rest, n)

/-- `skip_until(state, expect_char, error_on=..., error_on_eof=...)`,
additionally returning the characters skipped over (the source reads them
back with a slice).  The cursor is left on `expect_char` without consuming
it. -/
def skipUntil (expectChar : Char) (errorOn : Char → Bool) (errorOnEof : Bool) :
    List Char → Nat → Except TomlError (List Char × List Char × Nat)
  | [], n =>
      if errorOnEof then .error (.decode (.expectedChar expectChar) n)
      else .ok ([], [], n)
  | c :: rest, n =>
      if c == expectChar then .ok ([], c :: rest, n)
      else if errorOn c then .error (.decode (.foundInvalidChar c) n)
      else
        (skipUntil expectChar errorOn errorOnEof rest (n + 1)).map
          (fun x => (c :: x.1, x.2.1, x.2.2))

/-- `comment_rule(state)`: consume the `#` and everything up to (not
including) the next newline. -/
def commentRule (rest : List Char) (n : Nat) : Except TomlError (List Char × Nat) :=
  (skipUntil '\n' illegalCommentChar false (rest.drop 1) (n + 1)).map
    (fun x => (x.2.1, x.2.2))

/-- `skip_comment(state)`. -/
def skipComment (rest : List Char) (n : Nat) : Except TomlError (List Char × Nat) :=
  match rest with
  | '#' :: _ => commentRule rest n
  | _ => .ok (rest, n)

/-- One fuel-indexed unfolding of the `skip_comments_and_array_ws` loop,
which repeats until a pass makes no progress. -/
def skipCommentsAndArrayWsF : Nat → List Char → Nat → Except TomlError (List Char × Nat)
  | 0, _, _ => .error .outOfFuel
  | fuel + 1, rest, n =>
      let (r1, n1) := skipChars isTomlWsOrNewline rest n
      match skipComment r1 n1 with
      | .error e => .error e
      | .ok (r2, n2) => if n2 == n then .ok (r2, n2) else skipCommentsAndArrayWsF fuel r2 n2

/-- `skip_comments_and_array_ws(state)`. -/
def skipCommentsAndArrayWs (rest : List Char) (n : Nat) :
    Except TomlError (List Char × Nat) :=
  skipCommentsAndArrayWsF (rest.length + 1) rest n

/-! ### String parsing (src/tomli/_parser.py lines 427-435 and 508-628) -/

/-- `is_unicode_scalar_value(codepoint)`. -/
def isUnicodeScalarValue (cp : Nat) : Bool :=
  cp ≤ 55295 || (57344 ≤ cp && cp ≤ 1114111)

def hexDigitVal (c : Char) : Nat :=
  if '0' ≤ c && c ≤ '9' then c.toNat - '0'.toNat
  else if 'a' ≤ c && c ≤ 'f' then c.toNat - 'a'.toNat + 10
  else if 'A' ≤ c && c ≤ 'F' then c.toNat - 'A'.toNat + 10
  else 0

/-- `int(hex_str, 16)` on a string of hex digits. -/
def hexToNat (cs : List Char) : Nat :=
  cs.foldl (fun acc c => acc * 16 + hexDigitVal c) 0

/-- `parse_hex_char(state, hex_len)`.  Returns the produced characters, the
remaining input and the new position. -/
def parseHexChar (hexLen : Nat) (rest : List Char) (n : Nat) :
    Except TomlError (List Char × List Char × Nat) :=
  let hexStr := rest.take hexLen
  if hexStr.length != hexLen || hexStr.any (fun c => !(isHexDigit c)) then
    .error (.decode .invalidHexValue n)
  else
    let hexInt := hexToNat hexStr
    if isUnicodeScalarValue hexInt then
      .ok ([Char.ofNat hexInt], rest.drop hexLen, n + hexLen)
    else .error (.decode .notScalarValue (n + hexLen))

/-- `parse_basic_str_escape(state, multiline=...)`: `rest` starts at the
backslash. -/
def parseBasicStrEscape (multiline : Bool) (rest : List Char) (n : Nat) :
    Except TomlError (List Char × List Char × Nat) :=
  match rest with
  | _ :: e :: rest2 =>
      let n2 := n + 2
      if multiline && (e == ' ' || e == '\t' || e == '\n') then
        if e == '\n' then
          let (r3, n3) := skipChars isTomlWsOrNewline rest2 n2
          .ok ([], r3, n3)
        else
          let (r3, n3) := skipChars isTomlWs rest2 n2
          match r3 with
          | [] => .ok ([], [], n3)
          | c :: r4 =>
              if c == '\n' then
                let (r5, n5) := skipChars isTomlWsOrNewline r4 (n3 + 1)
                .ok ([], r5, n5)
              else .error (.decode .unescapedBackslash n3)
      else if e == 'b' then .ok ([Char.ofNat 8], rest2, n2)
      else if e == 't' then .ok (['\t'], rest2, n2)
      else if e == 'n' then .ok (['\n'], rest2, n2)
      else if e == 'f' then .ok ([Char.ofNat 12], rest2, n2)
      else if e == 'r' then .ok (['\r'], rest2, n2)
      else if e == '"' then .ok (['"'], rest2, n2)
      else if e == '\\' then .ok (['\\'], rest2, n2)
      else if e == 'u' then parseHexChar 4 rest2 n2
      else if e == 'U' then parseHexChar 8 rest2 n2
      else .error (.decode .unescapedBackslash n2)
  | _ => .error (.decode .unterminatedStr n)

/-- The `parse_string` bulk scanner, structurally recursive on fuel; `acc`
holds the reversed result accumulated so far (the source concatenates
verbatim slices and decoded escapes). -/
def parseStringF (delim : Char) (delimLen : Nat) (errorOn : Char → Bool)
    (parseEscapes :
      Option (List Char → Nat → Except TomlError (List Char × List Char × Nat))) :
    Nat → List Char → Nat → List Char → Except TomlError (String × List Char × Nat)
  | 0, _, _, _ => .error .outOfFuel
  | fuel + 1, rest, n, acc =>
      match rest with
      | [] => .error (.decode .unterminatedStr n)
      | c :: r =>
          if c == delim then
            if r.take (delimLen - 1) == List.replicate (delimLen - 1) delim then
              .ok (⟨acc.reverse⟩, r.drop (delimLen - 1), n + delimLen)
            else parseStringF delim delimLen errorOn parseEscapes fuel r (n + 1) (c :: acc)
          else
            match parseEscapes with
            | some esc =>
                if c == '\\' then
                  match esc rest n with
                  | .error e => .error e
                  | .ok (s, r', n') =>
                      parseStringF delim delimLen errorOn parseEscapes fuel r' n'
                        (s.reverse ++ acc)
                else if errorOn c then .error (.decode (.illegalChar c) n)
                else parseStringF delim delimLen errorOn parseEscapes fuel r (n + 1) (c :: acc)
            | none =>
                if errorOn c then .error (.decode (.illegalChar c) n)
                else parseStringF delim delimLen errorOn parseEscapes fuel r (n + 1) (c :: acc)

/-- `parse_string(state, delim=..., delim_len=..., error_on=...,
parse_escapes=...)`. -/
def parseString (delim : Char) (delimLen : Nat) (errorOn : Char → Bool)
    (parseEscapes :
      Option (List Char → Nat → Except TomlError (List Char × List Char × Nat)))
    (rest : List Char) (n : Nat) : Except TomlError (String × List Char × Nat) :=
  parseStringF delim delimLen errorOn parseEscapes (rest.length + 1) rest n []

/-- `parse_basic_str(state)`: `rest` starts at the opening quote. -/
def parseBasicStr (rest : List Char) (n : Nat) :
    Except TomlError (String × List Char × Nat) :=
  parseString '"' 1 illegalBasicStrChar (some (parseBasicStrEscape false))
    (rest.drop 1) (n + 1)

/-- `parse_literal_str(state)`: `rest` starts at the opening apostrophe. -/
def parseLiteralStr (rest : List Char) (n : Nat) :
    Except TomlError (String × List Char × Nat) :=
  match skipUntil '\'' illegalLiteralStrChar true (rest.drop 1) (n + 1) with
  | .error e => .error e
  | .ok (consumed, r, n') => .ok (⟨consumed⟩, r.drop 1, n' + 1)

/-- `parse_multiline_str(state, literal=...)`: `rest` starts at the opening
triple delimiter. -/
def parseMultilineStr (literal : Bool) (rest : List Char) (n : Nat) :
    Except TomlError (String × List Char × Nat) :=
  let r1 := rest.drop 3
  let n1 := n + 3
  let start : List Char × Nat :=
    match r1 with
    | '\n' :: r => (r, n1 + 1)
    | _ => (r1, n1)
  let delim : Char := if literal then '\'' else '"'
  let illegal := if literal then illegalMultilineLiteralStrChar
    else illegalMultilineBasicStrChar
  let escP := if literal then none else some (parseBasicStrEscape true)
  match parseString delim 3 illegal escP start.1 start.2 with
  | .error e => .error e
  | .ok (result, r3, n3) =>
      match r3 with
      | c :: r4 =>
          if c == delim then
            match r4 with
            | c2 :: r5 =>
                if c2 == delim then .ok (result ++ ⟨[delim, delim]⟩, r5, n3 + 2)
                else .ok (result ++ ⟨[delim]⟩, c2 :: r5, n3 + 1)
            | [] => .ok (result ++ ⟨[delim]⟩, [], n3 + 1)
          else .ok (result, c :: r4, n3)
      | [] => .ok (result, [], n3)

/-! ### Key parsing (src/tomli/_parser.py lines 392-424) -/

/-- `parse_key_part(state)`. -/
def parseKeyPart (rest : List Char) (n : Nat) :
    Except TomlError (String × List Char × Nat) :=
  match rest with
  | [] => .error (.decode .invalidKeyPartChar n)
  | c :: _ =>
      if isBareKeyChar c then
        let (r', n') := skipChars isBareKeyChar rest n
        .ok (⟨rest.takeWhile isBareKeyChar⟩, r', n')
      else if c == '\'' then parseLiteralStr rest n
      else if c == '"' then parseBasicStr rest n
      else .error (.decode .invalidKeyPartChar n)

/-- The dotted-key `while` loop of `parse_key`. -/
def parseKeyLoop : Nat → List String → List Char → Nat →
    Except TomlError (List String × List Char × Nat)
  | 0, _, _, _ => .error .outOfFuel
  | fuel + 1, accKey, rest, n =>
      match rest with
      | '.' :: r =>
          let (r1, n1) := skipChars isTomlWs r (n + 1)
          match parseKeyPart r1 n1 with
          | .error e => .error e
          | .ok (part, r2, n2) =>
              let (r3, n3) := skipChars isTomlWs r2 n2
              parseKeyLoop fuel (accKey ++ [part]) r3 n3
      | _ => .ok (accKey, rest, n)

/-- `parse_key(state)`: one or more parts separated by dots, with inline
whitespace around the dots. -/
def parseKey (rest : List Char) (n : Nat) :
    Except TomlError (List String × List Char × Nat) :=
  match parseKeyPart rest n with
  | .error e => .error e
  | .ok (part, r1, n1) =>
      let (r2, n2) := skipChars isTomlWs r1 n1
      parseKeyLoop (r2.length + 1) [part] r2 n2

/-! ### Regular-expression matchers

Hand-rolled matchers for the compiled patterns the parser consumes.  Each
returns the matched characters (the Python `match.group()` / `match.end()`)
and the remaining input.  `RE_DATETIME` follows src/tomli/_re.py lines
35-47 (separator `[Tt ]`, zulu `[Zz]`, fractional part
`(\.[0-9]{1,6})[0-9]*`), exposing the logical groups (year, month, day,
hour, minute, second, fractional, offset-hours, offset-minutes) that
`parse_datetime` consumes.  `RE_LOCAL_TIME` follows the in-repo precursor
`lil_toml/_re.py` (`(\.[0-9]+)?` fractional part), whose group structure is
the one `parse_localtime` indexes.  The hex/oct/bin tails and
`RE_DEC_OR_FLOAT` follow `lil_toml/_re.py`'s `DEC_OR_FLOAT` and the spec's
digit-underscore rule (`D(_?D)*` tails matched after the `0x`/`0o`/`0b`
prefix has been consumed, as `parse_value` requires). -/

/-- Greedy matcher for `(?:_?D)*`: every underscore must sit between two
digits (a trailing underscore is not consumed, as the regex backtracks). -/
def underscoreDigitsLoop (isD : Char → Bool) : List Char → List Char × List Char
  | [] => ([], [])
  | c :: rest =>
      if isD c then
        let (m, r) := underscoreDigitsLoop isD rest
        (c :: m, r)
      else if c == '_' then
        match rest with
        | d :: rest2 =>
            if isD d then
              let (m, r) := underscoreDigitsLoop isD rest2
              ('_' :: d :: m, r)
            else ([], c :: rest)
        | [] => ([], [c])
      else ([], c :: rest)

/-- Matcher for `D(?:_?D)*`. -/
def matchDigitsUnd (isD : Char → Bool) (cs : List Char) :
    Option (List Char × List Char) :=
  match cs with
  | c :: rest =>
      if isD c then
        let (m, r) := underscoreDigitsLoop isD rest
        some (c :: m, r)
      else none
  | [] => none

def matchHexTail : List Char → Option (List Char × List Char) :=
  matchDigitsUnd isHexDigit

def matchOctTail : List Char → Option (List Char × List Char) :=
  matchDigitsUnd (fun c => '0' ≤ c && c ≤ '7')

def matchBinTail : List Char → Option (List Char × List Char) :=
  matchDigitsUnd (fun c => c == '0' || c == '1')

/-- `int(s, base)` on a matched digit string: underscores are ignored. -/
def digitsToNat (base : Nat) (cs : List Char) : Nat :=
  (cs.filter (fun c => !(c == '_'))).foldl (fun acc c => acc * base + hexDigitVal c) 0

/-- `int(s)` on a matched decimal string with an optional sign. -/
def pyIntOfDec (cs : List Char) : Int :=
  match cs with
  | '-' :: r => -(digitsToNat 10 r : Int)
  | '+' :: r => (digitsToNat 10 r : Int)
  | _ => (digitsToNat 10 cs : Int)

/-- The optional `(?:\.[0-9](?:_?[0-9])*)?` fractional part. -/
def matchFracPart : List Char → List Char × List Char
  | '.' :: d :: rest =>
      if isDigit d then
        let (m, r) := underscoreDigitsLoop isDigit rest
        ('.' :: d :: m, r)
      else ([], '.' :: d :: rest)
  | cs => ([], cs)

/-- The optional `(?:[eE][+-]?[0-9](?:_?[0-9])*)?` exponent part. -/
def matchExpPart : List Char → List Char × List Char
  | e :: '+' :: d :: rest =>
      if (e == 'e' || e == 'E') && isDigit d then
        let (m, r) := underscoreDigitsLoop isDigit rest
        (e :: '+' :: d :: m, r)
      else ([], e :: '+' :: d :: rest)
  | e :: '-' :: d :: rest =>
      if (e == 'e' || e == 'E') && isDigit d then
        let (m, r) := underscoreDigitsLoop isDigit rest
        (e :: '-' :: d :: m, r)
      else ([], e :: '-' :: d :: rest)
  | e :: d :: rest =>
      if (e == 'e' || e == 'E') && isDigit d then
        let (m, r) := underscoreDigitsLoop isDigit rest
        (e :: d :: m, r)
      else ([], e :: d :: rest)
  | cs => ([], cs)

/-- `RE_DEC_OR_FLOAT`:
`[+-]?(?:0|[1-9](?:_?[0-9])*)(?:\.[0-9](?:_?[0-9])*)?(?:[eE][+-]?...)?`. -/
def matchDecOrFloat (cs : List Char) : Option (List Char × List Char) :=
  let sign : List Char × List Char :=
    match cs with
    | '+' :: r => (['+'], r)
    | '-' :: r => (['-'], r)
    | _ => ([], cs)
  match sign.2 with
  | c :: rest =>
      if c == '0' then
        let (f, r1) := matchFracPart rest
        let (e, r2) := matchExpPart r1
        some (sign.1 ++ c :: (f ++ e), r2)
      else if '1' ≤ c && c ≤ '9' then
        let (m, r0) := underscoreDigitsLoop isDigit rest
        let (f, r1) := matchFracPart r0
        let (e, r2) := matchExpPart r1
        some (sign.1 ++ c :: (m ++ f ++ e), r2)
      else none
  | [] => none

/-- `[01][0-9]|2[0-3]` (hours, also used by the offset-hours group). -/
def matchHH : List Char → Option (List Char × List Char)
  | a :: b :: rest =>
      if (a == '0' || a == '1') && isDigit b then some ([a, b], rest)
      else if a == '2' && '0' ≤ b && b ≤ '3' then some ([a, b], rest)
      else none
  | _ => none

/-- `[0-5][0-9]` (minutes and seconds). -/
def matchMS : List Char → Option (List Char × List Char)
  | a :: b :: rest =>
      if '0' ≤ a && a ≤ '5' && isDigit b then some ([a, b], rest)
      else none
  | _ => none

/-- `0[1-9]|1[0-2]` (month). -/
def matchMonth : List Char → Option (List Char × List Char)
  | a :: b :: rest =>
      if a == '0' && '1' ≤ b && b ≤ '9' then some ([a, b], rest)
      else if a == '1' && '0' ≤ b && b ≤ '2' then some ([a, b], rest)
      else none
  | _ => none

/-- `0[1-9]|[12][0-9]|3[01]` (day). -/
def matchDay : List Char → Option (List Char × List Char)
  | a :: b :: rest =>
      if a == '0' && '1' ≤ b && b ≤ '9' then some ([a, b], rest)
      else if (a == '1' || a == '2') && isDigit b then some ([a, b], rest)
      else if a == '3' && (b == '0' || b == '1') then some ([a, b], rest)
      else none
  | _ => none

/-- The datetime fractional part `(?:(\.[0-9]{1,6})[0-9]*)?`: result is
`(captured group including the dot, all consumed chars, rest)` when
present. -/
def matchMicrosDT : List Char → Option (List Char × List Char) × List Char
  | '.' :: rest =>
      let ds := rest.takeWhile isDigit
      if ds.isEmpty then (none, '.' :: rest)
      else (some ('.' :: ds.take 6, '.' :: ds), rest.dropWhile isDigit)
  | cs => (none, cs)

/-- The zulu / offset alternative of `RE_DATETIME`. -/
inductive ZuluOrOffset where
  | zulu (c : Char)
  | offset (sign : Char) (oh om : List Char)
deriving DecidableEq, Repr

/-- `(?:([Zz])|([+-](?:[01][0-9]|2[0-3]):[0-5][0-9]))?`: result is
`(group?, consumed, rest)`. -/
def matchTz : List Char → Option ZuluOrOffset × List Char × List Char
  | [] => (none, [], [])
  | c :: rest =>
      if c == 'Z' || c == 'z' then (some (.zulu c), [c], rest)
      else if c == '+' || c == '-' then
        match matchHH rest with
        | some (oh, r1) =>
            match r1 with
            | ':' :: r2 =>
                match matchMS r2 with
                | some (om, r3) => (some (.offset c oh om), c :: (oh ++ ':' :: om), r3)
                | none => (none, [], c :: rest)
            | _ => (none, [], c :: rest)
        | none => (none, [], c :: rest)
      else (none, [], c :: rest)

/-- The time groups of a `RE_DATETIME` match. -/
structure TimeDT where
  hh : List Char
  mm : List Char
  ss : List Char
  micros : Option (List Char)
  tz : Option ZuluOrOffset
deriving DecidableEq, Repr

/-- A `RE_DATETIME` match: the full matched text plus the logical groups. -/
structure DateTimeMatch where
  matchStr : List Char
  year : List Char
  month : List Char
  day : List Char
  timePart : Option TimeDT
deriving DecidableEq, Repr

/-- The `hh:mm:ss` + fractional + offset tail of `RE_DATETIME`: result is
`(groups, consumed, rest)`. -/
def matchTimeDT (cs : List Char) : Option (TimeDT × List Char × List Char) :=
  match matchHH cs with
  | none => none
  | some (hh, cs1) =>
      match cs1 with
      | ':' :: cs2 =>
          match matchMS cs2 with
          | none => none
          | some (mm, cs3) =>
              match cs3 with
              | ':' :: cs4 =>
                  match matchMS cs4 with
                  | none => none
                  | some (ss, cs5) =>
                      let mic := matchMicrosDT cs5
                      let micConsumed := match mic.1 with
                        | some g => g.2
                        | none => []
                      let micCap := match mic.1 with
                        | some g => some g.1
                        | none => none
                      let tzm := matchTz mic.2
                      some ({ hh := hh, mm := mm, ss := ss, micros := micCap,
                              tz := tzm.1 },
                        hh ++ ':' :: mm ++ ':' :: ss ++ micConsumed ++ tzm.2.1,
                        tzm.2.2)
              | _ => none
      | _ => none

/-- `RE_DATETIME.match(src, pos)` at the cursor: the date, optionally
followed by `[Tt ]`, the time, the fractional part and the zulu/offset
suffix; the time half falls back to a date-only match when it does not
parse (regex backtracking). -/
def matchDatetime (cs : List Char) : Option (DateTimeMatch × List Char) :=
  let y := cs.take 4
  if y.length == 4 && y.all isDigit then
    match cs.drop 4 with
    | '-' :: cs1 =>
        match matchMonth cs1 with
        | none => none
        | some (mo, cs2) =>
            match cs2 with
            | '-' :: cs3 =>
                match matchDay cs3 with
                | none => none
                | some (d, cs4) =>
                    let dateStr := y ++ '-' :: mo ++ '-' :: d
                    let dateOnly : DateTimeMatch × List Char :=
                      ({ matchStr := dateStr, year := y, month := mo, day := d,
                         timePart := none }, cs4)
                    match cs4 with
                    | sep :: cs5 =>
                        if sep == 'T' || sep == 't' || sep == ' ' then
                          match matchTimeDT cs5 with
                          | some (tg, consumed, rest) =>
                              some ({ matchStr := dateStr ++ sep :: consumed,
                                      year := y, month := mo, day := d,
                                      timePart := some tg }, rest)
                          | none => some dateOnly
                        else some dateOnly
                    | [] => some dateOnly
            | _ => none
    | _ => none
  else none

/-- A `RE_LOCAL_TIME` match (`lil_toml/_re.py`): `hh:mm:ss` and an optional
unbounded fractional group including the dot. -/
def matchLocalTime (cs : List Char) :
    Option ((List Char × List Char × List Char × Option (List Char)) × List Char) :=
  match matchHH cs with
  | none => none
  | some (hh, cs1) =>
      match cs1 with
      | ':' :: cs2 =>
          match matchMS cs2 with
          | none => none
          | some (mm, cs3) =>
              match cs3 with
              | ':' :: cs4 =>
                  match matchMS cs4 with
                  | none => none
                  | some (ss, cs5) =>
                      match cs5 with
                      | '.' :: rest =>
                          let ds := rest.takeWhile isDigit
                          if ds.isEmpty then some ((hh, mm, ss, none), '.' :: rest)
                          else some ((hh, mm, ss, some ('.' :: ds)), rest.dropWhile isDigit)
                      | _ => some ((hh, mm, ss, none), cs5)
              | _ => none
      | _ => none

/-! ### Date/time decoding (src/tomli/_parser.py lines 640-673) -/

/-- Gregorian leap year, as `datetime.date` validates. -/
def isLeapYear (y : Nat) : Bool := y % 4 == 0 && (y % 100 != 0 || y % 400 == 0)

def daysInMonth (y m : Nat) : Nat :=
  if m == 2 then (if isLeapYear y then 29 else 28)
  else if m == 4 || m == 6 || m == 9 || m == 11 then 30
  else 31

/-- Range check performed by the `date`/`datetime` constructors (Python's
`MINYEAR = 1`, `MAXYEAR = 9999`); a failure raises `ValueError`. -/
def dateValid (y m d : Nat) : Bool :=
  1 ≤ y && y ≤ 9999 && 1 ≤ m && m ≤ 12 && 1 ≤ d && d ≤ daysInMonth y m

/-- `micros_str[1:].ljust(6, "0")[:6]` converted with `int`: `ds` is the
fractional digit string without the dot. -/
def microsOfDigits (ds : List Char) : Nat :=
  digitsToNat 10 ((ds ++ List.replicate (6 - ds.length) '0').take 6)

/-- `parse_datetime(state, match)` on the groups of a `RE_DATETIME` match
(the cursor move to `match.end()` is handled by the caller). -/
def parseDatetimeFromMatch {F : Type} (m : DateTimeMatch) : Except TomlError (Value F) :=
  let year := digitsToNat 10 m.year
  let month := digitsToNat 10 m.month
  let day := digitsToNat 10 m.day
  match m.timePart with
  | none =>
      if dateValid year month day then .ok (.date year month day)
      else .error .valueError
  | some t =>
      let hour := digitsToNat 10 t.hh
      let minute := digitsToNat 10 t.mm
      let sec := digitsToNat 10 t.ss
      let micros := match t.micros with
        | some cap => microsOfDigits (cap.drop 1)
        | none => 0
      let offsetGroups : Option (List Char × List Char) := match t.tz with
        | some (.offset _ oh om) => some (oh, om)
        | _ => none
      let tz : Option Int := match offsetGroups with
        | some (oh, om) =>
            let offsetDir : Int := if m.matchStr.contains '+' then 1 else -1
            some (offsetDir * (digitsToNat 10 oh : Int) * 60
              + offsetDir * (digitsToNat 10 om : Int))
        | none => if m.matchStr.contains 'Z' then some 0 else none
      if dateValid year month day then
        .ok (.datetime year month day hour minute sec micros tz)
      else .error .valueError

/-- `parse_localtime(state, match)`. -/
def parseLocaltimeFromMatch {F : Type}
    (g : List Char × List Char × List Char × Option (List Char)) : Value F :=
  let micros := match g.2.2.2 with
    | some cap => microsOfDigits (cap.drop 1)
    | none => 0
  .time (digitsToNat 10 g.1) (digitsToNat 10 g.2.1) (digitsToNat 10 g.2.2.1) micros

/-- `parse_regex(state, regex)` for the hex/oct/bin tail matchers. -/
def parseRegexWith (matcher : List Char → Option (List Char × List Char))
    (rest : List Char) (n : Nat) : Except TomlError (List Char × List Char × Nat) :=
  match matcher rest with
  | none => .error (.decode .unexpectedSequence n)
  | some (m, r) => .ok (m, r, n + m.length)

/-! ### Value parsing (src/tomli/_parser.py lines 438-505 and 676-760)

The recursive productions (`parse_value`, `parse_array`,
`parse_inline_table`, `parse_key_value_pair`) recurse structurally on a
fuel parameter, decremented at every call inside the block; the statement
rules instantiate it with `3 * length + 10`, which `loadsNeverOutOfFuel`
below proves sufficient. -/

/-- `isinstance(value, (dict, list))`. -/
def isDictOrList {F : Type} : Value F → Bool
  | .table _ => true
  | .arr _ => true
  | _ => false

/-- The date-time and local-time regex branches of `parse_value` (tried in
source order before the number branches); `none` when neither regex
matches. -/
def parseDatetimeOrLocaltime {F : Type} (rest : List Char) (n : Nat) :
    Option (Except TomlError (Value F × List Char × Nat)) :=
  match matchDatetime rest with
  | some (m, r) =>
      some ((parseDatetimeFromMatch m).map (fun v => (v, r, n + m.matchStr.length)))
  | none =>
      match matchLocalTime rest with
      | some (g, r) =>
          some (.ok (parseLocaltimeFromMatch g, r, n + (rest.length - r.length)))
      | none => none

/-- The `0x`/`0o`/`0b` and decimal-or-float branches of `parse_value`;
`none` when none of them fires. -/
def parseNumberValue {F : Type} (pf : String → F) (rest : List Char) (n : Nat) :
    Option (Except TomlError (Value F × List Char × Nat)) :=
  let char := rest.take 1
  if char == ['0'] && (rest.drop 1).take 1 == ['x'] then
    some ((parseRegexWith matchHexTail (rest.drop 2) (n + 2)).map
      (fun x => (.int (digitsToNat 16 x.1), x.2.1, x.2.2)))
  else if char == ['0'] && (rest.drop 1).take 1 == ['o'] then
    some ((parseRegexWith matchOctTail (rest.drop 2) (n + 2)).map
      (fun x => (.int (digitsToNat 8 x.1), x.2.1, x.2.2)))
  else if char == ['0'] && (rest.drop 1).take 1 == ['b'] then
    some ((parseRegexWith matchBinTail (rest.drop 2) (n + 2)).map
      (fun x => (.int (digitsToNat 2 x.1), x.2.1, x.2.2)))
  else
    match matchDecOrFloat rest with
    | some (m, r) =>
        if m.contains '.' || m.contains 'e' || m.contains 'E' then
          some (.ok (.float (pf ⟨m⟩), r, n + m.length))
        else some (.ok (.int (pyIntOfDec m), r, n + m.length))
    | none => none

/-- The `inf`/`nan` branches at the end of `parse_value`; `none` when the
input starts with neither. -/
def parseSpecialFloat {F : Type} (pf : String → F) (rest : List Char) (n : Nat) :
    Option (Except TomlError (Value F × List Char × Nat)) :=
  if rest.take 3 == ['i', 'n', 'f'] || rest.take 3 == ['n', 'a', 'n'] then
    some (.ok (.float (pf ⟨rest.take 3⟩), rest.drop 3, n + 3))
  else if rest.take 4 == ['-', 'i', 'n', 'f'] || rest.take 4 == ['+', 'i', 'n', 'f']
      || rest.take 4 == ['-', 'n', 'a', 'n'] || rest.take 4 == ['+', 'n', 'a', 'n'] then
    some (.ok (.float (pf ⟨rest.take 4⟩), rest.drop 4, n + 4))
  else none

mutual

/-- `parse_value(state)`: dispatch on the first character, in source
order: strings, booleans, the date-time regex, the local-time regex,
non-decimal integers, decimal-or-float, arrays, inline tables, special
floats, and otherwise `Invalid value`. -/
def parseValue {F : Type} (pf : String → F) : Nat → List Char → Nat →
    Except TomlError (Value F × List Char × Nat)
  | 0, _, _ => .error .outOfFuel
  | fuel + 1, rest, n =>
      let char := rest.take 1
      if char == ['"'] then
        if (rest.drop 1).take 2 == ['"', '"'] then
          (parseMultilineStr false rest n).map (fun x => (.str x.1, x.2.1, x.2.2))
        else (parseBasicStr rest n).map (fun x => (.str x.1, x.2.1, x.2.2))
      else if char == ['\''] then
        if (rest.drop 1).take 2 == ['\'', '\''] then
          (parseMultilineStr true rest n).map (fun x => (.str x.1, x.2.1, x.2.2))
        else (parseLiteralStr rest n).map (fun x => (.str x.1, x.2.1, x.2.2))
      else if char == ['t'] && (rest.drop 1).take 3 == ['r', 'u', 'e'] then
        .ok (.bool true, rest.drop 4, n + 4)
      else if char == ['f'] && (rest.drop 1).take 4 == ['a', 'l', 's', 'e'] then
        .ok (.bool false, rest.drop 5, n + 5)
      else
        match parseDatetimeOrLocaltime rest n with
        | some res => res
        | none =>
            match parseNumberValue pf rest n with
            | some res => res
            | none =>
                if char == ['['] then
                  (parseArray pf fuel rest n).map (fun x => (.arr x.1, x.2.1, x.2.2))
                else if char == ['{'] then
                  (parseInlineTable pf fuel rest n).map
                    (fun x => (.table x.1, x.2.1, x.2.2))
                else
                  match parseSpecialFloat pf rest n with
                  | some res => res
                  | none => .error (.decode .invalidValue n)
termination_by structural fuel => fuel

/-- `parse_array(state)`: `rest` starts at the opening `[`. -/
def parseArray {F : Type} (pf : String → F) : Nat → List Char → Nat →
    Except TomlError (List (Value F) × List Char × Nat)
  | 0, _, _ => .error .outOfFuel
  | fuel + 1, rest, n =>
      match skipCommentsAndArrayWs (rest.drop 1) (n + 1) with
      | .error e => .error e
      | .ok (r1, n1) =>
          match r1 with
          | ']' :: r2 => .ok ([], r2, n1 + 1)
          | _ => parseArrayLoop pf fuel [] r1 n1
termination_by structural fuel => fuel

/-- The element loop of `parse_array` (trailing commas permitted). -/
def parseArrayLoop {F : Type} (pf : String → F) : Nat → List (Value F) → List Char → Nat →
    Except TomlError (List (Value F) × List Char × Nat)
  | 0, _, _, _ => .error .outOfFuel
  | fuel + 1, acc, rest, n =>
      match parseValue pf fuel rest n with
      | .error e => .error e
      | .ok (v, r1, n1) =>
          match skipCommentsAndArrayWs r1 n1 with
          | .error e => .error e
          | .ok (r2, n2) =>
              match r2 with
              | ']' :: r3 => .ok (acc ++ [v], r3, n2 + 1)
              | ',' :: r3 =>
                  match skipCommentsAndArrayWs r3 (n2 + 1) with
                  | .error e => .error e
                  | .ok (r4, n4) =>
                      match r4 with
                      | ']' :: r5 => .ok (acc ++ [v], r5, n4 + 1)
                      | _ => parseArrayLoop pf fuel (acc ++ [v]) r4 n4
              | _ => .error (.decode .unclosedArray n2)
termination_by structural fuel => fuel

/-- `parse_inline_table(state)`: `rest` starts at the opening `{`.  The
raise at src/tomli/_parser.py:475 (end of document right after the opening
brace and inline whitespace) is the one `TOMLDecodeError` without a
coordinate suffix. -/
def parseInlineTable {F : Type} (pf : String → F) : Nat → List Char → Nat →
    Except TomlError (Table F × List Char × Nat)
  | 0, _, _ => .error .outOfFuel
  | fuel + 1, rest, n =>
      let (r1, n1) := skipChars isTomlWs (rest.drop 1) (n + 1)
      match r1 with
      | [] => .error .bareUnclosedInlineTable
      | '}' :: r2 => .ok ([], r2, n1 + 1)
      | _ => parseInlineTableLoop pf fuel [] [] r1 n1
termination_by structural fuel => fuel

/-- The key/value loop of `parse_inline_table`, carrying the local
`NestedDict` and the local `Flags` trie. -/
def parseInlineTableLoop {F : Type} (pf : String → F) : Nat → Table F → FlagTrie →
    List Char → Nat → Except TomlError (Table F × List Char × Nat)
  | 0, _, _, _, _ => .error .outOfFuel
  | fuel + 1, nd, fl, rest, n =>
      match parseKeyValuePair pf fuel rest n with
      | .error e => .error e
      | .ok (key, v, r1, n1) =>
          match splitLast key with
          | none => .error .indexError
          | some (keyParent, keyStem) =>
              if Flags.isFlag fl key FROZEN then
                .error (.decode (.canNotMutateImmutable key) n1)
              else
                match getOrCreateNest (fun nest =>
                    if dictMem nest keyStem then
                      .error (.terr (.decode (.duplicateInlineKey keyStem) n1))
                    else .ok (dictSet nest keyStem v)) false keyParent nd with
                | .error .keyErr => .error (.decode .canNotOverwrite n1)
                | .error .idxErr => .error .indexError
                | .error (.terr e) => .error e
                | .ok nd' =>
                    let (r2, n2) := skipChars isTomlWs r1 n1
                    match r2 with
                    | '}' :: r3 => .ok (nd', r3, n2 + 1)
                    | ',' :: r3 =>
                        let fl' := if isDictOrList v then Flags.set fl key FROZEN true else fl
                        let (r4, n4) := skipChars isTomlWs r3 (n2 + 1)
                        parseInlineTableLoop pf fuel nd' fl' r4 n4
                    | _ => .error (.decode .unclosedInlineTable n2)
termination_by structural fuel => fuel

/-- `parse_key_value_pair(state)`. -/
def parseKeyValuePair {F : Type} (pf : String → F) : Nat → List Char → Nat →
    Except TomlError (List String × Value F × List Char × Nat)
  | 0, _, _ => .error .outOfFuel
  | fuel + 1, rest, n =>
      match parseKey rest n with
      | .error e => .error e
      | .ok (key, r1, n1) =>
          match r1 with
          | '=' :: r2 =>
              let (r3, n3) := skipChars isTomlWs r2 (n1 + 1)
              match parseValue pf fuel r3 n3 with
              | .error e => .error e
              | .ok (v, r4, n4) => .ok (key, v, r4, n4)
          | _ => .error (.decode .expectedEquals n1)
termination_by structural fuel => fuel

end

/-! ### Statement rules and the driver (src/tomli/_parser.py lines 61-127
and 301-389) -/

/-- The mutable parser state threaded through the statement loop: the
output `NestedDict`, the flag trie, and `state.header_namespace`. -/
structure DocState (F : Type) where
  out : Table F
  flags : FlagTrie
  headerNamespace : List String

/-- `create_dict_rule(state)`: `rest` starts at the `[`. -/
def createDictRule {F : Type} (st : DocState F) (rest : List Char) (n : Nat) :
    Except TomlError (DocState F × List Char × Nat) :=
  let (r1, n1) := skipChars isTomlWs (rest.drop 1) (n + 1)
  match parseKey r1 n1 with
  | .error e => .error e
  | .ok (key, r2, n2) =>
      if Flags.isFlag st.flags key EXPLICIT_NEST || Flags.isFlag st.flags key FROZEN then
        .error (.decode (.canNotDeclareTwice key) n2)
      else
        let flags' := Flags.set st.flags key EXPLICIT_NEST false
        match getOrCreateNest (fun t => .ok t) true key st.out with
        | .error .keyErr => .error (.decode .canNotOverwrite n2)
        | .error .idxErr => .error .indexError
        | .error (.terr e) => .error e
        | .ok out' =>
            match r2 with
            | ']' :: r3 =>
                .ok ({ out := out', flags := flags', headerNamespace := key }, r3, n2 + 1)
            | _ => .error (.decode .expectedRBracket n2)

/-- `create_list_rule(state)`: `rest` starts at the `[[`. -/
def createListRule {F : Type} (st : DocState F) (rest : List Char) (n : Nat) :
    Except TomlError (DocState F × List Char × Nat) :=
  let (r1, n1) := skipChars isTomlWs (rest.drop 2) (n + 2)
  match parseKey r1 n1 with
  | .error e => .error e
  | .ok (key, r2, n2) =>
      if Flags.isFlag st.flags key FROZEN then
        .error (.decode (.canNotMutateImmutable key) n2)
      else
        let flags1 := Flags.unsetAll st.flags key
        let flags2 := Flags.set flags1 key EXPLICIT_NEST false
        match appendNestToList st.out key with
        | .error .keyErr => .error (.decode .canNotOverwrite n2)
        | .error .idxErr => .error .indexError
        | .error (.terr e) => .error e
        | .ok out' =>
            if r2.take 2 == [']', ']'] then
              .ok ({ out := out', flags := flags2, headerNamespace := key }, r2.drop 2, n2 + 2)
            else .error (.decode (.badArrayDeclEnd ⟨r2.take 2⟩) n2)

/-- `key_value_rule(state)`. -/
def keyValueRule {F : Type} (pf : String → F) (st : DocState F) (rest : List Char)
    (n : Nat) : Except TomlError (DocState F × List Char × Nat) :=
  match parseKeyValuePair pf (3 * rest.length + 10) rest n with
  | .error e => .error e
  | .ok (key, v, r1, n1) =>
      match splitLast key with
      | none => .error .indexError
      | some (keyParent, keyStem) =>
          let absKeyParent := st.headerNamespace ++ keyParent
          let absKey := st.headerNamespace ++ key
          if Flags.isFlag st.flags absKeyParent FROZEN then
            .error (.decode (.canNotMutateImmutable absKeyParent) n1)
          else
            let flags1 := Flags.setForRelativeKey st.flags st.headerNamespace key
              EXPLICIT_NEST
            match getOrCreateNest (fun nest =>
                if dictMem nest keyStem then
                  .error (.terr (.decode (.canNotDefineTwice absKey) n1))
                else .ok (dictSet nest keyStem v)) true absKeyParent st.out with
            | .error .keyErr => .error (.decode .canNotOverwrite n1)
            | .error .idxErr => .error .indexError
            | .error (.terr e) => .error e
            | .ok out' =>
                let flags2 := if isDictOrList v then Flags.set flags1 absKey FROZEN true
                  else flags1
                .ok ({ out := out', flags := flags2,
                       headerNamespace := st.headerNamespace }, r1, n1)

/-- The statement loop of `loads` (src/tomli/_parser.py lines 82-127). -/
def parseStatements {F : Type} (pf : String → F) : Nat → DocState F → List Char →
    Nat → Except TomlError (Table F)
  | 0, _, _, _ => .error .outOfFuel
  | fuel + 1, st, rest, n =>
      let (r1, n1) := skipChars isTomlWs rest n
      match r1 with
      | [] => .ok st.out
      | '\n' :: r => parseStatements pf fuel st r (n1 + 1)
      | c :: _ =>
          let step : Except TomlError (DocState F × List Char × Nat) :=
            if c == '#' then (commentRule r1 n1).map (fun x => (st, x.1, x.2))
            else if isBareKeyChar c || c == '"' || c == '\'' then keyValueRule pf st r1 n1
            else if r1.take 2 == ['[', '['] then createListRule st r1 n1
            else if c == '[' then createDictRule st r1 n1
            else .error (.decode .invalidStatement n1)
          match step with
          | .error e => .error e
          | .ok (st', r2, n2) =>
              let (r3, n3) := skipChars isTomlWs r2 n2
              match skipComment r3 n3 with
              | .error e => .error e
              | .ok (r4, n4) =>
                  match r4 with
                  | [] => .ok st'.out
                  | '\n' :: r5 => parseStatements pf fuel st' r5 (n4 + 1)
                  | _ => .error (.decode .expectedNewline n4)
termination_by structural fuel => fuel

/-- `loads(s, parse_float=pf)` (src/tomli/_parser.py lines 71-127): replace
every `\r\n` with `\n`, then run the statement loop on the normalised
source (the statement-loop fuel `length + 1` is proved sufficient below). -/
def loads {F : Type} (pf : String → F) (s : String) : Except TomlError (Table F) :=
  let cs := normNewlines s.data
  parseStatements pf (cs.length + 1) ⟨[], [], []⟩ cs 0

/-- `load(fp, parse_float=pf)` (src/tomli/_parser.py lines 65-68): read the
file object's content with `fp.read()` and forward the string to `loads`
unchanged.  The parameter is annotated `TextIO`, so `fp.read()` yields the
text-mode string modelled here by `fileContent`; no UTF-8 decoding, BOM
stripping, or binary-mode `TypeError` check occurs in this revision. -/
def load {F : Type} (pf : String → F) (fileContent : String) :
    Except TomlError (Table F) :=
  loads pf fileContent

/-! ### Further definitions used by the claims -/

/-- Model of Python's `s.replace("\r\n", "\n")` at the `String` level, as
the outer replacement in claim C7's equation. -/
def pyReplaceCrlf (s : String) : String := ⟨normNewlines s.data⟩

/-- Node lookup along a nonempty key path in the flag trie (the dict the
source reaches by indexing `cont[k]` along the path). -/
def trieNode : FlagTrie → List String → Option FlagNode
  | _, [] => none
  | t, [k] => trieGet t k
  | t, k :: rest =>
      match trieGet t k with
      | none => none
      | some nd => trieNode nd.nested rest

/-- The claim's reading of `Flags.is_(key, flag)`: some proper prefix of
`key` carries `flag` recursively (an ancestor's recursive flag), or the
node at `key` itself carries it locally or recursively. -/
def isFlagSpec (t : FlagTrie) (key : List String) (flag : Nat) : Prop :=
  (∃ i, i + 1 < key.length ∧ ∃ nd, trieNode t (key.take (i + 1)) = some nd ∧
    nd.recFlags.contains flag = true) ∨
  (∃ nd, trieNode t key = some nd ∧
    (nd.flags.contains flag = true ∨ nd.recFlags.contains flag = true))

/-- Key membership at one trie level. -/
def trieHasKey (t : FlagTrie) (k : String) : Bool := t.any (fun kv => kv.1 == k)

/-- Pairwise-distinct keys at one trie level (always true of a Python
dict). -/
def trieKeysUnique : FlagTrie → Bool
  | [] => true
  | (k, _) :: rest => !(trieHasKey rest k) && trieKeysUnique rest

/-- Dict-style key uniqueness along a path of the flag trie (every level
the walk visits has pairwise-distinct keys, as a Python dict always
does). -/
def trieNDAlong : FlagTrie → List String → Bool
  | _, [] => true
  | t, k :: rest =>
      trieKeysUnique t &&
        (match trieGet t k with
         | none => true
         | some nd => trieNDAlong nd.nested rest)

/-- `isinstance(v, list)`. -/
def isList {F : Type} : Value F → Bool
  | .arr _ => true
  | _ => false

/-- Pairwise-distinct keys of a table, as a Python dict guarantees. -/
def tableKeysUnique {F : Type} : Table F → Bool
  | [] => true
  | (k, _) :: rest => !(dictMem rest k) && tableKeysUnique rest

mutual

/-- Every table inside the value has pairwise-distinct keys, recursively
(claim C1's invariant). -/
def valueND {F : Type} : Value F → Bool
  | .arr xs => listValuesND xs
  | .table kvs => tableKeysUnique kvs && tableValuesND kvs
  | _ => true

def listValuesND {F : Type} : List (Value F) → Bool
  | [] => true
  | v :: vs => valueND v && listValuesND vs

def tableValuesND {F : Type} : List (String × Value F) → Bool
  | [] => true
  | (_, v) :: kvs => valueND v && tableValuesND kvs

end

/-- `valueND` of a table, unfolded. -/
def tableND {F : Type} (t : Table F) : Bool := tableKeysUnique t && tableValuesND t

/-- Shift the coordinate carried by a decode error by `k` (the other error
forms carry no position). -/
def shErr (k : Nat) : TomlError → TomlError
  | .decode kind pos => .decode kind (pos + k)
  | e => e

/-- Shift the output position of a parser result by `k`, value and
remaining input unchanged (claim C5's statement that the skipped leading
newline affects only the cursor). -/
def shRes {α : Type} (k : Nat) :
    Except TomlError (α × List Char × Nat) → Except TomlError (α × List Char × Nat)
  | .ok (x, r, n) => .ok (x, r, n + k)
  | .error e => .error (shErr k e)

/-- The delimiter character of a multi-line string
(`parse_multiline_str`). -/
def mlDelim (literal : Bool) : Char := if literal then '\'' else '"'

/-- A character the multi-line bulk scanner copies verbatim: not the
delimiter, not a backslash when escapes are active (basic strings), and
not illegal for the form. -/
def mlPlainChar (literal : Bool) (c : Char) : Bool :=
  !(c == mlDelim literal) && (literal || !(c == '\\')) &&
  !(if literal then illegalMultilineLiteralStrChar c
    else illegalMultilineBasicStrChar c)

/-- The illegal-character predicate `parse_multiline_str` passes to
`parse_string`. -/
def mlIllegal (literal : Bool) : Char → Bool :=
  if literal then illegalMultilineLiteralStrChar else illegalMultilineBasicStrChar

/-- The escape callback `parse_multiline_str` passes to `parse_string`. -/
def mlEscOpt (literal : Bool) :
    Option (List Char → Nat → Except TomlError (List Char × List Char × Nat)) :=
  if literal then none else some (parseBasicStrEscape true)

/-- The closing-delimiter post-processing of `parse_multiline_str`
(src/tomli/_parser.py lines 578-591): after `parse_string` returns, up to
two further delimiter characters are appended to the value. -/
def mlPost (d : Char) : Except TomlError (String × List Char × Nat) →
    Except TomlError (String × List Char × Nat)
  | .error e => .error e
  | .ok (result, r3, n3) =>
      match r3 with
      | c :: r4 =>
          if c == d then
            match r4 with
            | c2 :: r5 =>
                if c2 == d then .ok (result ++ ⟨[d, d]⟩, r5, n3 + 2)
                else .ok (result ++ ⟨[d]⟩, c2 :: r5, n3 + 1)
            | [] => .ok (result ++ ⟨[d]⟩, [], n3 + 1)
          else .ok (result, c :: r4, n3)
      | [] => .ok (result, [], n3)

/-- Whether a result is the fuel-exhaustion marker of the embedding: the
only way the shallow embedding can fail to mirror a terminating run of the
source (claim C9 proves `loads` never produces it, so the embedding's fuel
is no restriction and the source's recursion terminates accordingly). -/
def isOutOfFuel {α : Type} : Except TomlError α → Bool
  | .error .outOfFuel => true
  | _ => false

/-! END-OF-DEFINITIONS -/

/-! ### Claims C7, C8, C4 -/

/-- Claim C7 (corrected), counterexample: for
`s = 'x="""a<CR><CR><LF>"""'` both `loads s` and
`loads (s.replace("\r\n", "\n"))` succeed, yet the trees differ: the
parser's single pre-pass rewrites the document's `\r\r\n` to `\r\n`, which
the outer replacement's second pass flattens further to `\n`. -/
theorem loads_crlf_counterexample :
    loads id "x=\"\"\"a\r\r\n\"\"\"" = .ok [("x", .str "a\r\n")] ∧
    loads id (pyReplaceCrlf "x=\"\"\"a\r\r\n\"\"\"") = .ok [("x", .str "a\n")] ∧
    ([("x", Value.str "a\r\n")] : Table String) ≠ [("x", .str "a\n")] := by
  refine ⟨rfl, rfl, ?_⟩
  simp

/-- Claim C7 (amended): `loads` applies exactly one `\r\n → \n` replacement
pass before the statement loop, so `loads s = loads (s.replace("\r\n","\n"))`
holds whenever that pass is idempotent on `s` (in particular whenever `s`
has no `\r\r\n`); the counterexample above shows it can fail otherwise even
with both parses succeeding. -/
theorem loads_crlf_stable {F : Type} (pf : String → F) (s : String)
    (h : normNewlines (normNewlines s.data) = normNewlines s.data) :
    loads pf s = loads pf (pyReplaceCrlf s) := by
  unfold loads pyReplaceCrlf
  show _ = parseStatements pf ((normNewlines (String.data ⟨normNewlines s.data⟩)).length + 1)
    ⟨[], [], []⟩ (normNewlines (String.data ⟨normNewlines s.data⟩)) 0
  rw [show String.data ⟨normNewlines s.data⟩ = normNewlines s.data from rfl, h]

/-- Witness for `loads_crlf_stable` at a concrete CRLF document. -/
theorem loads_crlf_stable_witness :
    normNewlines (normNewlines "a=1\r\nb=2".data) = normNewlines "a=1\r\nb=2".data ∧
    loads id "a=1\r\nb=2" = loads id (pyReplaceCrlf "a=1\r\nb=2") :=
  ⟨rfl, loads_crlf_stable id "a=1\r\nb=2" rfl⟩

/-- Claim C8 (code_bug): the stream entry point of this revision
(src/tomli/_parser.py lines 65-68) simply forwards `fp.read()` to `loads`:
a text-mode source is accepted and parsed (the repo's own
`tests/test_misc.py::test_incorrect_load` expects a `TypeError` instead),
and a leading BOM is not stripped, so a BOM-prefixed document fails with
`Invalid statement` at position 0 rather than parsing. -/
theorem load_text_mode_eval :
    load id "one=1" = .ok [("one", .int 1)] ∧
    load id "﻿one=1" = .error (.decode .invalidStatement 0) :=
  ⟨rfl, rfl⟩

/-- Claim C4 (code_bug): with an explicit offset the sign is applied to
both the hour and the minute components (`-07:30` gives `-450` minutes) and
fractional digits beyond the sixth are truncated; a trailing uppercase `Z`
yields UTC; but a trailing lowercase `z`, accepted by `RE_DATETIME`'s
`[Zz]`, fails `parse_datetime`'s `"Z" in match_str` test and produces a
naive LocalDateTime instead of an OffsetDateTime at UTC. -/
theorem parse_datetime_zulu_eval :
    loads id "x = 1988-10-27T00:32:00z"
      = .ok [("x", .datetime 1988 10 27 0 32 0 0 none)] ∧
    loads id "x = 1988-10-27T00:32:00Z"
      = .ok [("x", .datetime 1988 10 27 0 32 0 0 (some 0))] ∧
    loads id "x = 1979-05-27T00:32:00.9999995-07:30"
      = .ok [("x", .datetime 1979 5 27 0 32 0 999999 (some (-450)))] :=
  ⟨rfl, rfl, rfl⟩

/-! ### Claim C10: the empty key path and the document root -/

/-- Keys returned by `parseKeyLoop` extend the nonempty accumulator. -/
theorem parseKeyLoop_ne_nil : ∀ (fuel : Nat) (acc : List String) (rest : List Char)
    (n : Nat) (key : List String) (r : List Char) (n' : Nat),
    parseKeyLoop fuel acc rest n = .ok (key, r, n') → acc ≠ [] → key ≠ []
  | 0, _, _, _, _, _, _, h => by simp [parseKeyLoop] at h
  | fuel + 1, acc, rest, n, key, r, n', h => by
      intro hacc
      simp only [parseKeyLoop] at h
      split at h
      · split at h
        · exact absurd h (by simp)
        · exact parseKeyLoop_ne_nil fuel _ _ _ _ _ _ h (by simp)
      · simp only [Except.ok.injEq, Prod.mk.injEq] at h
        exact h.1 ▸ hacc

/-- `parse_key` returns at least one key part. -/
theorem parseKey_ne_nil {rest : List Char} {n : Nat} {key : List String}
    {r : List Char} {n' : Nat} (h : parseKey rest n = .ok (key, r, n')) : key ≠ [] := by
  unfold parseKey at h
  split at h
  · exact absurd h (by simp)
  · exact parseKeyLoop_ne_nil _ _ _ _ _ _ _ h (by simp)

/-- A `NestErr.terr` error out of `getOrCreateNest` originates in `f`. -/
theorem getOrCreateNest_terr {F : Type}
    {f : Table F → Except NestErr (Table F)} {al : Bool} :
    ∀ {path : List String} {t : Table F} {e : TomlError},
    getOrCreateNest f al path t = .error (.terr e) →
    ∃ nest, f nest = .error (.terr e)
  | [], t, e, h => ⟨t, h⟩
  | k :: rest, t, e, h => by
      unfold getOrCreateNest at h
      split at h
      · exact getOrCreateNest_terr (show getOrCreateNest f al rest ([] : Table F) =
            .error (.terr e) from by
          rcases hrec : getOrCreateNest f al rest ([] : Table F) with e' | v
          · rw [hrec] at h
            cases h
            rfl
          · rw [hrec] at h
            exact absurd h (by simp [Except.map]))
      · rename_i sub heq
        exact getOrCreateNest_terr (show getOrCreateNest f al rest sub =
            .error (.terr e) from by
          rcases hrec : getOrCreateNest f al rest sub with e' | v
          · rw [hrec] at h
            cases h
            rfl
          · rw [hrec] at h
            exact absurd h (by simp [Except.map]))
      · split at h
        · split at h
          · rename_i sub heq
            exact getOrCreateNest_terr (show getOrCreateNest f al rest sub =
                .error (.terr e) from by
              rcases hrec : getOrCreateNest f al rest sub with e' | v
              · rw [hrec] at h
                cases h
                rfl
              · rw [hrec] at h
                exact absurd h (by simp [Except.map]))
          · exact absurd h (by simp)
          · exact absurd h (by simp)
        · exact absurd h (by simp)
      · exact absurd h (by simp)

/-- Simp-friendly form of `Flags.is_` on the empty key (the source's
`if not key: return False`). -/
theorem Flags.isFlag_nil (t : FlagTrie) (flag : Nat) : Flags.isFlag t [] flag = false :=
  rfl

/-- Claim C10: the flag trie answers `false` on the empty key path, so (a)
the document root never carries `FROZEN` or `EXPLICIT_NEST`; (b) a
top-level key/value statement with a single-segment key, whose absolute
parent path is empty, can never fail the frozen-namespace check (no
`Can not mutate immutable namespace ()` error is possible); and (c) a
table header whose key parses can never reject the root as redeclared
(no `Can not declare () twice` error). -/
theorem flags_empty_key_root :
    (∀ (t : FlagTrie) (flag : Nat), Flags.isFlag t [] flag = false) ∧
    (∀ (F : Type) (pf : String → F) (st : DocState F) (rest : List Char) (n : Nat)
        (k : String) (v : Value F) (r1 : List Char) (n1 : Nat),
      st.headerNamespace = [] →
      parseKeyValuePair pf (3 * rest.length + 10) rest n = .ok ([k], v, r1, n1) →
      ∀ p, keyValueRule pf st rest n ≠ .error (.decode (.canNotMutateImmutable []) p)) ∧
    (∀ (F : Type) (st : DocState F) (rest : List Char) (n : Nat)
        (key : List String) (r2 : List Char) (n2 : Nat),
      parseKey (skipChars isTomlWs (rest.drop 1) (n + 1)).1
          (skipChars isTomlWs (rest.drop 1) (n + 1)).2 = .ok (key, r2, n2) →
      ∀ p, createDictRule st rest n ≠ .error (.decode (.canNotDeclareTwice []) p)) := by
  refine ⟨fun t flag => rfl, ?_, ?_⟩
  · intro F pf st rest n k v r1 n1 hhead hkvp p
    unfold keyValueRule
    rw [hkvp]
    simp only [splitLast, hhead, List.nil_append, Flags.isFlag_nil, Bool.false_eq_true,
      if_false, ne_eq]
    split
    · simp
    · simp
    · rename_i e heq
      obtain ⟨nest, hf⟩ := getOrCreateNest_terr heq
      split at hf
      · simp only [Except.error.injEq, NestErr.terr.injEq] at hf
        simp [← hf]
      · simp at hf
    · simp
  · intro F st rest n key r2 n2 hkey p
    unfold createDictRule
    rcases hsk : skipChars isTomlWs (rest.drop 1) (n + 1) with ⟨r1, n1⟩
    rw [hsk] at hkey
    simp only at hkey
    simp only [hkey, ne_eq]
    split
    · simp only [Except.error.injEq, TomlError.decode.injEq, not_and]
      intro hc
      exact absurd (by simpa using hc) (parseKey_ne_nil hkey)
    · split
      · simp
      · simp
      · rename_i e heq
        obtain ⟨nest, hf⟩ := getOrCreateNest_terr heq
        simp at hf
      · split
        · simp
        · simp

/-- Witness for `flags_empty_key_root` at concrete top-level statements. -/
theorem flags_empty_key_root_witness :
    keyValueRule id ⟨[], [], []⟩ "a=1".data 0
      ≠ .error (.decode (.canNotMutateImmutable []) 0) ∧
    createDictRule (⟨[], [], []⟩ : DocState String) "[t]".data 0
      ≠ .error (.decode (.canNotDeclareTwice []) 0) :=
  ⟨flags_empty_key_root.2.1 String id ⟨[], [], []⟩ "a=1".data 0 "a" (.int 1) [] 3 rfl rfl 0,
   flags_empty_key_root.2.2 String ⟨[], [], []⟩ "[t]".data 0 ["t"] [']'] 2 rfl 0⟩

/-! ### Claim C2: table headers and the flag trie -/

theorem addFlag_contains (l : List Nat) (flag : Nat) :
    (addFlag l flag).contains flag = true := by
  unfold addFlag
  split
  · assumption
  · simp

theorem trieGet_trieSet_self (t : FlagTrie) (k : String) (nd : FlagNode) :
    trieGet (trieSet t k nd) k = some nd := by
  induction t with
  | nil => simp [trieSet, trieGet]
  | cons hd tl ih =>
      obtain ⟨k', nd'⟩ := hd
      unfold trieSet
      split
      · rename_i h
        simp [trieGet, h]
      · rename_i h
        simp only [trieGet, h]
        exact ih

/-- `trieNode` on a cons path with a nonempty tail. -/
theorem trieNode_cons (t : FlagTrie) (k : String) (rest : List String) (hr : rest ≠ []) :
    trieNode t (k :: rest) =
      match trieGet t k with
      | none => none
      | some nd => trieNode nd.nested rest := by
  cases rest with
  | nil => exact absurd rfl hr
  | cons b bs => rfl

/-- After `Flags.set key flag` with `recursive` false, the node at `key`
carries `flag` in its local flag set. -/
theorem Flags.set_local_node : ∀ (key : List String) (t : FlagTrie) (flag : Nat),
    key ≠ [] →
    ∃ nd, trieNode (Flags.set t key flag false) key = some nd ∧
      nd.flags.contains flag = true
  | [], _, _, h => absurd rfl h
  | [k], t, flag, _ => by
      have h1 : Flags.set t [k] flag false
          = trieSet t k (.mk (addFlag ((trieGet t k).getD FlagNode.empty).flags flag)
              ((trieGet t k).getD FlagNode.empty).recFlags
              ((trieGet t k).getD FlagNode.empty).nested) := by
        simp [Flags.set]
      refine ⟨.mk (addFlag ((trieGet t k).getD FlagNode.empty).flags flag)
          ((trieGet t k).getD FlagNode.empty).recFlags
          ((trieGet t k).getD FlagNode.empty).nested, ?_, ?_⟩
      · rw [h1]
        exact trieGet_trieSet_self t k _
      · exact addFlag_contains _ flag
  | k :: k2 :: rest, t, flag, _ => by
      obtain ⟨nd, hnd, hflag⟩ := Flags.set_local_node (k2 :: rest)
        (match trieGet t k with
         | none => []
         | some nd => nd.nested) flag (by simp)
      refine ⟨nd, ?_, hflag⟩
      unfold Flags.set
      rcases hg : trieGet t k with _ | nd0
      · rw [trieNode_cons _ _ _ (by simp), trieGet_trieSet_self]
        simpa [FlagNode.nested, hg] using hnd
      · rw [trieNode_cons _ _ _ (by simp), trieGet_trieSet_self]
        simpa [FlagNode.nested, hg] using hnd

/-- The trie walk of `Flags.is_` computes exactly `isFlagSpec`. -/
theorem isFlag_iff : ∀ (key : List String) (t : FlagTrie) (flag : Nat),
    Flags.isFlag t key flag = true ↔ isFlagSpec t key flag
  | [], t, flag => by
      simp [Flags.isFlag, isFlagSpec, trieNode]
  | [k], t, flag => by
      unfold Flags.isFlag isFlagSpec
      cases hg : trieGet t k with
      | none =>
          simp only [Bool.false_eq_true, false_iff]
          rintro (⟨i, hi, nd, hnode, _⟩ | ⟨nd, hnode, _⟩)
          · simp at hi
          · simp [trieNode, hg] at hnode
      | some nd =>
          constructor
          · intro h
            exact Or.inr ⟨nd, by simp [trieNode, hg], by simpa using h⟩
          · rintro (⟨i, hi, nd', hnode, _⟩ | ⟨nd', hnode, h'⟩)
            · simp at hi
            · simp only [trieNode, hg, Option.some.injEq] at hnode
              simpa [hnode] using h'
  | k :: k2 :: rest, t, flag => by
      have IH := isFlag_iff (k2 :: rest)
      show (match trieGet t k with
        | none => false
        | some nd => nd.recFlags.contains flag || Flags.isFlag nd.nested (k2 :: rest) flag)
          = true ↔ _
      cases hg : trieGet t k with
      | none =>
          simp only [Bool.false_eq_true, false_iff]
          rintro (⟨i, hi, nd, hnode, _⟩ | ⟨nd, hnode, _⟩)
          · cases i with
            | zero => simp [trieNode, hg] at hnode
            | succ j =>
                rw [show (k :: k2 :: rest).take (j + 1 + 1)
                      = k :: ((k2 :: rest).take (j + 1)) from rfl,
                  trieNode_cons _ _ _ (by simp), hg] at hnode
                exact Option.noConfusion hnode
          · rw [trieNode_cons _ _ _ (by simp), hg] at hnode
            exact Option.noConfusion hnode
      | some nd =>
          simp only [Bool.or_eq_true]
          rw [IH nd.nested flag]
          unfold isFlagSpec
          constructor
          · rintro (hrec | hspec)
            · exact Or.inl ⟨0, by simp, nd, by simp [trieNode, hg], hrec⟩
            · rcases hspec with ⟨j, hj, nd', hnode, hrec'⟩ | ⟨nd', hnode, h'⟩
              · refine Or.inl ⟨j + 1, by simp only [List.length_cons] at hj ⊢; omega, nd', ?_, hrec'⟩
                rw [show (k :: k2 :: rest).take (j + 1 + 1)
                      = k :: ((k2 :: rest).take (j + 1)) from rfl,
                  trieNode_cons _ _ _ (by simp), hg]
                exact hnode
              · refine Or.inr ⟨nd', ?_, h'⟩
                rw [trieNode_cons _ _ _ (by simp), hg]
                exact hnode
          · rintro (⟨i, hi, nd', hnode, hrec'⟩ | ⟨nd', hnode, h'⟩)
            · cases i with
              | zero =>
                  simp only [List.take_succ_cons, List.take_zero, trieNode, hg,
                    Option.some.injEq] at hnode
                  exact Or.inl (hnode ▸ hrec')
              | succ j =>
                  rw [show (k :: k2 :: rest).take (j + 1 + 1)
                        = k :: ((k2 :: rest).take (j + 1)) from rfl,
                    trieNode_cons _ _ _ (by simp), hg] at hnode
                  refine Or.inr (Or.inl ⟨j, ?_, nd', hnode, hrec'⟩)
                  simp only [List.length_cons] at hi ⊢
                  omega
            · rw [trieNode_cons _ _ _ (by simp), hg] at hnode
              exact Or.inr (Or.inr ⟨nd', hnode, h'⟩)

/-- Claim C2: (1) `Flags.is_` holds exactly when the path carries the flag
locally, recursively, or via an ancestor's recursive flag; (2) a `[path]`
header whose parsed key carries `EXPLICIT_NEST` or `FROZEN` in that sense
raises `Can not declare <path> twice` (so no path carrying `EXPLICIT_NEST`
is ever re-opened as a `[...]` header); (3) on success the header sets
`EXPLICIT_NEST` non-recursively (locally) on the full path. -/
theorem create_dict_rule_spec :
    (∀ (t : FlagTrie) (key : List String) (flag : Nat),
      Flags.isFlag t key flag = true ↔ isFlagSpec t key flag) ∧
    (∀ (F : Type) (st : DocState F) (rest r1 : List Char) (n n1 : Nat)
        (key : List String) (r2 : List Char) (n2 : Nat),
      skipChars isTomlWs (rest.drop 1) (n + 1) = (r1, n1) →
      parseKey r1 n1 = .ok (key, r2, n2) →
      (Flags.isFlag st.flags key EXPLICIT_NEST = true ∨
        Flags.isFlag st.flags key FROZEN = true) →
      createDictRule st rest n = .error (.decode (.canNotDeclareTwice key) n2)) ∧
    (∀ (F : Type) (st : DocState F) (rest r1 : List Char) (n n1 : Nat)
        (key : List String) (r2 : List Char) (n2 : Nat) (st' : DocState F)
        (r' : List Char) (n' : Nat),
      skipChars isTomlWs (rest.drop 1) (n + 1) = (r1, n1) →
      parseKey r1 n1 = .ok (key, r2, n2) →
      createDictRule st rest n = .ok (st', r', n') →
      ∃ nd, trieNode st'.flags key = some nd ∧
        nd.flags.contains EXPLICIT_NEST = true) := by
  refine ⟨fun t key flag => isFlag_iff key t flag, ?_, ?_⟩
  · intro F st rest r1 n n1 key r2 n2 hsk hkey hflag
    have hcond : (Flags.isFlag st.flags key EXPLICIT_NEST
        || Flags.isFlag st.flags key FROZEN) = true := by
      rcases hflag with h | h <;> simp [h]
    unfold createDictRule
    rw [hsk]
    simp only [hkey, hcond, if_true]
  · intro F st rest r1 n n1 key r2 n2 st' r' n' hsk hkey hok
    unfold createDictRule at hok
    rw [hsk] at hok
    simp only [hkey] at hok
    split at hok
    · exact absurd hok (by simp)
    · split at hok
      · exact absurd hok (by simp)
      · exact absurd hok (by simp)
      · exact absurd hok (by simp)
      · split at hok
        · simp only [Except.ok.injEq, Prod.mk.injEq] at hok
          have hst : st'.flags = Flags.set st.flags key EXPLICIT_NEST false := by
            rw [← hok.1]
          rw [hst]
          exact Flags.set_local_node key st.flags EXPLICIT_NEST (parseKey_ne_nil hkey)
        · exact absurd hok (by simp)

/-- Witness for `create_dict_rule_spec`: re-opening `[t]` after a successful
`[t]` header raises, and the successful header marks the path locally. -/
theorem create_dict_rule_spec_witness :
    createDictRule
        (⟨[("t", .table [])], Flags.set [] ["t"] EXPLICIT_NEST false, ["t"]⟩ :
          DocState String) "[t]".data 0
      = .error (.decode (.canNotDeclareTwice ["t"]) 2) ∧
    (∃ nd, trieNode (Flags.set [] ["t"] EXPLICIT_NEST false) ["t"] = some nd ∧
      nd.flags.contains EXPLICIT_NEST = true) :=
  ⟨create_dict_rule_spec.2.1 String
      ⟨[("t", .table [])], Flags.set [] ["t"] EXPLICIT_NEST false, ["t"]⟩
      "[t]".data "t]".data 0 1 ["t"] [']'] 2 rfl rfl (Or.inl rfl),
   create_dict_rule_spec.2.2 String ⟨[], [], []⟩ "[t]".data "t]".data 0 1 ["t"] [']'] 2
      ⟨[("t", .table [])], Flags.set [] ["t"] EXPLICIT_NEST false, ["t"]⟩ [] 3
      rfl rfl rfl⟩

/-! ### Claim C3: array-of-tables headers -/

theorem trieGet_of_hasKey_false {t : FlagTrie} {k : String}
    (h : trieHasKey t k = false) : trieGet t k = none := by
  induction t with
  | nil => rfl
  | cons hd tl ih =>
      obtain ⟨k', nd'⟩ := hd
      simp only [trieHasKey, List.any_cons, Bool.or_eq_false_iff] at h
      simp only [trieGet, h.1]
      exact ih (by simpa [trieHasKey] using h.2)

theorem trieGet_trieRemove_self {t : FlagTrie} {k : String}
    (h : trieKeysUnique t = true) : trieGet (trieRemove t k) k = none := by
  induction t with
  | nil => rfl
  | cons hd tl ih =>
      obtain ⟨k', nd'⟩ := hd
      simp only [trieKeysUnique, Bool.and_eq_true, Bool.not_eq_true'] at h
      unfold trieRemove
      split
      · rename_i heq
        simp only [beq_iff_eq] at heq
        rw [← heq]
        exact trieGet_of_hasKey_false h.1
      · rename_i heq
        simp only [trieGet, heq]
        exact ih h.2

/-- Claim C3's flag-clearing step: `unset_all` pops the node at `key`, so
no flags remain stored at the path. -/
theorem unsetAll_node_none : ∀ (key : List String) (t : FlagTrie),
    key ≠ [] → trieNDAlong t key = true →
    trieNode (Flags.unsetAll t key) key = none
  | [], _, h, _ => absurd rfl h
  | [k], t, _, hnd => by
      have hu : trieKeysUnique t = true := by
        simp only [trieNDAlong, Bool.and_eq_true] at hnd
        exact hnd.1
      show trieGet (trieRemove t k) k = none
      exact trieGet_trieRemove_self hu
  | k :: k2 :: rest, t, _, hnd => by
      simp only [trieNDAlong, Bool.and_eq_true] at hnd
      unfold Flags.unsetAll
      rcases hg : trieGet t k with _ | nd
      · rw [trieNode_cons _ _ _ (by simp), hg]
      · rw [trieNode_cons _ _ _ (by simp), trieGet_trieSet_self]
        show trieNode (Flags.unsetAll nd.nested (k2 :: rest)) (k2 :: rest) = none
        refine unsetAll_node_none (k2 :: rest) nd.nested (by simp) ?_
        rw [hg] at hnd
        exact hnd.2

/-- `d[k] = v` then `d[k]` reads back `v`. -/
theorem dictGet_dictSet_self {F : Type} (t : Table F) (k : String) (v : Value F) :
    dictGet (dictSet t k v) k = some v := by
  induction t with
  | nil => simp [dictSet, dictGet]
  | cons hd tl ih =>
      obtain ⟨k', v'⟩ := hd
      unfold dictSet
      split
      · rename_i h
        simp [dictGet, h]
      · rename_i h
        simp only [dictGet, h]
        exact ih

/-- When the descent reaches a nest and the caller's mutation fails, the
combined operation fails the same way. -/
theorem getOrCreateNest_error_of_found {F : Type}
    {f : Table F → Except NestErr (Table F)} {al : Bool} :
    ∀ {path : List String} {t nest : Table F} {e : NestErr},
    readNest al path t = .found nest → f nest = .error e →
    getOrCreateNest f al path t = .error e
  | [], t, nest, e, hr, hf => by
      cases hr
      exact hf
  | k :: rest, t, nest, e, hr, hf => by
      simp only [readNest] at hr
      simp only [getOrCreateNest]
      split at hr
      · rw [getOrCreateNest_error_of_found hr hf]
        rfl
      · rw [getOrCreateNest_error_of_found hr hf]
        rfl
      · split at hr
        · rename_i hal
          rw [if_pos hal]
          split at hr
          · rename_i sub hlast
            rw [getOrCreateNest_error_of_found hr hf]
            rfl
          · exact ReadRes.noConfusion hr
          · exact ReadRes.noConfusion hr
        · exact ReadRes.noConfusion hr
      · exact ReadRes.noConfusion hr

/-- When the descent reaches a nest and the caller's mutation succeeds, the
combined operation succeeds and re-reading the path finds the mutated
nest. -/
theorem getOrCreateNest_ok_of_found {F : Type}
    {f : Table F → Except NestErr (Table F)} {al : Bool} :
    ∀ {path : List String} {t nest nest' : Table F},
    readNest al path t = .found nest → f nest = .ok nest' →
    ∃ t', getOrCreateNest f al path t = .ok t' ∧ readNest al path t' = .found nest'
  | [], t, nest, nest', hr, hf => by
      cases hr
      exact ⟨nest', hf, rfl⟩
  | k :: rest, t, nest, nest', hr, hf => by
      simp only [readNest] at hr
      simp only [getOrCreateNest]
      split at hr
      · obtain ⟨t', ht', hread⟩ := getOrCreateNest_ok_of_found hr hf
        refine ⟨dictSet t k (.table t'), by rw [ht']; rfl, ?_⟩
        simp only [readNest, dictGet_dictSet_self]
        exact hread
      · obtain ⟨t', ht', hread⟩ := getOrCreateNest_ok_of_found hr hf
        refine ⟨dictSet t k (.table t'), by rw [ht']; rfl, ?_⟩
        simp only [readNest, dictGet_dictSet_self]
        exact hread
      · rename_i xs heq
        split at hr
        · rename_i hal
          rw [if_pos hal]
          split at hr
          · rename_i sub hlast
            obtain ⟨t', ht', hread⟩ := getOrCreateNest_ok_of_found hr hf
            refine ⟨dictSet t k (.arr (xs.dropLast ++ [.table t'])), by rw [ht']; rfl, ?_⟩
            simp only [readNest, dictGet_dictSet_self, hal, if_true, List.getLast?_concat]
            exact hal ▸ hread
          · exact ReadRes.noConfusion hr
          · exact ReadRes.noConfusion hr
        · exact ReadRes.noConfusion hr
      · exact ReadRes.noConfusion hr

/-- Claim C3: for an `[[path]]` header, (a) a FROZEN path raises
`Can not mutate immutable namespace`; (b) `unset_all` clears every flag
stored at the path; (c) a successful header leaves `EXPLICIT_NEST` set
locally on the path; (d) `append_nest_to_list` appends a fresh empty table
to the array at the path, creating a one-element array when the final
segment is absent, and raises `KeyError` when the existing value is not an
array; (e) that `KeyError` surfaces as `Can not overwrite a value`. -/
theorem create_list_rule_spec :
    (∀ (F : Type) (st : DocState F) (rest r1 : List Char) (n n1 : Nat)
        (key : List String) (r2 : List Char) (n2 : Nat),
      skipChars isTomlWs (rest.drop 2) (n + 2) = (r1, n1) →
      parseKey r1 n1 = .ok (key, r2, n2) →
      Flags.isFlag st.flags key FROZEN = true →
      createListRule st rest n = .error (.decode (.canNotMutateImmutable key) n2)) ∧
    (∀ (t : FlagTrie) (key : List String), key ≠ [] → trieNDAlong t key = true →
      trieNode (Flags.unsetAll t key) key = none) ∧
    (∀ (F : Type) (st : DocState F) (rest r1 : List Char) (n n1 : Nat)
        (key : List String) (r2 : List Char) (n2 : Nat) (st' : DocState F)
        (r' : List Char) (n' : Nat),
      skipChars isTomlWs (rest.drop 2) (n + 2) = (r1, n1) →
      parseKey r1 n1 = .ok (key, r2, n2) →
      createListRule st rest n = .ok (st', r', n') →
      ∃ nd, trieNode st'.flags key = some nd ∧
        nd.flags.contains EXPLICIT_NEST = true) ∧
    (∀ (F : Type) (out : Table F) (key parent : List String) (lastKey : String)
        (nest : Table F) (xs : List (Value F)),
      splitLast key = some (parent, lastKey) →
      readNest true parent out = .found nest →
      dictGet nest lastKey = some (.arr xs) →
      ∃ out', appendNestToList out key = .ok out' ∧
        readNest true parent out' = .found (dictSet nest lastKey (.arr (xs ++ [.table []])))) ∧
    (∀ (F : Type) (out : Table F) (key parent : List String) (lastKey : String)
        (nest : Table F),
      splitLast key = some (parent, lastKey) →
      readNest true parent out = .found nest →
      dictGet nest lastKey = none →
      ∃ out', appendNestToList out key = .ok out' ∧
        readNest true parent out' = .found (dictSet nest lastKey (.arr [.table []]))) ∧
    (∀ (F : Type) (out : Table F) (key parent : List String) (lastKey : String)
        (nest : Table F) (v : Value F),
      splitLast key = some (parent, lastKey) →
      readNest true parent out = .found nest →
      dictGet nest lastKey = some v → isList v = false →
      appendNestToList out key = .error .keyErr) ∧
    (∀ (F : Type) (st : DocState F) (rest r1 : List Char) (n n1 : Nat)
        (key : List String) (r2 : List Char) (n2 : Nat),
      skipChars isTomlWs (rest.drop 2) (n + 2) = (r1, n1) →
      parseKey r1 n1 = .ok (key, r2, n2) →
      Flags.isFlag st.flags key FROZEN = false →
      appendNestToList st.out key = .error .keyErr →
      createListRule st rest n = .error (.decode .canNotOverwrite n2)) := by
  refine ⟨?_, fun t key h hnd => unsetAll_node_none key t h hnd, ?_, ?_, ?_, ?_, ?_⟩
  · intro F st rest r1 n n1 key r2 n2 hsk hkey hfroz
    unfold createListRule
    rw [hsk]
    simp only [hkey, hfroz, if_true]
  · intro F st rest r1 n n1 key r2 n2 st' r' n' hsk hkey hok
    unfold createListRule at hok
    rw [hsk] at hok
    simp only [hkey] at hok
    split at hok
    · exact absurd hok (by simp)
    · split at hok
      · exact absurd hok (by simp)
      · exact absurd hok (by simp)
      · exact absurd hok (by simp)
      · split at hok
        · simp only [Except.ok.injEq, Prod.mk.injEq] at hok
          have hst : st'.flags = Flags.set (Flags.unsetAll st.flags key) key
              EXPLICIT_NEST false := by
            rw [← hok.1]
          rw [hst]
          exact Flags.set_local_node key _ EXPLICIT_NEST (parseKey_ne_nil hkey)
        · exact absurd hok (by simp)
  · intro F out key parent lastKey nest xs hsplit hread hget
    unfold appendNestToList
    rw [hsplit]
    exact getOrCreateNest_ok_of_found hread (by simp only [hget])
  · intro F out key parent lastKey nest hsplit hread hget
    unfold appendNestToList
    rw [hsplit]
    exact getOrCreateNest_ok_of_found hread (by simp only [hget])
  · intro F out key parent lastKey nest v hsplit hread hget hv
    unfold appendNestToList
    rw [hsplit]
    refine getOrCreateNest_error_of_found hread ?_
    rcases v with s | iv | x | b | y | ti | dt | xs | kvs
    all_goals simp only [hget]
    all_goals first
      | rfl
      | (simp [isList] at hv)
  · intro F st rest r1 n n1 key r2 n2 hsk hkey hfroz happ
    unfold createListRule
    rw [hsk]
    simp only [hkey, hfroz, Bool.false_eq_true, if_false, happ]

/-- Witness for `create_list_rule_spec` at concrete `[[a]]` headers. -/
theorem create_list_rule_spec_witness :
    createListRule
        (⟨[("a", .arr [])], Flags.set [] ["a"] FROZEN true, []⟩ : DocState String)
        "[[a]]".data 0
      = .error (.decode (.canNotMutateImmutable ["a"]) 3) ∧
    (∃ out', appendNestToList ([] : Table String) ["a"] = .ok out' ∧
      readNest true [] out' = .found [("a", .arr [.table []])]) ∧
    createListRule (⟨[("a", .int 1)], [], []⟩ : DocState String) "[[a]]".data 0
      = .error (.decode .canNotOverwrite 3) :=
  ⟨create_list_rule_spec.1 String ⟨[("a", .arr [])], Flags.set [] ["a"] FROZEN true, []⟩
      "[[a]]".data "a]]".data 0 2 ["a"] "]]".data 3 rfl rfl rfl,
   create_list_rule_spec.2.2.2.2.1 String [] ["a"] [] "a" [] rfl rfl rfl,
   create_list_rule_spec.2.2.2.2.2.2 String ⟨[("a", .int 1)], [], []⟩
      "[[a]]".data "a]]".data 0 2 ["a"] "]]".data 3 rfl rfl rfl rfl⟩

/-! ### Claim C6: error message coordinates -/

/-- The `coord_repr` computation spelled out as the claim states it. -/
theorem coordRepr_spec (src : List Char) (pos : Nat) :
    (pos < src.length →
      coordRepr src pos =
        "line " ++ toString (1 + countNewlines (src.take pos)) ++ ", column " ++
          toString (if countNewlines (src.take pos) = 0 then pos + 1
            else pos - (lastNewlineIdx (src.take pos)).getD 0)) ∧
    (src.length ≤ pos → coordRepr src pos = "end of document") := by
  constructor
  · intro hlt
    unfold coordRepr
    rw [if_pos hlt, Nat.add_comm 1 (countNewlines (src.take pos))]
    by_cases hc : countNewlines (src.take pos) = 0
    · simp [hc]
    · have hb : ((countNewlines (src.take pos) + 1) == 1) = false := by
        simp only [beq_eq_false_iff_ne, ne_eq]
        omega
      simp [hb, hc]
  · intro hge
    unfold coordRepr
    rw [if_neg (by omega)]

/-- Claim C6 (amended): every error built through `suffix_coord` (every
`TomlError.decode`) renders as the message followed by
`" (at line L, column C)"`, with `L` = 1 + the number of newlines before
the position and `C` = position + 1 on line 1 or else position minus the
index of the last newline, or `" (at end of document)"` at end of input.
(The raise at src/tomli/_parser.py:475 produces the one `TOMLDecodeError`
without this suffix — see `loads_error_suffix_counterexample`.) -/
theorem loads_error_suffix {F : Type} (pf : String → F) (s : String)
    (kind : ErrKind) (pos : Nat)
    (h : loads pf s = .error (.decode kind pos)) :
    renderError (normNewlines s.data) (.decode kind pos) =
      kind.message ++ " (at " ++ coordRepr (normNewlines s.data) pos ++ ")" ∧
    (pos < (normNewlines s.data).length →
      coordRepr (normNewlines s.data) pos =
        "line " ++ toString (1 + countNewlines ((normNewlines s.data).take pos)) ++
          ", column " ++
          toString (if countNewlines ((normNewlines s.data).take pos) = 0 then pos + 1
            else pos - (lastNewlineIdx ((normNewlines s.data).take pos)).getD 0)) ∧
    ((normNewlines s.data).length ≤ pos →
      renderError (normNewlines s.data) (.decode kind pos) =
        kind.message ++ " (at end of document)") := by
  refine ⟨by simp [renderError, String.append_assoc], (coordRepr_spec _ pos).1, ?_⟩
  intro hge
  simp [renderError, (coordRepr_spec _ pos).2 hge, String.append_assoc]

/-- Claim C6, counterexample: a document ending right after an inline
table's opening brace raises the coordinate-free `Unclosed inline table`
(src/tomli/_parser.py:475), so not every parser error message carries a
coordinate suffix (its message does not even end with a parenthesis). -/
theorem loads_error_suffix_counterexample :
    loads id "x=\x7b" = .error .bareUnclosedInlineTable ∧
    renderError (normNewlines "x=\x7b".data) .bareUnclosedInlineTable
      = "Unclosed inline table" ∧
    ("Unclosed inline table".data.getLast? == some ')') = false :=
  ⟨rfl, rfl, rfl⟩

/-- Witness for `loads_error_suffix` at the failing document `val=.`. -/
theorem loads_error_suffix_witness :
    renderError (normNewlines "val=.".data) (.decode .invalidValue 4) =
      (ErrKind.invalidValue).message ++ " (at " ++
        coordRepr (normNewlines "val=.".data) 4 ++ ")" ∧
    (4 < (normNewlines "val=.".data).length →
      coordRepr (normNewlines "val=.".data) 4 =
        "line " ++ toString (1 + countNewlines ((normNewlines "val=.".data).take 4)) ++
          ", column " ++
          toString (if countNewlines ((normNewlines "val=.".data).take 4) = 0 then 4 + 1
            else 4 - (lastNewlineIdx ((normNewlines "val=.".data).take 4)).getD 0)) ∧
    ((normNewlines "val=.".data).length ≤ 4 →
      renderError (normNewlines "val=.".data) (.decode .invalidValue 4) =
        (ErrKind.invalidValue).message ++ " (at end of document)") :=
  loads_error_suffix id "val=." .invalidValue 4 rfl

/-! ### Claim C1: duplicate keys -/

theorem dictMem_dictSet {F : Type} (t : Table F) (k k' : String) (v : Value F) :
    dictMem (dictSet t k v) k' = ((k == k') || dictMem t k') := by
  induction t with
  | nil => simp [dictSet, dictMem, BEq.comm]
  | cons hd tl ih =>
      obtain ⟨k0, v0⟩ := hd
      unfold dictSet
      split
      · rename_i h
        simp only [dictMem, List.any_cons] at *
        simp only [beq_iff_eq] at h
        rw [h]
        cases hk : (k == k') <;> simp [hk]
      · simp only [dictMem, List.any_cons] at *
        rw [ih]
        cases h0 : (k0 == k') <;> cases h1 : (k == k') <;> simp

theorem tableKeysUnique_dictSet {F : Type} (t : Table F) (k : String) (v : Value F)
    (h : tableKeysUnique t = true) : tableKeysUnique (dictSet t k v) = true := by
  induction t with
  | nil => simp [dictSet, tableKeysUnique, dictMem]
  | cons hd tl ih =>
      obtain ⟨k0, v0⟩ := hd
      simp only [tableKeysUnique, Bool.and_eq_true, Bool.not_eq_true'] at h
      unfold dictSet
      split
      · simp only [tableKeysUnique, Bool.and_eq_true, Bool.not_eq_true']
        exact h
      · rename_i hne
        simp only [tableKeysUnique, Bool.and_eq_true, Bool.not_eq_true']
        refine ⟨?_, ih h.2⟩
        rw [dictMem_dictSet]
        simp only [Bool.or_eq_false_iff]
        exact ⟨by simpa [BEq.comm] using hne, h.1⟩

theorem tableValuesND_dictSet {F : Type} (t : Table F) (k : String) (v : Value F)
    (ht : tableValuesND t = true) (hv : valueND v = true) :
    tableValuesND (dictSet t k v) = true := by
  induction t with
  | nil => simpa [dictSet, tableValuesND]
  | cons hd tl ih =>
      obtain ⟨k0, v0⟩ := hd
      simp only [tableValuesND, Bool.and_eq_true] at ht
      unfold dictSet
      split
      · simp only [tableValuesND, Bool.and_eq_true]
        exact ⟨hv, ht.2⟩
      · simp only [tableValuesND, Bool.and_eq_true]
        exact ⟨ht.1, ih ht.2⟩

theorem tableND_dictSet {F : Type} {t : Table F} {k : String} {v : Value F}
    (ht : tableND t = true) (hv : valueND v = true) :
    tableND (dictSet t k v) = true := by
  simp only [tableND, Bool.and_eq_true] at *
  exact ⟨tableKeysUnique_dictSet t k v ht.1, tableValuesND_dictSet t k v ht.2 hv⟩

/-- Looking up a value in an ND table yields an ND value. -/
theorem valueND_of_dictGet {F : Type} : ∀ {t : Table F} {k : String} {v : Value F},
    tableND t = true → dictGet t k = some v → valueND v = true
  | [], _, _, _, hg => by simp [dictGet] at hg
  | (k0, v0) :: tl, k, v, ht, hg => by
      simp only [tableND, tableKeysUnique, tableValuesND, Bool.and_eq_true] at ht
      unfold dictGet at hg
      split at hg
      · cases hg
        exact ht.2.1
      · exact valueND_of_dictGet
          (show tableND tl = true from by simp [tableND, ht.1.2, ht.2.2]) hg

theorem listValuesND_append {F : Type} (a b : List (Value F)) :
    listValuesND (a ++ b) = (listValuesND a && listValuesND b) := by
  induction a with
  | nil => simp [listValuesND]
  | cons v vs ih =>
      simp only [List.cons_append, listValuesND, List.append_eq]
      rw [ih, Bool.and_assoc]

theorem valueND_of_getLast {F : Type} {xs : List (Value F)} {v : Value F}
    (hnd : listValuesND xs = true) (hl : xs.getLast? = some v) : valueND v = true := by
  induction xs with
  | nil => simp at hl
  | cons x tl ih =>
      cases tl with
      | nil =>
          simp only [List.getLast?_singleton, Option.some.injEq] at hl
          simp only [listValuesND, Bool.and_eq_true] at hnd
          rw [← hl]
          exact hnd.1
      | cons y ys =>
          rw [List.getLast?_cons_cons] at hl
          simp only [listValuesND, Bool.and_eq_true] at hnd
          exact ih (by simp [listValuesND, hnd.2.1, hnd.2.2]) hl

theorem listValuesND_dropLast {F : Type} {xs : List (Value F)}
    (hnd : listValuesND xs = true) : listValuesND xs.dropLast = true := by
  induction xs with
  | nil => simp [listValuesND]
  | cons x tl ih =>
      cases tl with
      | nil => simp [listValuesND]
      | cons y ys =>
          simp only [listValuesND, Bool.and_eq_true] at hnd
          rw [List.dropLast_cons_of_ne_nil (by simp)]
          simp only [listValuesND, Bool.and_eq_true]
          exact ⟨hnd.1, ih (by simp [listValuesND, hnd.2.1, hnd.2.2])⟩

theorem valueND_table {F : Type} (t : Table F) : valueND (.table t) = tableND t := rfl

theorem valueND_arr {F : Type} (xs : List (Value F)) :
    valueND (.arr xs) = listValuesND xs := rfl

/-- `get_or_create_nest` plus an ND-preserving mutation preserves the
recursive no-duplicate-keys invariant. -/
theorem getOrCreateNest_ND {F : Type}
    {f : Table F → Except NestErr (Table F)}
    (hf : ∀ nest nest', tableND nest = true → f nest = .ok nest' → tableND nest' = true)
    {al : Bool} :
    ∀ {path : List String} {t t' : Table F},
    tableND t = true → getOrCreateNest f al path t = .ok t' → tableND t' = true
  | [], t, t', ht, h => hf t t' ht h
  | k :: rest, t, t', ht, h => by
      simp only [getOrCreateNest] at h
      split at h
      · rcases hmap : getOrCreateNest f al rest ([] : Table F) with e | sub'
        · rw [hmap] at h
          exact absurd h (by simp [Except.map])
        · rw [hmap] at h
          simp only [Except.map, Except.ok.injEq] at h
          have hsub' := getOrCreateNest_ND hf (by rfl) hmap
          rw [← h]
          exact tableND_dictSet ht (by rw [valueND_table]; exact hsub')
      · rename_i sub hg
        rcases hmap : getOrCreateNest f al rest sub with e | sub'
        · rw [hmap] at h
          exact absurd h (by simp [Except.map])
        · rw [hmap] at h
          simp only [Except.map, Except.ok.injEq] at h
          have hsubnd : tableND sub = true := by
            rw [← valueND_table]
            exact valueND_of_dictGet ht hg
          have hsub' := getOrCreateNest_ND hf hsubnd hmap
          rw [← h]
          exact tableND_dictSet ht (by rw [valueND_table]; exact hsub')
      · rename_i xs hg
        split at h
        · split at h
          · rename_i sub hlast
            rcases hmap : getOrCreateNest f al rest sub with e | sub'
            · rw [hmap] at h
              exact absurd h (by simp [Except.map])
            · rw [hmap] at h
              simp only [Except.map, Except.ok.injEq] at h
              have hxsnd : listValuesND xs = true := by
                rw [← valueND_arr]
                exact valueND_of_dictGet ht hg
              have hsubnd : tableND sub = true := by
                rw [← valueND_table]
                exact valueND_of_getLast hxsnd hlast
              have hsub' := getOrCreateNest_ND hf hsubnd hmap
              rw [← h]
              refine tableND_dictSet ht ?_
              rw [valueND_arr, listValuesND_append]
              simp only [Bool.and_eq_true]
              refine ⟨listValuesND_dropLast hxsnd, ?_⟩
              simp only [listValuesND, Bool.and_eq_true]
              exact ⟨by rw [valueND_table]; exact hsub', trivial⟩
          · exact absurd h (by simp)
          · exact absurd h (by simp)
        · exact absurd h (by simp)
      · exact absurd h (by simp)

/-- `append_nest_to_list` preserves the invariant. -/
theorem appendNestToList_ND {F : Type} {t t' : Table F} {key : List String}
    (ht : tableND t = true) (h : appendNestToList t key = .ok t') :
    tableND t' = true := by
  unfold appendNestToList at h
  split at h
  · exact absurd h (by simp)
  · refine getOrCreateNest_ND ?_ ht h
    intro nest nest' hnest hf
    split at hf
    · rename_i xs hg
      cases hf
      refine tableND_dictSet hnest ?_
      rw [valueND_arr, listValuesND_append]
      have : listValuesND xs = true := by
        rw [← valueND_arr]
        exact valueND_of_dictGet hnest hg
      simp [this, listValuesND, valueND, tableND, tableKeysUnique, tableValuesND]
    · exact absurd hf (by simp)
    · cases hf
      refine tableND_dictSet hnest ?_
      simp [valueND_arr, listValuesND, valueND, tableND, tableKeysUnique, tableValuesND]

theorem exceptMap_ok {ε α β : Type} {g : α → β} {e : Except ε α} {y : β}
    (h : Except.map g e = .ok y) : ∃ x, e = .ok x ∧ y = g x := by
  cases e with
  | error e0 => exact absurd h (by simp [Except.map])
  | ok x =>
      refine ⟨x, rfl, ?_⟩
      simpa [Except.map] using h.symm

theorem parseDatetimeFromMatch_ND {F : Type} {m : DateTimeMatch} {v : Value F}
    (h : parseDatetimeFromMatch m = .ok v) : valueND v = true := by
  unfold parseDatetimeFromMatch at h
  dsimp only at h
  split at h
  · split at h
    · cases h
      rfl
    · exact absurd h (by simp)
  · split at h
    · cases h
      rfl
    · exact absurd h (by simp)


theorem parseDatetimeOrLocaltime_ND {F : Type} {rest : List Char} {n : Nat}
    {res : Except TomlError (Value F × List Char × Nat)} {v : Value F}
    {r' : List Char} {n' : Nat} (hs : parseDatetimeOrLocaltime rest n = some res)
    (h : res = .ok (v, r', n')) : valueND v = true := by
  unfold parseDatetimeOrLocaltime at hs
  split at hs
  · simp only [Option.some.injEq] at hs
    rw [← hs] at h
    obtain ⟨x, hx, hy⟩ := exceptMap_ok h
    simp only [Prod.mk.injEq] at hy
    rw [hy.1]
    exact parseDatetimeFromMatch_ND hx
  · split at hs
    · simp only [Option.some.injEq] at hs
      rw [← hs] at h
      simp only [Except.ok.injEq, Prod.mk.injEq] at h
      rw [← h.1]
      rfl
    · exact Option.noConfusion hs

theorem parseNumberValue_ND {F : Type} {pf : String → F} {rest : List Char} {n : Nat}
    {res : Except TomlError (Value F × List Char × Nat)} {v : Value F}
    {r' : List Char} {n' : Nat} (hs : parseNumberValue pf rest n = some res)
    (h : res = .ok (v, r', n')) : valueND v = true := by
  unfold parseNumberValue at hs
  dsimp only at hs
  split at hs
  · simp only [Option.some.injEq] at hs
    rw [← hs] at h
    obtain ⟨x, hx, hy⟩ := exceptMap_ok h
    simp only [Prod.mk.injEq] at hy
    rw [hy.1]
    rfl
  · split at hs
    · simp only [Option.some.injEq] at hs
      rw [← hs] at h
      obtain ⟨x, hx, hy⟩ := exceptMap_ok h
      simp only [Prod.mk.injEq] at hy
      rw [hy.1]
      rfl
    · split at hs
      · simp only [Option.some.injEq] at hs
        rw [← hs] at h
        obtain ⟨x, hx, hy⟩ := exceptMap_ok h
        simp only [Prod.mk.injEq] at hy
        rw [hy.1]
        rfl
      · split at hs
        · split at hs
          all_goals
            simp only [Option.some.injEq] at hs
          all_goals
            rw [← hs] at h
          all_goals
            simp only [Except.ok.injEq, Prod.mk.injEq] at h
          all_goals
            rw [← h.1]
          all_goals
            rfl
        · exact Option.noConfusion hs

theorem parseSpecialFloat_ND {F : Type} {pf : String → F} {rest : List Char} {n : Nat}
    {res : Except TomlError (Value F × List Char × Nat)} {v : Value F}
    {r' : List Char} {n' : Nat} (hs : parseSpecialFloat pf rest n = some res)
    (h : res = .ok (v, r', n')) : valueND v = true := by
  unfold parseSpecialFloat at hs
  repeat' split at hs
  all_goals first
    | exact Option.noConfusion hs
    | (simp only [Option.some.injEq] at hs
       rw [← hs] at h
       simp only [Except.ok.injEq, Prod.mk.injEq] at h
       rw [← h.1]
       rfl)

/-- Every value the recursive productions return satisfies the recursive
no-duplicate-keys invariant; inline tables additionally preserve it for
the accumulated local `NestedDict`. -/
theorem parseBlock_ND {F : Type} (pf : String → F) : ∀ (fuel : Nat),
    (∀ rest n v r' n', parseValue pf fuel rest n = .ok (v, r', n') → valueND v = true) ∧
    (∀ rest n xs r' n', parseArray pf fuel rest n = .ok (xs, r', n') →
      listValuesND xs = true) ∧
    (∀ acc rest n xs r' n', listValuesND acc = true →
      parseArrayLoop pf fuel acc rest n = .ok (xs, r', n') → listValuesND xs = true) ∧
    (∀ rest n t r' n', parseInlineTable pf fuel rest n = .ok (t, r', n') →
      tableND t = true) ∧
    (∀ nd fl rest n t r' n', tableND nd = true →
      parseInlineTableLoop pf fuel nd fl rest n = .ok (t, r', n') → tableND t = true) ∧
    (∀ rest n key v r' n', parseKeyValuePair pf fuel rest n = .ok (key, v, r', n') →
      valueND v = true) := by
  intro fuel
  induction fuel with
  | zero =>
      refine ⟨?_, ?_, ?_, ?_, ?_, ?_⟩
      · intro rest n v r' n' h
        simp [parseValue] at h
      · intro rest n xs r' n' h
        simp [parseArray] at h
      · intro acc rest n xs r' n' _ h
        simp [parseArrayLoop] at h
      · intro rest n t r' n' h
        simp [parseInlineTable] at h
      · intro nd fl rest n t r' n' _ h
        simp [parseInlineTableLoop] at h
      · intro rest n key v r' n' h
        simp [parseKeyValuePair] at h
  | succ f ih =>
      obtain ⟨ihV, ihA, ihL, ihT, ihTL, ihKVP⟩ := ih
      refine ⟨?_, ?_, ?_, ?_, ?_, ?_⟩
      · intro rest n v r' n' h
        unfold parseValue at h
        dsimp only at h
        split at h
        · split at h
          all_goals
            obtain ⟨x, hx, hy⟩ := exceptMap_ok h
          all_goals
            simp only [Prod.mk.injEq] at hy
          all_goals
            rw [hy.1]
          all_goals
            rfl
        · split at h
          · split at h
            all_goals
              obtain ⟨x, hx, hy⟩ := exceptMap_ok h
            all_goals
              simp only [Prod.mk.injEq] at hy
            all_goals
              rw [hy.1]
            all_goals
              rfl
          · split at h
            · simp only [Except.ok.injEq, Prod.mk.injEq] at h
              rw [← h.1]
              rfl
            · split at h
              · simp only [Except.ok.injEq, Prod.mk.injEq] at h
                rw [← h.1]
                rfl
              · split at h
                · rename_i res0 hsome
                  exact parseDatetimeOrLocaltime_ND hsome h
                · split at h
                  · rename_i res0 hsome
                    exact parseNumberValue_ND hsome h
                  · split at h
                    · obtain ⟨x, hx, hy⟩ := exceptMap_ok h
                      simp only [Prod.mk.injEq] at hy
                      rw [hy.1, valueND_arr]
                      rcases x with ⟨x1, x2, x3⟩
                      exact ihA _ _ _ _ _ hx
                    · split at h
                      · obtain ⟨x, hx, hy⟩ := exceptMap_ok h
                        simp only [Prod.mk.injEq] at hy
                        rw [hy.1, valueND_table]
                        rcases x with ⟨x1, x2, x3⟩
                        exact ihT _ _ _ _ _ hx
                      · split at h
                        · rename_i res0 hsome
                          exact parseSpecialFloat_ND hsome h
                        · exact Except.noConfusion h
      · intro rest n xs r' n' h
        unfold parseArray at h
        split at h
        · exact Except.noConfusion h
        · split at h
          · simp only [Except.ok.injEq, Prod.mk.injEq] at h
            rw [← h.1]
            rfl
          · exact ihL [] _ _ _ _ _ rfl h
      · intro acc rest n xs r' n' hacc h
        unfold parseArrayLoop at h
        split at h
        · exact Except.noConfusion h
        · rename_i v0 r1 n1 heqv
          have hv0 : valueND v0 = true := ihV _ _ _ _ _ heqv
          split at h
          · exact Except.noConfusion h
          · have happ : listValuesND (acc ++ [v0]) = true := by
              rw [listValuesND_append]
              simp [hacc, listValuesND, hv0]
            split at h
            · simp only [Except.ok.injEq, Prod.mk.injEq] at h
              rw [← h.1]
              exact happ
            · split at h
              · exact Except.noConfusion h
              · split at h
                · simp only [Except.ok.injEq, Prod.mk.injEq] at h
                  rw [← h.1]
                  exact happ
                · exact ihL _ _ _ _ _ _ happ h
            · exact Except.noConfusion h
      · intro rest n t r' n' h
        unfold parseInlineTable at h
        split at h
        split at h
        · exact Except.noConfusion h
        · simp only [Except.ok.injEq, Prod.mk.injEq] at h
          rw [← h.1]
          rfl
        · exact ihTL [] [] _ _ _ _ _ rfl h
      · intro nd fl rest n t r' n' hnd h
        unfold parseInlineTableLoop at h
        split at h
        · exact Except.noConfusion h
        · rename_i key0 v0 r1 n1 heqkvp
          have hv0 : valueND v0 = true := ihKVP _ _ _ _ _ _ heqkvp
          split at h
          · exact Except.noConfusion h
          · split at h
            · exact Except.noConfusion h
            · split at h
              · exact Except.noConfusion h
              · exact Except.noConfusion h
              · exact Except.noConfusion h
              · rename_i nd' heqg
                have hnd' : tableND nd' = true := by
                  refine getOrCreateNest_ND ?_ hnd heqg
                  intro nest nest' hnest hf
                  split at hf
                  · exact Except.noConfusion hf
                  · cases hf
                    exact tableND_dictSet hnest hv0
                split at h
                split at h
                · simp only [Except.ok.injEq, Prod.mk.injEq] at h
                  rw [← h.1]
                  exact hnd'
                · exact ihTL _ _ _ _ _ _ _ hnd' h
                · exact Except.noConfusion h
      · intro rest n key v r' n' h
        unfold parseKeyValuePair at h
        split at h
        · exact Except.noConfusion h
        · split at h
          · split at h
            split at h
            · exact Except.noConfusion h
            · rename_i v0 r4 n4 heqv
              simp only [Except.ok.injEq, Prod.mk.injEq] at h
              rw [← h.2.1]
              exact ihV _ _ _ _ _ heqv
          · exact Except.noConfusion h

/-- `key_value_rule` preserves the recursive no-duplicate-keys invariant of
the output table. -/
theorem keyValueRule_ND {F : Type} {pf : String → F} {st st' : DocState F}
    {rest r' : List Char} {n n' : Nat} (hst : tableND st.out = true)
    (h : keyValueRule pf st rest n = .ok (st', r', n')) : tableND st'.out = true := by
  unfold keyValueRule at h
  split at h
  · exact Except.noConfusion h
  · rename_i key v r1 n1 heqkvp
    have hv : valueND v = true :=
      (parseBlock_ND pf (3 * rest.length + 10)).2.2.2.2.2 _ _ _ _ _ _ heqkvp
    split at h
    · exact Except.noConfusion h
    · rename_i kp ks heqsl
      dsimp only at h
      split at h
      · exact Except.noConfusion h
      · split at h
        · exact Except.noConfusion h
        · exact Except.noConfusion h
        · exact Except.noConfusion h
        · rename_i out' heqg
          have hout' : tableND out' = true := by
            refine getOrCreateNest_ND ?_ hst heqg
            intro nest nest' hnest hf
            split at hf
            · exact Except.noConfusion hf
            · cases hf
              exact tableND_dictSet hnest hv
          simp only [Except.ok.injEq, Prod.mk.injEq] at h
          rw [← h.1]
          exact hout'

/-- `create_dict_rule` preserves the recursive no-duplicate-keys invariant
of the output table. -/
theorem createDictRule_ND {F : Type} {st st' : DocState F}
    {rest r' : List Char} {n n' : Nat} (hst : tableND st.out = true)
    (h : createDictRule st rest n = .ok (st', r', n')) : tableND st'.out = true := by
  unfold createDictRule at h
  split at h
  split at h
  · exact Except.noConfusion h
  · split at h
    · exact Except.noConfusion h
    · dsimp only at h
      split at h
      · exact Except.noConfusion h
      · exact Except.noConfusion h
      · exact Except.noConfusion h
      · rename_i out' heqg
        have hout' : tableND out' = true := by
          refine getOrCreateNest_ND ?_ hst heqg
          intro nest nest' hnest hf
          cases hf
          exact hnest
        split at h
        · simp only [Except.ok.injEq, Prod.mk.injEq] at h
          rw [← h.1]
          exact hout'
        · exact Except.noConfusion h

/-- `create_list_rule` preserves the recursive no-duplicate-keys invariant
of the output table. -/
theorem createListRule_ND {F : Type} {st st' : DocState F}
    {rest r' : List Char} {n n' : Nat} (hst : tableND st.out = true)
    (h : createListRule st rest n = .ok (st', r', n')) : tableND st'.out = true := by
  unfold createListRule at h
  split at h
  split at h
  · exact Except.noConfusion h
  · split at h
    · exact Except.noConfusion h
    · dsimp only at h
      split at h
      · exact Except.noConfusion h
      · exact Except.noConfusion h
      · exact Except.noConfusion h
      · rename_i out' heqg
        have hout' : tableND out' = true := appendNestToList_ND hst heqg
        split at h
        · simp only [Except.ok.injEq, Prod.mk.injEq] at h
          rw [← h.1]
          exact hout'
        · exact Except.noConfusion h

/-- The statement loop preserves the recursive no-duplicate-keys invariant:
a successful run from an ND state returns an ND table. -/
theorem parseStatements_ND {F : Type} {pf : String → F} : ∀ {fuel : Nat}
    {st : DocState F} {rest : List Char} {n : Nat} {t : Table F},
    tableND st.out = true → parseStatements pf fuel st rest n = .ok t →
    tableND t = true := by
  intro fuel
  induction fuel with
  | zero =>
      intro st rest n t hst h
      simp [parseStatements] at h
  | succ f ih =>
      intro st rest n t hst h
      unfold parseStatements at h
      split at h
      split at h
      · cases h
        exact hst
      · exact ih hst h
      · dsimp only at h
        split at h
        · exact Except.noConfusion h
        · rename_i st' r2 n2 heqs
          have hst' : tableND st'.out = true := by
            split at heqs
            · obtain ⟨x, hx, hy⟩ := exceptMap_ok heqs
              simp only [Prod.mk.injEq] at hy
              rw [hy.1]
              exact hst
            · split at heqs
              · exact keyValueRule_ND hst heqs
              · split at heqs
                · exact createListRule_ND hst heqs
                · split at heqs
                  · exact createDictRule_ND hst heqs
                  · exact Except.noConfusion heqs
          split at h
          · exact Except.noConfusion h
          · split at h
            · cases h
              exact hst'
            · exact ih hst' h
            · exact Except.noConfusion h

/-- A successful `loads` returns a table satisfying the recursive
no-duplicate-keys invariant. -/
theorem loads_ND {F : Type} {pf : String → F} {s : String} {t : Table F}
    (h : loads pf s = .ok t) : tableND t = true := by
  unfold loads at h
  exact parseStatements_ND (show tableND (DocState.mk ([] : Table F) [] []).out = true from rfl) h

/-- `key_value_rule` fails with `Can not define <abs_key> twice` when the
final key segment is already present in the target nest. -/
theorem keyValueRule_duplicate {F : Type} {pf : String → F} {st : DocState F}
    {rest : List Char} {n : Nat} {key : List String} {v : Value F}
    {r1 : List Char} {n1 : Nat} {kp : List String} {ks : String} {nest : Table F}
    (hkvp : parseKeyValuePair pf (3 * rest.length + 10) rest n = .ok (key, v, r1, n1))
    (hsl : splitLast key = some (kp, ks))
    (hflag : Flags.isFlag st.flags (st.headerNamespace ++ kp) FROZEN = false)
    (hread : readNest true (st.headerNamespace ++ kp) st.out = .found nest)
    (hdm : dictMem nest ks = true) :
    keyValueRule pf st rest n =
      .error (.decode (.canNotDefineTwice (st.headerNamespace ++ key)) n1) := by
  unfold keyValueRule
  rw [hkvp]
  dsimp only
  rw [hsl]
  dsimp only
  rw [if_neg (by simp [hflag])]
  have hg : getOrCreateNest (fun nest0 =>
      if dictMem nest0 ks then
        .error (.terr (.decode (.canNotDefineTwice (st.headerNamespace ++ key)) n1))
      else .ok (dictSet nest0 ks v)) true (st.headerNamespace ++ kp) st.out =
      .error (.terr (.decode (.canNotDefineTwice (st.headerNamespace ++ key)) n1)) :=
    getOrCreateNest_error_of_found hread (by simp [hdm])
  rw [hg]

/-- Inside an inline table, a duplicate key stem fails with the
duplicate-key error. -/
theorem inlineTable_duplicate {F : Type} {pf : String → F} {fuel : Nat}
    {nd : Table F} {fl : FlagTrie} {rest : List Char} {n : Nat}
    {key : List String} {v : Value F} {r1 : List Char} {n1 : Nat}
    {kp : List String} {ks : String} {nest : Table F}
    (hkvp : parseKeyValuePair pf fuel rest n = .ok (key, v, r1, n1))
    (hsl : splitLast key = some (kp, ks))
    (hflag : Flags.isFlag fl key FROZEN = false)
    (hread : readNest false kp nd = .found nest)
    (hdm : dictMem nest ks = true) :
    parseInlineTableLoop pf (fuel + 1) nd fl rest n =
      .error (.decode (.duplicateInlineKey ks) n1) := by
  unfold parseInlineTableLoop
  rw [hkvp]
  dsimp only
  rw [hsl]
  dsimp only
  rw [if_neg (by simp [hflag])]
  have hg : getOrCreateNest (fun nest0 =>
      if dictMem nest0 ks then
        .error (.terr (.decode (.duplicateInlineKey ks) n1))
      else .ok (dictSet nest0 ks v)) false kp nd =
      .error (.terr (.decode (.duplicateInlineKey ks) n1)) :=
    getOrCreateNest_error_of_found hread (by simp [hdm])
  rw [hg]

/-- C1: For every document that parses successfully, every table's keys are
unique, recursively (no successful parse returns a table with a duplicated
key, at any depth); a key/value statement whose final key segment is
already present in the target nest fails with `Can not define <abs_key>
twice`; and inside an inline table a duplicate key stem fails with the
duplicate-key error. -/
theorem parse_no_duplicate_keys {F : Type} (pf : String → F) :
    (∀ (s : String) (t : Table F), loads pf s = .ok t → tableND t = true) ∧
    (∀ (st : DocState F) (rest : List Char) (n : Nat) (key : List String)
      (v : Value F) (r1 : List Char) (n1 : Nat) (kp : List String) (ks : String)
      (nest : Table F),
      parseKeyValuePair pf (3 * rest.length + 10) rest n = .ok (key, v, r1, n1) →
      splitLast key = some (kp, ks) →
      Flags.isFlag st.flags (st.headerNamespace ++ kp) FROZEN = false →
      readNest true (st.headerNamespace ++ kp) st.out = .found nest →
      dictMem nest ks = true →
      keyValueRule pf st rest n =
        .error (.decode (.canNotDefineTwice (st.headerNamespace ++ key)) n1)) ∧
    (∀ (fuel : Nat) (nd : Table F) (fl : FlagTrie) (rest : List Char) (n : Nat)
      (key : List String) (v : Value F) (r1 : List Char) (n1 : Nat)
      (kp : List String) (ks : String) (nest : Table F),
      parseKeyValuePair pf fuel rest n = .ok (key, v, r1, n1) →
      splitLast key = some (kp, ks) →
      Flags.isFlag fl key FROZEN = false →
      readNest false kp nd = .found nest →
      dictMem nest ks = true →
      parseInlineTableLoop pf (fuel + 1) nd fl rest n =
        .error (.decode (.duplicateInlineKey ks) n1)) :=
  ⟨fun _ _ h => loads_ND h,
   fun _ _ _ _ _ _ _ _ _ _ h1 h2 h3 h4 h5 =>
     keyValueRule_duplicate h1 h2 h3 h4 h5,
   fun _ _ _ _ _ _ _ _ _ _ _ _ h1 h2 h3 h4 h5 =>
     inlineTable_duplicate h1 h2 h3 h4 h5⟩

/-- Witness for C1 at concrete inputs: `a = 1` parses to an ND table; with
`a` already present at the root, the statement `a = 2` fails with
`Can not define ['a'] twice`, and inside an inline table `a = 2}` fails
with the duplicate-key error. -/
theorem parse_no_duplicate_keys_witness :
    tableND [("a", (Value.int 1 : Value String))] = true ∧
    keyValueRule id (DocState.mk [("a", (Value.int 1 : Value String))] [] [])
      ("a = 2".data) 0 =
      .error (.decode (.canNotDefineTwice (([] : List String) ++ ["a"])) 5) ∧
    parseInlineTableLoop id (24 + 1) [("a", (Value.int 1 : Value String))] []
      ("a = 2\x7d".data) 0 = .error (.decode (.duplicateInlineKey "a") 5) :=
  ⟨(parse_no_duplicate_keys id).1 "a = 1" [("a", .int 1)] rfl,
   (parse_no_duplicate_keys id).2.1
     (DocState.mk [("a", (Value.int 1 : Value String))] [] []) ("a = 2".data) 0
     ["a"] (.int 2) [] 5 [] "a" [("a", .int 1)] rfl rfl rfl rfl rfl,
   (parse_no_duplicate_keys id).2.2 24 [("a", (Value.int 1 : Value String))] []
     ("a = 2\x7d".data) 0 ["a"] (.int 2) ['}'] 5 [] "a" [("a", .int 1)]
     rfl rfl rfl rfl rfl⟩

/-- `skip_chars` consumes the same characters from any starting position;
the end position shifts along. -/
theorem skipChars_shift (p : Char → Bool) : ∀ (rest : List Char) (n k : Nat),
    skipChars p rest (n + k) = ((skipChars p rest n).1, (skipChars p rest n).2 + k)
  | [], _, _ => rfl
  | c :: rest, n, k => by
      unfold skipChars
      split
      · rw [show n + k + 1 = (n + 1) + k from by omega]
        rw [skipChars_shift p rest (n + 1) k]
      · rfl

/-- `parse_hex_char` is position-independent up to shifting the output
coordinate. -/
theorem parseHexChar_shift (L : Nat) (rest : List Char) (n k : Nat) :
    parseHexChar L rest (n + k) = shRes k (parseHexChar L rest n) := by
  unfold parseHexChar
  dsimp only
  split
  · rfl
  · split
    · rw [show n + k + L = (n + L) + k from by omega]
      rfl
    · rw [show n + k + L = (n + L) + k from by omega]
      rfl

/-- `parse_basic_str_escape` is position-independent up to shifting the
output coordinate. -/
theorem parseBasicStrEscape_shift (m : Bool) :
    ∀ (rest : List Char) (n k : Nat),
    parseBasicStrEscape m rest (n + k) = shRes k (parseBasicStrEscape m rest n)
  | [], _, _ => rfl
  | [_], _, _ => rfl
  | c :: e :: rest2, n, k => by
      unfold parseBasicStrEscape
      dsimp only
      rw [show n + k + 2 = (n + 2) + k from by omega]
      by_cases h1 : (m && (e == ' ' || e == '\t' || e == '\n')) = true
      · simp only [if_pos h1]
        by_cases h2 : (e == '\n') = true
        · simp only [if_pos h2]
          rw [skipChars_shift]
          rfl
        · simp only [if_neg h2]
          rw [skipChars_shift]
          generalize (skipChars isTomlWs rest2 (n + 2)).2 = n3
          generalize (skipChars isTomlWs rest2 (n + 2)).1 = r3
          cases r3 with
          | nil => rfl
          | cons c0 r4 =>
              by_cases h3 : (c0 == '\n') = true
              · simp only [if_pos h3]
                rw [show n3 + k + 1 = (n3 + 1) + k from by omega, skipChars_shift]
                rfl
              · simp only [if_neg h3]
                rfl
      · simp only [if_neg h1]
        by_cases hb : (e == 'b') = true
        · simp only [if_pos hb]
          rfl
        · simp only [if_neg hb]
          by_cases ht : (e == 't') = true
          · simp only [if_pos ht]
            rfl
          · simp only [if_neg ht]
            by_cases hn : (e == 'n') = true
            · simp only [if_pos hn]
              rfl
            · simp only [if_neg hn]
              by_cases hf : (e == 'f') = true
              · simp only [if_pos hf]
                rfl
              · simp only [if_neg hf]
                by_cases hr : (e == 'r') = true
                · simp only [if_pos hr]
                  rfl
                · simp only [if_neg hr]
                  by_cases hq : (e == '"') = true
                  · simp only [if_pos hq]
                    rfl
                  · simp only [if_neg hq]
                    by_cases hbs : (e == '\\') = true
                    · simp only [if_pos hbs]
                      rfl
                    · simp only [if_neg hbs]
                      by_cases hu : (e == 'u') = true
                      · simp only [if_pos hu]
                        exact parseHexChar_shift 4 rest2 (n + 2) k
                      · simp only [if_neg hu]
                        by_cases hU : (e == 'U') = true
                        · simp only [if_pos hU]
                          exact parseHexChar_shift 8 rest2 (n + 2) k
                        · simp only [if_neg hU]
                          rfl

/-- The `parse_string` bulk scanner is position-independent up to shifting
the output coordinate, provided its escape callback is. -/
theorem parseStringF_shift (d : Char) (L : Nat) (eo : Char → Bool)
    (escP : Option (List Char → Nat → Except TomlError (List Char × List Char × Nat)))
    (hesc : ∀ esc, escP = some esc → ∀ rest n k,
      esc rest (n + k) = shRes k (esc rest n)) :
    ∀ (fuel : Nat) (rest : List Char) (n : Nat) (acc : List Char) (k : Nat),
    parseStringF d L eo escP fuel rest (n + k) acc =
      shRes k (parseStringF d L eo escP fuel rest n acc) := by
  intro fuel
  induction fuel with
  | zero => intro rest n acc k; rfl
  | succ f ih =>
      intro rest n acc k
      unfold parseStringF
      cases rest with
      | nil => rfl
      | cons c r =>
          by_cases h1 : (c == d) = true
          · simp only [if_pos h1]
            by_cases h2 : (r.take (L - 1) == List.replicate (L - 1) d) = true
            · simp only [if_pos h2]
              rw [show n + k + L = (n + L) + k from by omega]
              rfl
            · simp only [if_neg h2]
              rw [show n + k + 1 = (n + 1) + k from by omega]
              exact ih r (n + 1) (c :: acc) k
          · simp only [if_neg h1]
            cases hP : escP with
            | none =>
                rw [hP] at ih
                by_cases h3 : eo c = true
                · simp only [if_pos h3]
                  rfl
                · simp only [if_neg h3]
                  rw [show n + k + 1 = (n + 1) + k from by omega]
                  exact ih r (n + 1) (c :: acc) k
            | some esc =>
                rw [hP] at ih
                by_cases h4 : (c == '\\') = true
                · simp only [if_pos h4]
                  rw [hesc esc hP (c :: r) n k]
                  cases hee : esc (c :: r) n with
                  | error e => rfl
                  | ok x =>
                      rcases x with ⟨s, r', n'⟩
                      dsimp only [shRes]
                      exact ih r' n' (s.reverse ++ acc) k
                · simp only [if_neg h4]
                  by_cases h3 : eo c = true
                  · simp only [if_pos h3]
                    rfl
                  · simp only [if_neg h3]
                    rw [show n + k + 1 = (n + 1) + k from by omega]
                    exact ih r (n + 1) (c :: acc) k

/-- Bulk scan of a plain body: characters that are not the delimiter, not
a backslash when escapes are active, and not illegal are copied verbatim
until the first run of three delimiters, which closes the string. -/
theorem parseStringF_plainScan (d : Char) (eo : Char → Bool)
    (escP : Option (List Char → Nat → Except TomlError (List Char × List Char × Nat))) :
    ∀ (body : List Char),
    (∀ c ∈ body, (c == d) = false ∧ eo c = false ∧
      (∀ esc, escP = some esc → (c == '\\') = false)) →
    ∀ (tail : List Char) (n : Nat) (acc : List Char) (extra : Nat),
    parseStringF d 3 eo escP (extra + body.length + 1) (body ++ d :: d :: d :: tail)
        n acc =
      .ok (⟨acc.reverse ++ body⟩, tail, n + body.length + 3) := by
  intro body
  induction body with
  | nil =>
      intro _ tail n acc extra
      show parseStringF d 3 eo escP (extra + 0 + 1) (d :: d :: d :: tail) n acc = _
      unfold parseStringF
      simp
  | cons c bs ih =>
      intro hplain tail n acc extra
      obtain ⟨hc1, hc2, hc3⟩ := hplain c (List.mem_cons_self c bs)
      show parseStringF d 3 eo escP (extra + (bs.length + 1) + 1)
          (c :: (bs ++ d :: d :: d :: tail)) n acc = _
      rw [show extra + (bs.length + 1) + 1 = (extra + bs.length + 1) + 1 from by omega]
      unfold parseStringF
      have hc1' : ¬((c == d) = true) := by simp [hc1]
      have hc2' : ¬(eo c = true) := by simp [hc2]
      simp only [if_neg hc1']
      have hrec := ih (fun c0 hc0 => hplain c0 (List.mem_cons_of_mem c hc0))
        tail (n + 1) (c :: acc) extra
      have harr : (c :: acc).reverse ++ bs = acc.reverse ++ (c :: bs) := by
        simp
      have hpos : n + 1 + bs.length + 3 = n + (bs.length + 1) + 3 := by omega
      cases hP : escP with
      | none =>
          rw [hP] at hrec
          simp only [if_neg hc2']
          rw [hrec, harr, hpos]
          rfl
      | some esc =>
          rw [hP] at hrec
          have hc3' : ¬((c == '\\') = true) := by simp [hc3 esc hP]
          simp only [if_neg hc3']
          simp only [if_neg hc2']
          rw [hrec, harr, hpos]
          rfl

/-- `parse_multiline_str` factored through `mlPost` when the content after
the opening delimiter does not start with a newline. -/
theorem parseMultilineStr_factor (literal : Bool) :
    ∀ (body : List Char) (n : Nat), (body.take 1 == ['\n']) = false →
    parseMultilineStr literal
        (mlDelim literal :: mlDelim literal :: mlDelim literal :: body) n =
      mlPost (mlDelim literal)
        (parseString (mlDelim literal) 3 (mlIllegal literal) (mlEscOpt literal)
          body (n + 3))
  | [], n, _ => rfl
  | c :: bs, n, hb => by
      have hc : (c == '\n') = false := by simpa using hb
      unfold parseMultilineStr mlIllegal mlEscOpt
      dsimp only
      simp only [List.drop_succ_cons, List.drop_zero]
      have hstart : (match c :: bs with
          | '\n' :: r => (r, n + 3 + 1)
          | _ => ((c :: bs : List Char), n + 3)) = ((c :: bs : List Char), n + 3) := by
        split
        · rename_i r heq
          rw [List.cons.injEq] at heq
          rw [heq.1] at hc
          simp at hc
        · rfl
      rw [hstart]
      rfl

/-- `parse_multiline_str` factored through `mlPost` when the content after
the opening delimiter starts with a newline: that newline is consumed
before `parse_string` runs. -/
theorem parseMultilineStr_factor_newline (literal : Bool) (body : List Char)
    (n : Nat) :
    parseMultilineStr literal
        (mlDelim literal :: mlDelim literal :: mlDelim literal :: '\n' :: body) n =
      mlPost (mlDelim literal)
        (parseString (mlDelim literal) 3 (mlIllegal literal) (mlEscOpt literal)
          body (n + 3 + 1)) := rfl

/-- The post-processing commutes with shifting the position. -/
theorem mlPost_shift (d : Char) (k : Nat) :
    ∀ (X : Except TomlError (String × List Char × Nat)),
    mlPost d (shRes k X) = shRes k (mlPost d X)
  | .error e => rfl
  | .ok (result, r3, n3) => by
      dsimp only [shRes, mlPost]
      cases r3 with
      | nil => rfl
      | cons c r4 =>
          by_cases h1 : (c == d) = true
          · simp only [if_pos h1]
            cases r4 with
            | nil =>
                dsimp only [shRes]
                rw [show n3 + k + 1 = n3 + 1 + k from by omega]
            | cons c2 r5 =>
                by_cases h2 : (c2 == d) = true
                · simp only [if_pos h2]
                  rw [show n3 + k + 2 = n3 + 2 + k from by omega]
                · simp only [if_neg h2]
                  rw [show n3 + k + 1 = n3 + 1 + k from by omega]
          · simp only [if_neg h1]

/-- The escape callback of a multi-line string is position-independent. -/
theorem mlEscOpt_shift (literal : Bool) :
    ∀ esc, mlEscOpt literal = some esc → ∀ rest n k,
    esc rest (n + k) = shRes k (esc rest n) := by
  intro esc h rest n k
  cases literal with
  | true => exact Option.noConfusion h
  | false =>
      simp only [mlEscOpt, Bool.false_eq_true, if_false, Option.some.injEq] at h
      rw [← h]
      exact parseBasicStrEscape_shift true rest n k

/-- Unpacking `mlPlainChar` into the side conditions of the bulk scan. -/
theorem mlPlain_unpack (literal : Bool) {body : List Char}
    (h : body.all (mlPlainChar literal) = true) :
    ∀ c ∈ body, (c == mlDelim literal) = false ∧ mlIllegal literal c = false ∧
      (∀ esc, mlEscOpt literal = some esc → (c == '\\') = false) := by
  intro c hcmem
  have hc : mlPlainChar literal c = true := List.all_eq_true.mp h c hcmem
  unfold mlPlainChar at hc
  simp only [Bool.and_eq_true, Bool.not_eq_true'] at hc
  obtain ⟨⟨h1, h2⟩, h3⟩ := hc
  refine ⟨h1, ?_, ?_⟩
  · unfold mlIllegal
    cases literal with
    | false => simpa using h3
    | true => simpa using h3
  · intro esc hesc
    cases literal with
    | false => simpa using h2
    | true => exact Option.noConfusion hesc

/-- A single newline right after the opening triple delimiter only
advances the cursor: value, remaining input and errors are unchanged. -/
theorem parseMultilineStr_skipNewline (literal : Bool) (body : List Char) (n : Nat)
    (hb : (body.take 1 == ['\n']) = false) :
    parseMultilineStr literal
        (mlDelim literal :: mlDelim literal :: mlDelim literal :: '\n' :: body) n =
      shRes 1 (parseMultilineStr literal
        (mlDelim literal :: mlDelim literal :: mlDelim literal :: body) n) := by
  rw [parseMultilineStr_factor_newline, parseMultilineStr_factor literal body n hb]
  rw [← mlPost_shift]
  congr 1
  unfold parseString
  exact parseStringF_shift (mlDelim literal) 3 (mlIllegal literal) (mlEscOpt literal)
    (mlEscOpt_shift literal) (body.length + 1) body (n + 3) [] 1

/-- A run of four closing delimiters after a plain body: the value gets one
extra delimiter. -/
theorem parseMultilineStr_close4 (literal : Bool) (body tail : List Char) (n : Nat)
    (hall : body.all (mlPlainChar literal) = true)
    (hb : (body.take 1 == ['\n']) = false)
    (htail : (tail.take 1 == [mlDelim literal]) = false) :
    parseMultilineStr literal
        (mlDelim literal :: mlDelim literal :: mlDelim literal ::
          (body ++ mlDelim literal :: mlDelim literal :: mlDelim literal ::
            mlDelim literal :: tail)) n =
      .ok (⟨body ++ [mlDelim literal]⟩, tail, n + body.length + 7) := by
  have hD : (mlDelim literal == '\n') = false := by
    cases literal with
    | false => rfl
    | true => rfl
  have hb0 : ((body ++ mlDelim literal :: mlDelim literal :: mlDelim literal ::
      mlDelim literal :: tail).take 1 == ['\n']) = false := by
    cases body with
    | nil => simpa using hD
    | cons c bs => simpa using hb
  rw [parseMultilineStr_factor literal _ n hb0]
  unfold parseString
  rw [show (body ++ mlDelim literal :: mlDelim literal :: mlDelim literal ::
      mlDelim literal :: tail).length + 1 = (tail.length + 4) + body.length + 1 from by
    simp only [List.length_append, List.length_cons]
    omega]
  rw [parseStringF_plainScan (mlDelim literal) (mlIllegal literal) (mlEscOpt literal)
    body (mlPlain_unpack literal hall) (mlDelim literal :: tail) (n + 3) []
    (tail.length + 4)]
  dsimp only [mlPost]
  rw [if_pos (show (mlDelim literal == mlDelim literal) = true from by simp)]
  cases tail with
  | nil =>
      rw [show n + 3 + body.length + 3 + 1 = n + body.length + 7 from by omega]
      rfl
  | cons c2 r5 =>
      have hc2 : (c2 == mlDelim literal) = false := by simpa using htail
      dsimp only
      rw [if_neg (by simp [hc2])]
      rw [show n + 3 + body.length + 3 + 1 = n + body.length + 7 from by omega]
      rfl

/-- A run of five closing delimiters after a plain body: the value gets two
extra delimiters. -/
theorem parseMultilineStr_close5 (literal : Bool) (body tail : List Char) (n : Nat)
    (hall : body.all (mlPlainChar literal) = true)
    (hb : (body.take 1 == ['\n']) = false) :
    parseMultilineStr literal
        (mlDelim literal :: mlDelim literal :: mlDelim literal ::
          (body ++ mlDelim literal :: mlDelim literal :: mlDelim literal ::
            mlDelim literal :: mlDelim literal :: tail)) n =
      .ok (⟨body ++ [mlDelim literal, mlDelim literal]⟩, tail,
        n + body.length + 8) := by
  have hD : (mlDelim literal == '\n') = false := by
    cases literal with
    | false => rfl
    | true => rfl
  have hb0 : ((body ++ mlDelim literal :: mlDelim literal :: mlDelim literal ::
      mlDelim literal :: mlDelim literal :: tail).take 1 == ['\n']) = false := by
    cases body with
    | nil => simpa using hD
    | cons c bs => simpa using hb
  rw [parseMultilineStr_factor literal _ n hb0]
  unfold parseString
  rw [show (body ++ mlDelim literal :: mlDelim literal :: mlDelim literal ::
      mlDelim literal :: mlDelim literal :: tail).length + 1 =
      (tail.length + 5) + body.length + 1 from by
    simp only [List.length_append, List.length_cons]
    omega]
  rw [parseStringF_plainScan (mlDelim literal) (mlIllegal literal) (mlEscOpt literal)
    body (mlPlain_unpack literal hall)
    (mlDelim literal :: mlDelim literal :: tail) (n + 3) [] (tail.length + 5)]
  dsimp only [mlPost]
  rw [if_pos (show (mlDelim literal == mlDelim literal) = true from by simp)]
  rw [if_pos (show (mlDelim literal == mlDelim literal) = true from by simp)]
  rw [show n + 3 + body.length + 3 + 2 = n + body.length + 8 from by omega]
  rfl

/-- C5: In a multi-line string (basic or literal), a single newline
immediately after the opening triple delimiter is skipped and not part of
the value (only the cursor advances, via `shRes 1`); after a plain body, a
run of four closing delimiters yields the value plus one delimiter, and a
run of five yields the value plus two, before termination. -/
theorem multiline_str_delims (literal : Bool) :
    (∀ (body : List Char) (n : Nat), (body.take 1 == ['\n']) = false →
      parseMultilineStr literal
          (mlDelim literal :: mlDelim literal :: mlDelim literal :: '\n' :: body) n =
        shRes 1 (parseMultilineStr literal
          (mlDelim literal :: mlDelim literal :: mlDelim literal :: body) n)) ∧
    (∀ (body tail : List Char) (n : Nat), body.all (mlPlainChar literal) = true →
      (body.take 1 == ['\n']) = false →
      (tail.take 1 == [mlDelim literal]) = false →
      parseMultilineStr literal
          (mlDelim literal :: mlDelim literal :: mlDelim literal ::
            (body ++ mlDelim literal :: mlDelim literal :: mlDelim literal ::
              mlDelim literal :: tail)) n =
        .ok (⟨body ++ [mlDelim literal]⟩, tail, n + body.length + 7)) ∧
    (∀ (body tail : List Char) (n : Nat), body.all (mlPlainChar literal) = true →
      (body.take 1 == ['\n']) = false →
      parseMultilineStr literal
          (mlDelim literal :: mlDelim literal :: mlDelim literal ::
            (body ++ mlDelim literal :: mlDelim literal :: mlDelim literal ::
              mlDelim literal :: mlDelim literal :: tail)) n =
        .ok (⟨body ++ [mlDelim literal, mlDelim literal]⟩, tail,
          n + body.length + 8)) :=
  ⟨fun body n hb => parseMultilineStr_skipNewline literal body n hb,
   fun body tail n hall hb htail =>
     parseMultilineStr_close4 literal body tail n hall hb htail,
   fun body tail n hall hb => parseMultilineStr_close5 literal body tail n hall hb⟩

/-- Witness for C5 at concrete inputs: skipping the newline in
`"""\nab...`, one extra quote from `"a""""x`, and two extra apostrophes
from five closing apostrophes in the literal form. -/
theorem multiline_str_delims_witness :
    parseMultilineStr false
        (mlDelim false :: mlDelim false :: mlDelim false :: '\n' :: ['a', 'b']) 0 =
      shRes 1 (parseMultilineStr false
        (mlDelim false :: mlDelim false :: mlDelim false :: ['a', 'b']) 0) ∧
    parseMultilineStr false
        (mlDelim false :: mlDelim false :: mlDelim false ::
          (['a'] ++ mlDelim false :: mlDelim false :: mlDelim false ::
            mlDelim false :: ['x'])) 0 =
      .ok (⟨['a'] ++ [mlDelim false]⟩, ['x'], 0 + ['a'].length + 7) ∧
    parseMultilineStr true
        (mlDelim true :: mlDelim true :: mlDelim true ::
          (['a'] ++ mlDelim true :: mlDelim true :: mlDelim true ::
            mlDelim true :: mlDelim true :: ['x'])) 0 =
      .ok (⟨['a'] ++ [mlDelim true, mlDelim true]⟩, ['x'], 0 + ['a'].length + 8) :=
  ⟨(multiline_str_delims false).1 ['a', 'b'] 0 rfl,
   (multiline_str_delims false).2.1 ['a'] ['x'] 0 rfl rfl rfl,
   (multiline_str_delims true).2.2 ['a'] ['x'] 0 rfl rfl⟩

/-- `Except.map` preserves errors, hence the fuel marker. -/
theorem isOutOfFuel_map {α β : Type} (f : α → β) (e : Except TomlError α) :
    isOutOfFuel (e.map f) = isOutOfFuel e := by
  cases e with
  | error e0 =>
      simp only [Except.map]
      cases e0 <;> rfl
  | ok x => simp [Except.map, isOutOfFuel]

/-- `skip_chars` advances the position exactly as many characters as it
removes. -/
theorem skipChars_consume (p : Char → Bool) : ∀ (rest : List Char) (n : Nat)
    {r' : List Char} {n' : Nat}, skipChars p rest n = (r', n') →
    ∃ k, n' = n + k ∧ r'.length + k = rest.length
  | [], n, r', n', h => by
      cases h
      exact ⟨0, rfl, rfl⟩
  | c :: rest, n, r', n', h => by
      unfold skipChars at h
      split at h
      · obtain ⟨k, hk1, hk2⟩ := skipChars_consume p rest (n + 1) h
        exact ⟨k + 1, by omega, by simp; omega⟩
      · cases h
        exact ⟨0, rfl, rfl⟩

/-- `skip_until` advances the position exactly as many characters as it
removes. -/
theorem skipUntil_consume (ec : Char) (eo : Char → Bool) (eof : Bool) :
    ∀ (rest : List Char) (n : Nat) {cs r' : List Char} {n' : Nat},
    skipUntil ec eo eof rest n = .ok (cs, r', n') →
    ∃ k, n' = n + k ∧ r'.length + k = rest.length
  | [], n, cs, r', n', h => by
      unfold skipUntil at h
      split at h
      · exact Except.noConfusion h
      · cases h
        exact ⟨0, rfl, rfl⟩
  | c :: rest, n, cs, r', n', h => by
      unfold skipUntil at h
      split at h
      · cases h
        exact ⟨0, rfl, rfl⟩
      · split at h
        · exact Except.noConfusion h
        · obtain ⟨x, hx, hy⟩ := exceptMap_ok h
          rcases x with ⟨x1, x2, x3⟩
          simp only [Prod.mk.injEq] at hy
          obtain ⟨k, hk1, hk2⟩ := skipUntil_consume ec eo eof rest (n + 1) hx
          refine ⟨k + 1, by omega, ?_⟩
          rw [hy.2.1]
          simp
          omega

/-- `skip_until` never raises the fuel marker. -/
theorem skipUntil_notOOF (ec : Char) (eo : Char → Bool) (eof : Bool) :
    ∀ (rest : List Char) (n : Nat),
    isOutOfFuel (skipUntil ec eo eof rest n) = false
  | [], n => by
      unfold skipUntil
      split
      · rfl
      · rfl
  | c :: rest, n => by
      unfold skipUntil
      split
      · rfl
      · split
        · rfl
        · rw [isOutOfFuel_map]
          exact skipUntil_notOOF ec eo eof rest (n + 1)

/-- `comment_rule` on a nonempty input consumes at least the `#`. -/
theorem commentRule_consume {c : Char} {rs : List Char} {n : Nat}
    {r' : List Char} {n' : Nat} (h : commentRule (c :: rs) n = .ok (r', n')) :
    ∃ k, 1 ≤ k ∧ n' = n + k ∧ r'.length + k = (c :: rs).length := by
  unfold commentRule at h
  obtain ⟨x, hx, hy⟩ := exceptMap_ok h
  rcases x with ⟨x1, x2, x3⟩
  simp only [Prod.mk.injEq] at hy
  obtain ⟨k, hk1, hk2⟩ := skipUntil_consume '\n' illegalCommentChar false rs (n + 1) hx
  refine ⟨k + 1, by omega, by omega, ?_⟩
  rw [hy.1]
  simp
  omega

/-- `comment_rule` never raises the fuel marker. -/
theorem commentRule_notOOF (rest : List Char) (n : Nat) :
    isOutOfFuel (commentRule rest n) = false := by
  unfold commentRule
  rw [isOutOfFuel_map]
  exact skipUntil_notOOF _ _ _ _ _

/-- `skip_comment` advances the position exactly as many characters as it
removes, and never raises the fuel marker. -/
theorem skipComment_consume : ∀ {rest : List Char} {n : Nat} {r' : List Char}
    {n' : Nat}, skipComment rest n = .ok (r', n') →
    ∃ k, n' = n + k ∧ r'.length + k = rest.length := by
  intro rest n r' n' h
  unfold skipComment at h
  split at h
  · rename_i rs
    obtain ⟨k, _, hk1, hk2⟩ := commentRule_consume h
    exact ⟨k, hk1, hk2⟩
  · cases h
    exact ⟨0, rfl, rfl⟩

theorem skipComment_notOOF (rest : List Char) (n : Nat) :
    isOutOfFuel (skipComment rest n) = false := by
  unfold skipComment
  split
  · exact commentRule_notOOF _ _
  · rfl

/-- The `skip_comments_and_array_ws` loop terminates within its fuel (it
stops as soon as a pass makes no progress) and only moves the cursor
forward along the input. -/
theorem skipCAWF_good : ∀ (fuel : Nat) (rest : List Char) (n : Nat),
    rest.length + 1 ≤ fuel →
    isOutOfFuel (skipCommentsAndArrayWsF fuel rest n) = false ∧
    (∀ r' n', skipCommentsAndArrayWsF fuel rest n = .ok (r', n') →
      ∃ k, n' = n + k ∧ r'.length + k = rest.length) := by
  intro fuel
  induction fuel with
  | zero =>
      intro rest n h
      omega
  | succ f ih =>
      intro rest n hf
      obtain ⟨r1, n1, hsk⟩ : ∃ r1 n1, skipChars isTomlWsOrNewline rest n = (r1, n1) :=
        ⟨_, _, rfl⟩
      obtain ⟨k1, hk11, hk12⟩ := skipChars_consume isTomlWsOrNewline rest n hsk
      unfold skipCommentsAndArrayWsF
      rw [hsk]
      dsimp only
      cases hcsc : skipComment r1 n1 with
      | error e =>
          have hoof := skipComment_notOOF r1 n1
          rw [hcsc] at hoof
          exact ⟨hoof, fun r' n' h => Except.noConfusion h⟩
      | ok x =>
          rcases x with ⟨r2, n2⟩
          obtain ⟨k2, hk21, hk22⟩ := skipComment_consume hcsc
          by_cases hnn : (n2 == n) = true
          · simp only [if_pos hnn]
            refine ⟨rfl, fun r' n' h => ?_⟩
            cases h
            have hnev : n2 = n := by simpa using hnn
            exact ⟨0, by omega, by omega⟩
          · simp only [if_neg hnn]
            have hne : n2 ≠ n := by simpa using hnn
            have hr2 : r2.length + 1 ≤ f := by omega
            obtain ⟨hA, hB⟩ := ih r2 n2 hr2
            refine ⟨hA, fun r' n' h => ?_⟩
            obtain ⟨k3, hk31, hk32⟩ := hB r' n' h
            exact ⟨k1 + k2 + k3, by omega, by omega⟩

/-- `skip_comments_and_array_ws` never raises the fuel marker and only
moves forward. -/
theorem skipCAW_good (rest : List Char) (n : Nat) :
    isOutOfFuel (skipCommentsAndArrayWs rest n) = false ∧
    (∀ r' n', skipCommentsAndArrayWs rest n = .ok (r', n') →
      ∃ k, n' = n + k ∧ r'.length + k = rest.length) :=
  skipCAWF_good (rest.length + 1) rest n (by omega)

/-- `parse_hex_char` never raises the fuel marker, and consumes exactly the
hex digits. -/
theorem parseHexChar_good (L : Nat) (rest : List Char) (n : Nat) :
    isOutOfFuel (parseHexChar L rest n) = false ∧
    (∀ s r' n', parseHexChar L rest n = .ok (s, r', n') → r'.length ≤ rest.length) := by
  unfold parseHexChar
  dsimp only
  split
  · exact ⟨rfl, fun s r' n' h => Except.noConfusion h⟩
  · split
    · refine ⟨rfl, fun s r' n' h => ?_⟩
      simp only [Except.ok.injEq, Prod.mk.injEq] at h
      rw [← h.2.1]
      simp
    · exact ⟨rfl, fun s r' n' h => Except.noConfusion h⟩

/-- `parse_basic_str_escape` never raises the fuel marker, and consumes at
least the backslash and the escaped character. -/
theorem parseBasicStrEscape_good (m : Bool) : ∀ (rest : List Char) (n : Nat),
    isOutOfFuel (parseBasicStrEscape m rest n) = false ∧
    (∀ s r' n', parseBasicStrEscape m rest n = .ok (s, r', n') →
      r'.length + 2 ≤ rest.length)
  | [], n => by
      exact ⟨rfl, fun s r' n' h => Except.noConfusion h⟩
  | [c], n => by
      exact ⟨rfl, fun s r' n' h => Except.noConfusion h⟩
  | c :: e :: rest2, n => by
      unfold parseBasicStrEscape
      dsimp only
      by_cases h1 : (m && (e == ' ' || e == '\t' || e == '\n')) = true
      · simp only [if_pos h1]
        by_cases h2 : (e == '\n') = true
        · simp only [if_pos h2]
          obtain ⟨r3, n3, hsk⟩ : ∃ r3 n3,
              skipChars isTomlWsOrNewline rest2 (n + 2) = (r3, n3) := ⟨_, _, rfl⟩
          obtain ⟨k, hk1, hk2⟩ := skipChars_consume isTomlWsOrNewline rest2 (n + 2) hsk
          rw [hsk]
          refine ⟨rfl, fun s r' n' h => ?_⟩
          simp only [Except.ok.injEq, Prod.mk.injEq] at h
          rw [← h.2.1]
          simp only [List.length_cons]
          omega
        · simp only [if_neg h2]
          obtain ⟨r3, n3, hsk⟩ : ∃ r3 n3,
              skipChars isTomlWs rest2 (n + 2) = (r3, n3) := ⟨_, _, rfl⟩
          obtain ⟨k, hk1, hk2⟩ := skipChars_consume isTomlWs rest2 (n + 2) hsk
          rw [hsk]
          dsimp only
          cases r3 with
          | nil =>
              refine ⟨rfl, fun s r' n' h => ?_⟩
              simp only [Except.ok.injEq, Prod.mk.injEq] at h
              rw [← h.2.1]
              simp only [List.length_nil, List.length_cons]
              omega
          | cons c0 r4 =>
              by_cases h3 : (c0 == '\n') = true
              · simp only [if_pos h3]
                obtain ⟨r5, n5, hsk5⟩ : ∃ r5 n5,
                    skipChars isTomlWsOrNewline r4 (n3 + 1) = (r5, n5) := ⟨_, _, rfl⟩
                obtain ⟨k5, hk51, hk52⟩ :=
                  skipChars_consume isTomlWsOrNewline r4 (n3 + 1) hsk5
                rw [hsk5]
                refine ⟨rfl, fun s r' n' h => ?_⟩
                simp only [Except.ok.injEq, Prod.mk.injEq] at h
                rw [← h.2.1]
                simp only [List.length_cons] at hk2 ⊢
                omega
              · simp only [if_neg h3]
                exact ⟨rfl, fun s r' n' h => Except.noConfusion h⟩
      · simp only [if_neg h1]
        by_cases hb : (e == 'b') = true
        · simp only [if_pos hb]
          refine ⟨rfl, fun s r' n' h => ?_⟩
          simp only [Except.ok.injEq, Prod.mk.injEq] at h
          rw [← h.2.1]
          simp
        · simp only [if_neg hb]
          by_cases ht : (e == 't') = true
          · simp only [if_pos ht]
            refine ⟨rfl, fun s r' n' h => ?_⟩
            simp only [Except.ok.injEq, Prod.mk.injEq] at h
            rw [← h.2.1]
            simp
          · simp only [if_neg ht]
            by_cases hn : (e == 'n') = true
            · simp only [if_pos hn]
              refine ⟨rfl, fun s r' n' h => ?_⟩
              simp only [Except.ok.injEq, Prod.mk.injEq] at h
              rw [← h.2.1]
              simp
            · simp only [if_neg hn]
              by_cases hfc : (e == 'f') = true
              · simp only [if_pos hfc]
                refine ⟨rfl, fun s r' n' h => ?_⟩
                simp only [Except.ok.injEq, Prod.mk.injEq] at h
                rw [← h.2.1]
                simp
              · simp only [if_neg hfc]
                by_cases hr : (e == 'r') = true
                · simp only [if_pos hr]
                  refine ⟨rfl, fun s r' n' h => ?_⟩
                  simp only [Except.ok.injEq, Prod.mk.injEq] at h
                  rw [← h.2.1]
                  simp
                · simp only [if_neg hr]
                  by_cases hq : (e == '"') = true
                  · simp only [if_pos hq]
                    refine ⟨rfl, fun s r' n' h => ?_⟩
                    simp only [Except.ok.injEq, Prod.mk.injEq] at h
                    rw [← h.2.1]
                    simp
                  · simp only [if_neg hq]
                    by_cases hbs : (e == '\\') = true
                    · simp only [if_pos hbs]
                      refine ⟨rfl, fun s r' n' h => ?_⟩
                      simp only [Except.ok.injEq, Prod.mk.injEq] at h
                      rw [← h.2.1]
                      simp
                    · simp only [if_neg hbs]
                      by_cases hu : (e == 'u') = true
                      · simp only [if_pos hu]
                        obtain ⟨hA, hB⟩ := parseHexChar_good 4 rest2 (n + 2)
                        refine ⟨hA, fun s r' n' h => ?_⟩
                        have := hB s r' n' h
                        simp only [List.length_cons]
                        omega
                      · simp only [if_neg hu]
                        by_cases hU : (e == 'U') = true
                        · simp only [if_pos hU]
                          obtain ⟨hA, hB⟩ := parseHexChar_good 8 rest2 (n + 2)
                          refine ⟨hA, fun s r' n' h => ?_⟩
                          have := hB s r' n' h
                          simp only [List.length_cons]
                          omega
                        · simp only [if_neg hU]
                          exact ⟨rfl, fun s r' n' h => Except.noConfusion h⟩

/-- The fuel marker only depends on the error value, not the result
type. -/
theorem isOutOfFuel_error {α β : Type} (e : TomlError) :
    isOutOfFuel (Except.error e : Except TomlError α) =
      isOutOfFuel (Except.error e : Except TomlError β) := by
  cases e <;> rfl

/-- The `parse_string` bulk scanner: within fuel `length + 1` it never
raises the fuel marker, and a successful scan always consumes at least the
closing delimiter. -/
theorem parseStringF_good (d : Char) (L : Nat) (eo : Char → Bool)
    (escP : Option (List Char → Nat → Except TomlError (List Char × List Char × Nat)))
    (hescC : ∀ esc, escP = some esc → ∀ rest n s r' n',
      esc rest n = .ok (s, r', n') → r'.length + 2 ≤ rest.length)
    (hescO : ∀ esc, escP = some esc → ∀ rest n,
      isOutOfFuel (esc rest n) = false) :
    ∀ (fuel : Nat),
    (∀ rest n acc, rest.length + 1 ≤ fuel →
      isOutOfFuel (parseStringF d L eo escP fuel rest n acc) = false) ∧
    (∀ rest n acc s r' n',
      parseStringF d L eo escP fuel rest n acc = .ok (s, r', n') →
      r'.length < rest.length) := by
  intro fuel
  induction fuel with
  | zero =>
      refine ⟨fun rest n acc h => ?_, fun rest n acc s r' n' h => ?_⟩
      · omega
      · exact Except.noConfusion h
  | succ f ih =>
      obtain ⟨ihO, ihC⟩ := ih
      have key : ∀ (rest : List Char) (n : Nat) (acc : List Char),
          (rest.length + 1 ≤ f + 1 →
            isOutOfFuel (parseStringF d L eo escP (f + 1) rest n acc) = false) ∧
          (∀ s r' n', parseStringF d L eo escP (f + 1) rest n acc = .ok (s, r', n') →
            r'.length < rest.length) := by
        intro rest n acc
        unfold parseStringF
        cases rest with
        | nil => exact ⟨fun _ => rfl, fun s r' n' h => Except.noConfusion h⟩
        | cons c r =>
            by_cases h1 : (c == d) = true
            · simp only [if_pos h1]
              by_cases h2 : (r.take (L - 1) == List.replicate (L - 1) d) = true
              · simp only [if_pos h2]
                refine ⟨fun _ => rfl, fun s r' n' h => ?_⟩
                simp only [Except.ok.injEq, Prod.mk.injEq] at h
                rw [← h.2.1]
                simp only [List.length_cons, List.length_drop]
                omega
              · simp only [if_neg h2]
                refine ⟨fun hb => ihO r (n + 1) (c :: acc) (by
                    simp only [List.length_cons] at hb
                    omega),
                  fun s r' n' h => ?_⟩
                have := ihC r (n + 1) (c :: acc) s r' n' h
                simp only [List.length_cons]
                omega
            · simp only [if_neg h1]
              cases hP : escP with
              | none =>
                  by_cases h3 : eo c = true
                  · simp only [if_pos h3]
                    exact ⟨fun _ => rfl, fun s r' n' h => Except.noConfusion h⟩
                  · simp only [if_neg h3]
                    rw [hP] at ihO ihC
                    refine ⟨fun hb => ihO r (n + 1) (c :: acc) (by
                        simp only [List.length_cons] at hb
                        omega),
                      fun s r' n' h => ?_⟩
                    have := ihC r (n + 1) (c :: acc) s r' n' h
                    simp only [List.length_cons]
                    omega
              | some esc =>
                  rw [hP] at ihO ihC
                  by_cases h4 : (c == '\\') = true
                  · simp only [if_pos h4]
                    cases hee : esc (c :: r) n with
                    | error e =>
                        have hoof := hescO esc hP (c :: r) n
                        rw [hee] at hoof
                        exact ⟨fun _ => by
                            dsimp only
                            rw [isOutOfFuel_error e]
                            exact hoof,
                          fun s r' n' h => by
                            dsimp only at h
                            exact Except.noConfusion h⟩
                    | ok x =>
                        rcases x with ⟨se, re, ne⟩
                        have hcons := hescC esc hP (c :: r) n se re ne hee
                        simp only [List.length_cons] at hcons
                        refine ⟨fun hb => ihO re ne (se.reverse ++ acc) (by
                            simp only [List.length_cons] at hb
                            omega),
                          fun s r' n' h => ?_⟩
                        have := ihC re ne (se.reverse ++ acc) s r' n' h
                        simp only [List.length_cons]
                        omega
                  · simp only [if_neg h4]
                    by_cases h3 : eo c = true
                    · simp only [if_pos h3]
                      exact ⟨fun _ => rfl, fun s r' n' h => Except.noConfusion h⟩
                    · simp only [if_neg h3]
                      refine ⟨fun hb => ihO r (n + 1) (c :: acc) (by
                          simp only [List.length_cons] at hb
                          omega),
                        fun s r' n' h => ?_⟩
                      have := ihC r (n + 1) (c :: acc) s r' n' h
                      simp only [List.length_cons]
                      omega
      exact ⟨fun rest n acc h => (key rest n acc).1 h,
        fun rest n acc s r' n' h => (key rest n acc).2 s r' n' h⟩

/-- `parse_string` with an optional `parse_basic_str_escape` callback never
raises the fuel marker and always consumes at least one character. -/
theorem parseString_good (d : Char) (L : Nat) (eo : Char → Bool)
    (escP : Option (List Char → Nat → Except TomlError (List Char × List Char × Nat)))
    (hP : escP = none ∨ ∃ m, escP = some (parseBasicStrEscape m))
    (rest : List Char) (n : Nat) :
    isOutOfFuel (parseString d L eo escP rest n) = false ∧
    (∀ s r' n', parseString d L eo escP rest n = .ok (s, r', n') →
      r'.length < rest.length) := by
  have hescC : ∀ esc, escP = some esc → ∀ rest0 n0 s r' n',
      esc rest0 n0 = .ok (s, r', n') → r'.length + 2 ≤ rest0.length := by
    intro esc hesc rest0 n0 s r' n' h
    rcases hP with hP | ⟨m, hP⟩
    · rw [hP] at hesc
      exact Option.noConfusion hesc
    · rw [hP, Option.some.injEq] at hesc
      rw [← hesc] at h
      exact (parseBasicStrEscape_good m rest0 n0).2 s r' n' h
  have hescO : ∀ esc, escP = some esc → ∀ rest0 n0,
      isOutOfFuel (esc rest0 n0) = false := by
    intro esc hesc rest0 n0
    rcases hP with hP | ⟨m, hP⟩
    · rw [hP] at hesc
      exact Option.noConfusion hesc
    · rw [hP, Option.some.injEq] at hesc
      rw [← hesc]
      exact (parseBasicStrEscape_good m rest0 n0).1
  obtain ⟨hO, hC⟩ := parseStringF_good d L eo escP hescC hescO (rest.length + 1)
  exact ⟨hO rest n [] (by omega), fun s r' n' h => hC rest n [] s r' n' h⟩

/-- `parse_basic_str` never raises the fuel marker and always consumes at
least one character. -/
theorem parseBasicStr_good (rest : List Char) (n : Nat) :
    isOutOfFuel (parseBasicStr rest n) = false ∧
    (∀ s r' n', parseBasicStr rest n = .ok (s, r', n') →
      r'.length < rest.length) := by
  unfold parseBasicStr
  obtain ⟨hO, hC⟩ := parseString_good '"' 1 illegalBasicStrChar
    (some (parseBasicStrEscape false)) (Or.inr ⟨false, rfl⟩) (rest.drop 1) (n + 1)
  refine ⟨hO, fun s r' n' h => ?_⟩
  have := hC s r' n' h
  have hd : (rest.drop 1).length ≤ rest.length := by
    simp [List.length_drop]
  omega

/-- `skip_until` with `error_on_eof` leaves the cursor on the expected
character, so its remainder is nonempty. -/
theorem skipUntil_ok_ne_nil (ec : Char) (eo : Char → Bool) :
    ∀ (rest : List Char) (n : Nat) {cs r' : List Char} {n' : Nat},
    skipUntil ec eo true rest n = .ok (cs, r', n') → r' ≠ []
  | [], n, cs, r', n', h => by
      unfold skipUntil at h
      exact absurd h (by simp)
  | c :: rest, n, cs, r', n', h => by
      unfold skipUntil at h
      split at h
      · cases h
        exact List.cons_ne_nil c rest
      · split at h
        · exact Except.noConfusion h
        · obtain ⟨x, hx, hy⟩ := exceptMap_ok h
          rcases x with ⟨x1, x2, x3⟩
          simp only [Prod.mk.injEq] at hy
          rw [hy.2.1]
          exact skipUntil_ok_ne_nil ec eo rest (n + 1) hx

/-- `parse_literal_str` never raises the fuel marker and always consumes
at least one character. -/
theorem parseLiteralStr_good (rest : List Char) (n : Nat) :
    isOutOfFuel (parseLiteralStr rest n) = false ∧
    (∀ s r' n', parseLiteralStr rest n = .ok (s, r', n') →
      r'.length < rest.length) := by
  unfold parseLiteralStr
  cases hsu : skipUntil '\'' illegalLiteralStrChar true (rest.drop 1) (n + 1) with
  | error e =>
      have hoof := skipUntil_notOOF '\'' illegalLiteralStrChar true (rest.drop 1) (n + 1)
      rw [hsu] at hoof
      refine ⟨by rw [isOutOfFuel_error e]; exact hoof, fun s r' n' h => Except.noConfusion h⟩
  | ok x =>
      rcases x with ⟨cs, r2, n2⟩
      obtain ⟨k, hk1, hk2⟩ := skipUntil_consume '\'' illegalLiteralStrChar true
        (rest.drop 1) (n + 1) hsu
      have hne : r2 ≠ [] := skipUntil_ok_ne_nil '\'' illegalLiteralStrChar
        (rest.drop 1) (n + 1) hsu
      refine ⟨rfl, fun s r' n' h => ?_⟩
      simp only [Except.ok.injEq, Prod.mk.injEq] at h
      rw [← h.2.1]
      have hr2 : 1 ≤ r2.length := by
        cases r2 with
        | nil => exact absurd rfl hne
        | cons a b => simp
      have hd : (rest.drop 1).length ≤ rest.length := by
        simp [List.length_drop]
      simp only [List.length_drop]
      omega

/-- The closing post-processing preserves errors and only consumes further
characters. -/
theorem mlPost_good (d : Char) : ∀ (X : Except TomlError (String × List Char × Nat)),
    isOutOfFuel (mlPost d X) = isOutOfFuel X ∧
    (∀ s r' n', mlPost d X = .ok (s, r', n') →
      ∃ s0 r3 n3, X = .ok (s0, r3, n3) ∧ r'.length ≤ r3.length)
  | .error e => by
      refine ⟨by cases e <;> rfl, fun s r' n' h => Except.noConfusion h⟩
  | .ok (result, r3, n3) => by
      dsimp only [mlPost]
      cases r3 with
      | nil =>
          refine ⟨rfl, fun s r' n' h => ?_⟩
          simp only [Except.ok.injEq, Prod.mk.injEq] at h
          refine ⟨result, [], n3, rfl, ?_⟩
          rw [← h.2.1]
      | cons c r4 =>
          by_cases h1 : (c == d) = true
          · simp only [if_pos h1]
            cases r4 with
            | nil =>
                refine ⟨rfl, fun s r' n' h => ?_⟩
                simp only [Except.ok.injEq, Prod.mk.injEq] at h
                refine ⟨result, [c], n3, rfl, ?_⟩
                rw [← h.2.1]
                simp only [List.length_nil, List.length_cons]
                omega
            | cons c2 r5 =>
                by_cases h2 : (c2 == d) = true
                · simp only [if_pos h2]
                  refine ⟨rfl, fun s r' n' h => ?_⟩
                  simp only [Except.ok.injEq, Prod.mk.injEq] at h
                  refine ⟨result, c :: c2 :: r5, n3, rfl, ?_⟩
                  rw [← h.2.1]
                  simp only [List.length_cons]
                  omega
                · simp only [if_neg h2]
                  refine ⟨rfl, fun s r' n' h => ?_⟩
                  simp only [Except.ok.injEq, Prod.mk.injEq] at h
                  refine ⟨result, c :: c2 :: r5, n3, rfl, ?_⟩
                  rw [← h.2.1]
                  simp only [List.length_cons]
                  omega
          · simp only [if_neg h1]
            refine ⟨by trivial, fun s r' n' h => ?_⟩
            simp only [Except.ok.injEq, Prod.mk.injEq] at h
            refine ⟨result, c :: r4, n3, rfl, ?_⟩
            rw [← h.2.1]

/-- The escape option of a multi-line string is `none` or a
`parse_basic_str_escape`. -/
theorem mlEscOpt_shape (literal : Bool) :
    mlEscOpt literal = none ∨ ∃ m, mlEscOpt literal = some (parseBasicStrEscape m) := by
  cases literal with
  | false => exact Or.inr ⟨true, rfl⟩
  | true => exact Or.inl rfl

/-- `parse_multiline_str` never raises the fuel marker and always consumes
at least one character. -/
theorem parseMultilineStr_good (literal : Bool) (rest3 : List Char) (n : Nat) :
    isOutOfFuel (parseMultilineStr literal
      (mlDelim literal :: mlDelim literal :: mlDelim literal :: rest3) n) = false ∧
    (∀ s r' n', parseMultilineStr literal
        (mlDelim literal :: mlDelim literal :: mlDelim literal :: rest3) n =
        .ok (s, r', n') →
      r'.length <
        (mlDelim literal :: mlDelim literal :: mlDelim literal :: rest3).length) := by
  have main : ∀ (body : List Char) (m : Nat),
      parseMultilineStr literal
          (mlDelim literal :: mlDelim literal :: mlDelim literal :: rest3) n =
        mlPost (mlDelim literal)
          (parseString (mlDelim literal) 3 (mlIllegal literal) (mlEscOpt literal)
            body m) →
      body.length ≤ rest3.length →
      isOutOfFuel (parseMultilineStr literal
        (mlDelim literal :: mlDelim literal :: mlDelim literal :: rest3) n) = false ∧
      (∀ s r' n', parseMultilineStr literal
          (mlDelim literal :: mlDelim literal :: mlDelim literal :: rest3) n =
          .ok (s, r', n') →
        r'.length <
          (mlDelim literal :: mlDelim literal :: mlDelim literal :: rest3).length) := by
    intro body m heq hlen
    obtain ⟨hO, hC⟩ := parseString_good (mlDelim literal) 3 (mlIllegal literal)
      (mlEscOpt literal) (mlEscOpt_shape literal) body m
    obtain ⟨hpO, hpC⟩ := mlPost_good (mlDelim literal)
      (parseString (mlDelim literal) 3 (mlIllegal literal) (mlEscOpt literal) body m)
    rw [heq]
    refine ⟨by rw [hpO]; exact hO, fun s r' n' h => ?_⟩
    obtain ⟨s0, r3, n3, hX, hle⟩ := hpC s r' n' h
    have := hC s0 r3 n3 hX
    simp only [List.length_cons]
    omega
  by_cases hstart : (rest3.take 1 == ['\n']) = true
  · have hsh : ∃ body0, rest3 = '\n' :: body0 := by
      cases rest3 with
      | nil => simp at hstart
      | cons a b =>
          simp only [List.take, List.cons.injEq] at hstart
          refine ⟨b, ?_⟩
          have : a = '\n' := by simpa using hstart
          rw [this]
    obtain ⟨body0, hb0⟩ := hsh
    subst hb0
    exact main body0 (n + 3 + 1) (parseMultilineStr_factor_newline literal body0 n)
      (by simp)
  · have hb : (rest3.take 1 == ['\n']) = false := by simpa using hstart
    exact main rest3 (n + 3) (parseMultilineStr_factor literal rest3 n hb)
      (Nat.le_refl _)

/-- `skip_chars` never grows the remainder. -/
theorem skipChars_len (p : Char → Bool) (rest : List Char) (n : Nat) :
    (skipChars p rest n).1.length ≤ rest.length := by
  obtain ⟨k, _, hk⟩ := skipChars_consume p rest n rfl
  omega

/-- `parse_key_part` never raises the fuel marker and always consumes at
least one character. -/
theorem parseKeyPart_good (rest : List Char) (n : Nat) :
    isOutOfFuel (parseKeyPart rest n) = false ∧
    (∀ s r' n', parseKeyPart rest n = .ok (s, r', n') →
      r'.length < rest.length) := by
  unfold parseKeyPart
  cases rest with
  | nil => exact ⟨rfl, fun s r' n' h => Except.noConfusion h⟩
  | cons c r =>
      by_cases h1 : isBareKeyChar c = true
      · simp only [if_pos h1]
        refine ⟨rfl, fun s r' n' h => ?_⟩
        simp only [Except.ok.injEq, Prod.mk.injEq] at h
        rw [← h.2.1]
        have hsk : skipChars isBareKeyChar (c :: r) n = skipChars isBareKeyChar r (n + 1) := by
          conv_lhs => unfold skipChars
          rw [if_pos h1]
        rw [hsk]
        have := skipChars_len isBareKeyChar r (n + 1)
        simp only [List.length_cons]
        omega
      · simp only [if_neg h1]
        by_cases h2 : (c == '\'') = true
        · simp only [if_pos h2]
          exact parseLiteralStr_good (c :: r) n
        · simp only [if_neg h2]
          by_cases h3 : (c == '"') = true
          · simp only [if_pos h3]
            exact parseBasicStr_good (c :: r) n
          · simp only [if_neg h3]
            exact ⟨rfl, fun s r' n' h => Except.noConfusion h⟩

/-- The dotted-key loop: within fuel `length + 1` it never raises the fuel
marker and never grows the remainder. -/
theorem parseKeyLoop_good : ∀ (fuel : Nat) (accKey : List String)
    (rest : List Char) (n : Nat), rest.length + 1 ≤ fuel →
    isOutOfFuel (parseKeyLoop fuel accKey rest n) = false ∧
    (∀ key r' n', parseKeyLoop fuel accKey rest n = .ok (key, r', n') →
      r'.length ≤ rest.length) := by
  intro fuel
  induction fuel with
  | zero =>
      intro accKey rest n h
      omega
  | succ f ih =>
      intro accKey rest n hf
      cases rest with
      | nil =>
          have hred : parseKeyLoop (f + 1) accKey [] n = .ok (accKey, [], n) := rfl
          rw [hred]
          exact ⟨rfl, fun key r' n' h => by
            cases h
            exact Nat.le_refl _⟩
      | cons c rs =>
          by_cases hc : c = '.'
          · subst hc
            obtain ⟨r1, n1, hsk1⟩ : ∃ r1 n1, skipChars isTomlWs rs (n + 1) = (r1, n1) :=
              ⟨_, _, rfl⟩
            obtain ⟨k1, _, hk1⟩ := skipChars_consume isTomlWs rs (n + 1) hsk1
            have hred : parseKeyLoop (f + 1) accKey ('.' :: rs) n =
                (match parseKeyPart (skipChars isTomlWs rs (n + 1)).1
                    (skipChars isTomlWs rs (n + 1)).2 with
                 | .error e => .error e
                 | .ok (part, r2, n2) =>
                     parseKeyLoop f (accKey ++ [part]) (skipChars isTomlWs r2 n2).1
                       (skipChars isTomlWs r2 n2).2) := rfl
            rw [hred, hsk1]
            dsimp only
            cases hkp : parseKeyPart r1 n1 with
            | error e =>
                have hoof := (parseKeyPart_good r1 n1).1
                rw [hkp] at hoof
                refine ⟨by rw [isOutOfFuel_error e]; exact hoof,
                  fun key r' n' h => Except.noConfusion h⟩
            | ok x =>
                rcases x with ⟨part, r2, n2⟩
                have hc2 := (parseKeyPart_good r1 n1).2 part r2 n2 hkp
                obtain ⟨r3, n3, hsk3⟩ : ∃ r3 n3, skipChars isTomlWs r2 n2 = (r3, n3) :=
                  ⟨_, _, rfl⟩
                obtain ⟨k3, _, hk3⟩ := skipChars_consume isTomlWs r2 n2 hsk3
                dsimp only
                rw [hsk3]
                have hb : r3.length + 1 ≤ f := by
                  simp only [List.length_cons] at hf
                  omega
                obtain ⟨hA, hB⟩ := ih (accKey ++ [part]) r3 n3 hb
                refine ⟨hA, fun key r' n' h => ?_⟩
                have := hB key r' n' h
                simp only [List.length_cons]
                omega
          · have hmatch : parseKeyLoop (f + 1) accKey (c :: rs) n =
                .ok (accKey, c :: rs, n) := by
              unfold parseKeyLoop
              split
              · rename_i r heq
                rw [List.cons.injEq] at heq
                exact absurd heq.1 hc
              · rfl
            rw [hmatch]
            exact ⟨rfl, fun key r' n' h => by
              cases h
              exact Nat.le_refl _⟩

/-- `parse_key` never raises the fuel marker and always consumes at least
one character. -/
theorem parseKey_good (rest : List Char) (n : Nat) :
    isOutOfFuel (parseKey rest n) = false ∧
    (∀ key r' n', parseKey rest n = .ok (key, r', n') →
      r'.length < rest.length) := by
  unfold parseKey
  cases hkp : parseKeyPart rest n with
  | error e =>
      have hoof := (parseKeyPart_good rest n).1
      rw [hkp] at hoof
      refine ⟨by rw [isOutOfFuel_error e]; exact hoof,
        fun key r' n' h => Except.noConfusion h⟩
  | ok x =>
      rcases x with ⟨part, r1, n1⟩
      have hc1 := (parseKeyPart_good rest n).2 part r1 n1 hkp
      obtain ⟨r2, n2, hsk⟩ : ∃ r2 n2, skipChars isTomlWs r1 n1 = (r2, n2) :=
        ⟨_, _, rfl⟩
      obtain ⟨k2, _, hk2⟩ := skipChars_consume isTomlWs r1 n1 hsk
      dsimp only
      rw [hsk]
      dsimp only
      obtain ⟨hA, hB⟩ := parseKeyLoop_good (r2.length + 1) [part] r2 n2 (Nat.le_refl _)
      refine ⟨hA, fun key r' n' h => ?_⟩
      have := hB key r' n' h
      omega

/-- The `(?:_?D)*` loop never grows the remainder. -/
theorem udl_len (isD : Char → Bool) : ∀ (cs : List Char),
    (underscoreDigitsLoop isD cs).2.length ≤ cs.length
  | [] => Nat.le_refl _
  | [c] => by
      have hred : underscoreDigitsLoop isD [c] =
          (if isD c then (([c], []) : List Char × List Char)
           else if c == '_' then ([], [c]) else ([], [c])) := rfl
      rw [hred]
      by_cases h1 : isD c = true
      · rw [if_pos h1]
        simp
      · rw [if_neg h1]
        by_cases h2 : (c == '_') = true
        · rw [if_pos h2]
        · rw [if_neg h2]
  | c :: d :: rest2 => by
      have hred : underscoreDigitsLoop isD (c :: d :: rest2) =
          (if isD c then
            ((c :: (underscoreDigitsLoop isD (d :: rest2)).1,
              (underscoreDigitsLoop isD (d :: rest2)).2) : List Char × List Char)
          else if c == '_' then
            (if isD d then
              (('_' :: d :: (underscoreDigitsLoop isD rest2).1,
                (underscoreDigitsLoop isD rest2).2) : List Char × List Char)
             else ([], c :: d :: rest2))
          else ([], c :: d :: rest2)) := rfl
      rw [hred]
      by_cases h1 : isD c = true
      · rw [if_pos h1]
        dsimp only
        have := udl_len isD (d :: rest2)
        simp only [List.length_cons] at this ⊢
        omega
      · rw [if_neg h1]
        by_cases h2 : (c == '_') = true
        · rw [if_pos h2]
          by_cases h3 : isD d = true
          · rw [if_pos h3]
            dsimp only
            have := udl_len isD rest2
            simp only [List.length_cons]
            omega
          · rw [if_neg h3]
        · rw [if_neg h2]

/-- `D(?:_?D)*` consumes at least the leading digit. -/
theorem matchDigitsUnd_len (isD : Char → Bool) : ∀ (cs : List Char)
    {m r : List Char}, matchDigitsUnd isD cs = some (m, r) →
    r.length < cs.length
  | [], m, r, h => Option.noConfusion h
  | c :: rest, m, r, h => by
      have hred : matchDigitsUnd isD (c :: rest) =
          (if isD c then
            some ((c :: (underscoreDigitsLoop isD rest).1,
              (underscoreDigitsLoop isD rest).2) : List Char × List Char)
          else none) := rfl
      rw [hred] at h
      split at h
      · simp only [Option.some.injEq, Prod.mk.injEq] at h
        have := udl_len isD rest
        rw [← h.2]
        simp only [List.length_cons]
        omega
      · exact Option.noConfusion h

/-- The optional fractional part never grows the remainder. -/
theorem matchFracPart_len (cs : List Char) :
    (matchFracPart cs).2.length ≤ cs.length := by
  unfold matchFracPart
  split
  all_goals
    first
    | exact Nat.le_refl _
    | (split
       · refine le_trans (udl_len isDigit _) ?_
         simp only [List.length_cons]
         omega
       · simp)

/-- The optional exponent part never grows the remainder. -/
theorem matchExpPart_len (cs : List Char) :
    (matchExpPart cs).2.length ≤ cs.length := by
  unfold matchExpPart
  split
  all_goals
    first
    | exact Nat.le_refl _
    | (split
       · refine le_trans (udl_len isDigit _) ?_
         simp only [List.length_cons]
         omega
       · simp)

/-- `RE_DEC_OR_FLOAT` consumes at least one character. -/
theorem matchDecOrFloat_len : ∀ (cs : List Char) {m r : List Char},
    matchDecOrFloat cs = some (m, r) → r.length < cs.length := by
  intro cs m r h
  unfold matchDecOrFloat at h
  dsimp only at h
  split at h
  · rename_i c2 r5 heq
    have hr5 : r5.length + 1 ≤ cs.length := by
      split at heq
      · rename_i r0
        dsimp only at heq
        rw [heq]
        simp
      · rename_i r0
        dsimp only at heq
        rw [heq]
        simp
      · dsimp only at heq
        rw [heq]
        simp
    split at h
    · simp only [Option.some.injEq, Prod.mk.injEq] at h
      have h1 := matchFracPart_len r5
      have h2 := matchExpPart_len (matchFracPart r5).2
      rw [← h.2]
      omega
    · split at h
      · simp only [Option.some.injEq, Prod.mk.injEq] at h
        have h0 := udl_len isDigit r5
        have h1 := matchFracPart_len (underscoreDigitsLoop isDigit r5).2
        have h2 := matchExpPart_len (matchFracPart (underscoreDigitsLoop isDigit r5).2).2
        rw [← h.2]
        omega
      · exact Option.noConfusion h
  · exact Option.noConfusion h

/-- Two-digit matchers consume exactly two characters. -/
theorem matchHH_len : ∀ (cs : List Char) {p : List Char} {r : List Char},
    matchHH cs = some (p, r) → r.length + 2 = cs.length := by
  intro cs p r h
  unfold matchHH at h
  split at h
  · rename_i a b rest
    split at h
    · simp only [Option.some.injEq, Prod.mk.injEq] at h
      rw [← h.2]
      simp
    · split at h
      · simp only [Option.some.injEq, Prod.mk.injEq] at h
        rw [← h.2]
        simp
      · exact Option.noConfusion h
  · exact Option.noConfusion h

theorem matchMS_len : ∀ (cs : List Char) {p : List Char} {r : List Char},
    matchMS cs = some (p, r) → r.length + 2 = cs.length := by
  intro cs p r h
  unfold matchMS at h
  split at h
  · rename_i a b rest
    split at h
    · simp only [Option.some.injEq, Prod.mk.injEq] at h
      rw [← h.2]
      simp
    · exact Option.noConfusion h
  · exact Option.noConfusion h

theorem matchMonth_len : ∀ (cs : List Char) {p : List Char} {r : List Char},
    matchMonth cs = some (p, r) → r.length + 2 = cs.length := by
  intro cs p r h
  unfold matchMonth at h
  split at h
  · rename_i a b rest
    split at h
    · simp only [Option.some.injEq, Prod.mk.injEq] at h
      rw [← h.2]
      simp
    · split at h
      · simp only [Option.some.injEq, Prod.mk.injEq] at h
        rw [← h.2]
        simp
      · exact Option.noConfusion h
  · exact Option.noConfusion h

theorem matchDay_len : ∀ (cs : List Char) {p : List Char} {r : List Char},
    matchDay cs = some (p, r) → r.length + 2 = cs.length := by
  intro cs p r h
  unfold matchDay at h
  split at h
  · rename_i a b rest
    split at h
    · simp only [Option.some.injEq, Prod.mk.injEq] at h
      rw [← h.2]
      simp
    · split at h
      · simp only [Option.some.injEq, Prod.mk.injEq] at h
        rw [← h.2]
        simp
      · split at h
        · simp only [Option.some.injEq, Prod.mk.injEq] at h
          rw [← h.2]
          simp
        · exact Option.noConfusion h
  · exact Option.noConfusion h

/-- `dropWhile` never grows a list. -/
theorem dropWhile_len (p : Char → Bool) (l : List Char) :
    (l.dropWhile p).length ≤ l.length := by
  induction l with
  | nil => simp
  | cons a b ih =>
      rw [List.dropWhile_cons]
      split
      · simp only [List.length_cons]
        omega
      · simp

/-- The fractional-part scanner of `RE_DATETIME` never grows the
remainder. -/
theorem matchMicrosDT_len (cs : List Char) :
    (matchMicrosDT cs).2.length ≤ cs.length := by
  unfold matchMicrosDT
  split
  · rename_i rest
    dsimp only
    split
    · simp
    · dsimp only
      have : (rest.dropWhile isDigit).length ≤ rest.length := dropWhile_len _ _
      simp only [List.length_cons]
      omega
  · exact Nat.le_refl _

/-- The zulu/offset matcher never grows the remainder. -/
theorem matchTz_len : ∀ (cs : List Char),
    (matchTz cs).2.2.length ≤ cs.length := by
  intro cs
  unfold matchTz
  split
  · exact Nat.le_refl _
  · rename_i c rest
    split
    · simp
    · split
      · split
        · rename_i oh r1 hhh
          split
          · rename_i r2
            split
            · rename_i om r3 hms
              have h1 := matchHH_len rest hhh
              have h2 := matchMS_len r2 hms
              dsimp only
              simp only [List.length_cons] at h1 ⊢
              omega
            · simp
          · simp
        · simp
      · simp

/-- The time half of `RE_DATETIME` consumes at least `hh:mm:ss`. -/
theorem matchTimeDT_len (cs : List Char) {tg : TimeDT} {consumed rest : List Char}
    (h : matchTimeDT cs = some (tg, consumed, rest)) : rest.length < cs.length := by
  unfold matchTimeDT at h
  split at h
  · exact Option.noConfusion h
  · rename_i hh cs1 hhh
    split at h
    · rename_i cs2
      split at h
      · exact Option.noConfusion h
      · rename_i mm cs3 hms
        split at h
        · rename_i cs4
          split at h
          · exact Option.noConfusion h
          · rename_i ss cs5 hss
            dsimp only at h
            simp only [Option.some.injEq, Prod.mk.injEq] at h
            have h1 := matchHH_len cs hhh
            have h2 := matchMS_len cs2 hms
            have h3 := matchMS_len cs4 hss
            have h4 := matchMicrosDT_len cs5
            have h5 := matchTz_len (matchMicrosDT cs5).2
            rw [← h.2.2]
            simp only [List.length_cons] at h1 h2 h3
            omega
        · exact Option.noConfusion h
    · exact Option.noConfusion h

/-- A `RE_LOCAL_TIME` match consumes at least `hh:mm:ss`. -/
theorem matchLocalTime_len (cs : List Char)
    {g : List Char × List Char × List Char × Option (List Char)} {r : List Char}
    (h : matchLocalTime cs = some (g, r)) : r.length < cs.length := by
  unfold matchLocalTime at h
  split at h
  · exact Option.noConfusion h
  · rename_i hh cs1 hhh
    split at h
    · rename_i cs2
      split at h
      · exact Option.noConfusion h
      · rename_i mm cs3 hms
        split at h
        · rename_i cs4
          split at h
          · exact Option.noConfusion h
          · rename_i ss cs5 hss
            have h1 := matchHH_len cs hhh
            have h2 := matchMS_len cs2 hms
            have h3 := matchMS_len cs4 hss
            simp only [List.length_cons] at h1 h2 h3
            split at h
            · rename_i rest0
              dsimp only at h
              split at h
              · simp only [Option.some.injEq, Prod.mk.injEq] at h
                rw [← h.2]
                simp only [List.length_cons] at h3 ⊢
                omega
              · simp only [Option.some.injEq, Prod.mk.injEq] at h
                have h4 := dropWhile_len isDigit rest0
                rw [← h.2]
                simp only [List.length_cons] at h3 ⊢
                omega
            · simp only [Option.some.injEq, Prod.mk.injEq] at h
              rw [← h.2]
              omega
        · exact Option.noConfusion h
    · exact Option.noConfusion h

/-- A `RE_DATETIME` match consumes at least the date. -/
theorem matchDatetime_len (cs : List Char) {m : DateTimeMatch} {r : List Char}
    (h : matchDatetime cs = some (m, r)) : r.length < cs.length := by
  unfold matchDatetime at h
  dsimp only at h
  split at h
  · split at h
    · rename_i cs1 heq1
      have hc1 : cs1.length + 5 ≤ cs.length := by
        have hlen := congrArg List.length heq1
        simp only [List.length_drop, List.length_cons] at hlen
        omega
      split at h
      · exact Option.noConfusion h
      · rename_i mo cs2 hmo
        have h2 := matchMonth_len cs1 hmo
        split at h
        · rename_i cs3
          split at h
          · exact Option.noConfusion h
          · rename_i d cs4 hd
            have h3 := matchDay_len cs3 hd
            simp only [List.length_cons] at h2 h3
            split at h
            · rename_i sep cs5
              split at h
              · split at h
                · rename_i tg consumed rest0 htd
                  have h4 := matchTimeDT_len cs5 htd
                  simp only [Option.some.injEq, Prod.mk.injEq] at h
                  rw [← h.2]
                  simp only [List.length_cons] at h3 h4 ⊢
                  omega
                · simp only [Option.some.injEq, Prod.mk.injEq] at h
                  rw [← h.2]
                  simp only [List.length_cons] at h3 ⊢
                  omega
              · simp only [Option.some.injEq, Prod.mk.injEq] at h
                rw [← h.2]
                simp only [List.length_cons] at h3 ⊢
                omega
            · simp only [Option.some.injEq, Prod.mk.injEq] at h
              rw [← h.2]
              simp only [List.length_nil]
              omega
        · exact Option.noConfusion h
    · exact Option.noConfusion h
  · exact Option.noConfusion h

/-- `parse_datetime` raises only `ValueError`, never the fuel marker. -/
theorem parseDatetimeFromMatch_notOOF {F : Type} (m : DateTimeMatch) :
    isOutOfFuel (parseDatetimeFromMatch m : Except TomlError (Value F)) = false := by
  unfold parseDatetimeFromMatch
  dsimp only
  repeat' split
  all_goals rfl

/-- The datetime/localtime branch: its result never carries the fuel
marker, and consumes at least one character. -/
theorem parseDatetimeOrLocaltime_good {F : Type} {rest : List Char} {n : Nat}
    {res : Except TomlError (Value F × List Char × Nat)}
    (hs : parseDatetimeOrLocaltime rest n = some res) :
    isOutOfFuel res = false ∧
    (∀ v r' n', res = .ok (v, r', n') → r'.length < rest.length) := by
  unfold parseDatetimeOrLocaltime at hs
  split at hs
  · rename_i m r heq
    simp only [Option.some.injEq] at hs
    rw [← hs]
    constructor
    · rw [isOutOfFuel_map]
      exact parseDatetimeFromMatch_notOOF m
    · intro v r' n' h
      obtain ⟨x, hx, hy⟩ := exceptMap_ok h
      simp only [Prod.mk.injEq] at hy
      rw [hy.2.1]
      exact matchDatetime_len rest heq
  · split at hs
    · rename_i g r heq
      simp only [Option.some.injEq] at hs
      rw [← hs]
      refine ⟨rfl, fun v r' n' h => ?_⟩
      simp only [Except.ok.injEq, Prod.mk.injEq] at h
      rw [← h.2.1]
      exact matchLocalTime_len rest heq
    · exact Option.noConfusion hs

/-- `parse_regex` never raises the fuel marker, and for the digit-tail
matchers always consumes at least one character. -/
theorem parseRegexWith_digits_good (isD : Char → Bool) (rest : List Char) (n : Nat) :
    isOutOfFuel (parseRegexWith (matchDigitsUnd isD) rest n) = false ∧
    (∀ s r' n', parseRegexWith (matchDigitsUnd isD) rest n = .ok (s, r', n') →
      r'.length < rest.length) := by
  unfold parseRegexWith
  split
  · exact ⟨rfl, fun s r' n' h => Except.noConfusion h⟩
  · rename_i m0 r0 heq
    refine ⟨rfl, fun s r' n' h => ?_⟩
    simp only [Except.ok.injEq, Prod.mk.injEq] at h
    rw [← h.2.1]
    exact matchDigitsUnd_len isD rest heq

/-- The number branch: its result never carries the fuel marker, and
consumes at least one character. -/
theorem parseNumberValue_good {F : Type} {pf : String → F} {rest : List Char}
    {n : Nat} {res : Except TomlError (Value F × List Char × Nat)}
    (hs : parseNumberValue pf rest n = some res) :
    isOutOfFuel res = false ∧
    (∀ v r' n', res = .ok (v, r', n') → r'.length < rest.length) := by
  unfold parseNumberValue at hs
  dsimp only at hs
  have hdl : (rest.drop 2).length ≤ rest.length := by
    simp [List.length_drop]
  split at hs
  · simp only [Option.some.injEq] at hs
    rw [← hs]
    obtain ⟨hO, hC⟩ := parseRegexWith_digits_good isHexDigit (rest.drop 2) (n + 2)
    refine ⟨by rw [isOutOfFuel_map]; exact hO, fun v r' n' h => ?_⟩
    obtain ⟨x, hx, hy⟩ := exceptMap_ok h
    rcases x with ⟨x1, x2, x3⟩
    simp only [Prod.mk.injEq] at hy
    have := hC x1 x2 x3 hx
    rw [hy.2.1]
    omega
  · split at hs
    · simp only [Option.some.injEq] at hs
      rw [← hs]
      obtain ⟨hO, hC⟩ := parseRegexWith_digits_good
        (fun c => '0' ≤ c && c ≤ '7') (rest.drop 2) (n + 2)
      refine ⟨by rw [isOutOfFuel_map]; exact hO, fun v r' n' h => ?_⟩
      obtain ⟨x, hx, hy⟩ := exceptMap_ok h
      rcases x with ⟨x1, x2, x3⟩
      simp only [Prod.mk.injEq] at hy
      have := hC x1 x2 x3 hx
      rw [hy.2.1]
      omega
    · split at hs
      · simp only [Option.some.injEq] at hs
        rw [← hs]
        obtain ⟨hO, hC⟩ := parseRegexWith_digits_good
          (fun c => c == '0' || c == '1') (rest.drop 2) (n + 2)
        refine ⟨by rw [isOutOfFuel_map]; exact hO, fun v r' n' h => ?_⟩
        obtain ⟨x, hx, hy⟩ := exceptMap_ok h
        rcases x with ⟨x1, x2, x3⟩
        simp only [Prod.mk.injEq] at hy
        have := hC x1 x2 x3 hx
        rw [hy.2.1]
        omega
      · split at hs
        · rename_i m0 r0 heq
          split at hs
          all_goals
            simp only [Option.some.injEq] at hs
          all_goals
            rw [← hs]
          all_goals
            refine ⟨rfl, fun v r' n' h => ?_⟩
          all_goals
            simp only [Except.ok.injEq, Prod.mk.injEq] at h
          all_goals
            rw [← h.2.1]
          all_goals
            exact matchDecOrFloat_len rest heq
        · exact Option.noConfusion hs

/-- The `inf`/`nan` branch: its result never carries the fuel marker, and
consumes at least one character. -/
theorem parseSpecialFloat_good {F : Type} {pf : String → F} {rest : List Char}
    {n : Nat} {res : Except TomlError (Value F × List Char × Nat)}
    (hs : parseSpecialFloat pf rest n = some res) :
    isOutOfFuel res = false ∧
    (∀ v r' n', res = .ok (v, r', n') → r'.length < rest.length) := by
  unfold parseSpecialFloat at hs
  have hne : rest ≠ [] → 0 < rest.length := by
    intro hr
    cases rest with
    | nil => exact absurd rfl hr
    | cons a b => simp
  split at hs
  · rename_i hcond
    simp only [Option.some.injEq] at hs
    rw [← hs]
    refine ⟨rfl, fun v r' n' h => ?_⟩
    simp only [Except.ok.injEq, Prod.mk.injEq] at h
    rw [← h.2.1]
    have hr : rest ≠ [] := by
      intro hr
      rw [hr] at hcond
      simp at hcond
    have := hne hr
    simp only [List.length_drop]
    omega
  · split at hs
    · rename_i hcond
      simp only [Option.some.injEq] at hs
      rw [← hs]
      refine ⟨rfl, fun v r' n' h => ?_⟩
      simp only [Except.ok.injEq, Prod.mk.injEq] at h
      rw [← h.2.1]
      have hr : rest ≠ [] := by
        intro hr
        rw [hr] at hcond
        simp at hcond
      have := hne hr
      simp only [List.length_drop]
      omega
    · exact Option.noConfusion hs

/-- A satisfied `take 1` test pins down the head of the input. -/
theorem take1_shape {rest : List Char} {c : Char}
    (h : (rest.take 1 == [c]) = true) : ∃ r, rest = c :: r := by
  cases rest with
  | nil => simp at h
  | cons a b =>
      have ha : a = c := by simpa using h
      exact ⟨b, by rw [ha]⟩

/-- A satisfied `take 2` test pins down two characters of the input. -/
theorem take2_shape {r : List Char} {c : Char}
    (h : (r.take 2 == [c, c]) = true) : ∃ r3, r = c :: c :: r3 := by
  cases r with
  | nil => simp at h
  | cons a b =>
      cases b with
      | nil => simp at h
      | cons a2 b2 =>
          have h2 : a = c ∧ a2 = c := by simpa using h
          exact ⟨b2, by rw [h2.1, h2.2]⟩

/-- Every successful recursive production consumes at least one
character (regardless of the fuel supplied). -/
theorem parseBlock_consume {F : Type} (pf : String → F) : ∀ (fuel : Nat),
    (∀ rest n v r' n', parseValue pf fuel rest n = .ok (v, r', n') →
      r'.length < rest.length) ∧
    (∀ rest n xs r' n', parseArray pf fuel rest n = .ok (xs, r', n') →
      r'.length < rest.length) ∧
    (∀ acc rest n xs r' n', parseArrayLoop pf fuel acc rest n = .ok (xs, r', n') →
      r'.length < rest.length) ∧
    (∀ rest n t r' n', parseInlineTable pf fuel rest n = .ok (t, r', n') →
      r'.length < rest.length) ∧
    (∀ nd fl rest n t r' n', parseInlineTableLoop pf fuel nd fl rest n =
      .ok (t, r', n') → r'.length < rest.length) ∧
    (∀ rest n key v r' n', parseKeyValuePair pf fuel rest n = .ok (key, v, r', n') →
      r'.length < rest.length) := by
  intro fuel
  induction fuel with
  | zero =>
      refine ⟨?_, ?_, ?_, ?_, ?_, ?_⟩
      · intro rest n v r' n' h
        simp [parseValue] at h
      · intro rest n xs r' n' h
        simp [parseArray] at h
      · intro acc rest n xs r' n' h
        simp [parseArrayLoop] at h
      · intro rest n t r' n' h
        simp [parseInlineTable] at h
      · intro nd fl rest n t r' n' h
        simp [parseInlineTableLoop] at h
      · intro rest n key v r' n' h
        simp [parseKeyValuePair] at h
  | succ f ih =>
      obtain ⟨ihV, ihA, ihL, ihT, ihTL, ihKVP⟩ := ih
      refine ⟨?_, ?_, ?_, ?_, ?_, ?_⟩
      · intro rest n v r' n' h
        unfold parseValue at h
        dsimp only at h
        split at h
        · rename_i hq
          split at h
          · rename_i hq3
            obtain ⟨x, hx, hy⟩ := exceptMap_ok h
            rcases x with ⟨s1, r1, m1⟩
            simp only [Prod.mk.injEq] at hy
            obtain ⟨ra, hra⟩ := take1_shape hq
            subst hra
            obtain ⟨rb, hrb⟩ := take2_shape (show (ra.take 2 == ['"', '"']) = true from
              by simpa using hq3)
            subst hrb
            have := (parseMultilineStr_good false rb n).2 s1 r1 m1 hx
            rw [hy.2.1]
            exact this
          · obtain ⟨x, hx, hy⟩ := exceptMap_ok h
            rcases x with ⟨s1, r1, m1⟩
            simp only [Prod.mk.injEq] at hy
            have := (parseBasicStr_good rest n).2 s1 r1 m1 hx
            rw [hy.2.1]
            exact this
        · split at h
          · rename_i hq
            split at h
            · rename_i hq3
              obtain ⟨x, hx, hy⟩ := exceptMap_ok h
              rcases x with ⟨s1, r1, m1⟩
              simp only [Prod.mk.injEq] at hy
              obtain ⟨ra, hra⟩ := take1_shape hq
              subst hra
              obtain ⟨rb, hrb⟩ := take2_shape (show (ra.take 2 == ['\'', '\'']) = true
                from by simpa using hq3)
              subst hrb
              have := (parseMultilineStr_good true rb n).2 s1 r1 m1 hx
              rw [hy.2.1]
              exact this
            · obtain ⟨x, hx, hy⟩ := exceptMap_ok h
              rcases x with ⟨s1, r1, m1⟩
              simp only [Prod.mk.injEq] at hy
              have := (parseLiteralStr_good rest n).2 s1 r1 m1 hx
              rw [hy.2.1]
              exact this
          · split at h
            · rename_i hcond
              rw [Bool.and_eq_true] at hcond
              obtain ⟨ra, hra⟩ := take1_shape hcond.1
              subst hra
              simp only [Except.ok.injEq, Prod.mk.injEq] at h
              rw [← h.2.1]
              simp only [List.length_drop, List.length_cons]
              omega
            · split at h
              · rename_i hcond
                rw [Bool.and_eq_true] at hcond
                obtain ⟨ra, hra⟩ := take1_shape hcond.1
                subst hra
                simp only [Except.ok.injEq, Prod.mk.injEq] at h
                rw [← h.2.1]
                simp only [List.length_drop, List.length_cons]
                omega
              · split at h
                · rename_i res0 hsome
                  exact (parseDatetimeOrLocaltime_good hsome).2 v r' n' h
                · split at h
                  · rename_i res0 hsome
                    exact (parseNumberValue_good hsome).2 v r' n' h
                  · split at h
                    · obtain ⟨x, hx, hy⟩ := exceptMap_ok h
                      rcases x with ⟨x1, x2, x3⟩
                      simp only [Prod.mk.injEq] at hy
                      have := ihA rest n x1 x2 x3 hx
                      rw [hy.2.1]
                      exact this
                    · split at h
                      · obtain ⟨x, hx, hy⟩ := exceptMap_ok h
                        rcases x with ⟨x1, x2, x3⟩
                        simp only [Prod.mk.injEq] at hy
                        have := ihT rest n x1 x2 x3 hx
                        rw [hy.2.1]
                        exact this
                      · split at h
                        · rename_i res0 hsome
                          exact (parseSpecialFloat_good hsome).2 v r' n' h
                        · exact Except.noConfusion h
      · intro rest n xs r' n' h
        unfold parseArray at h
        split at h
        · exact Except.noConfusion h
        · rename_i r1 n1 hcaw
          obtain ⟨k1, _, hk1⟩ := (skipCAW_good (rest.drop 1) (n + 1)).2 r1 n1 hcaw
          have hd1 : (rest.drop 1).length ≤ rest.length := by
            simp [List.length_drop]
          split at h
          · rename_i r2
            simp only [Except.ok.injEq, Prod.mk.injEq] at h
            rw [← h.2.1]
            simp only [List.length_cons] at hk1
            omega
          · have := ihL [] r1 n1 xs r' n' h
            omega
      · intro acc rest n xs r' n' h
        unfold parseArrayLoop at h
        split at h
        · exact Except.noConfusion h
        · rename_i v0 r1 n1 heqv
          have hv1 := ihV rest n v0 r1 n1 heqv
          split at h
          · exact Except.noConfusion h
          · rename_i r2 n2 hcaw
            obtain ⟨k2, _, hk2⟩ := (skipCAW_good r1 n1).2 r2 n2 hcaw
            split at h
            · rename_i r3
              simp only [Except.ok.injEq, Prod.mk.injEq] at h
              rw [← h.2.1]
              simp only [List.length_cons] at hk2
              omega
            · rename_i r3
              split at h
              · exact Except.noConfusion h
              · rename_i r4 n4 hcaw2
                obtain ⟨k4, _, hk4⟩ := (skipCAW_good r3 (n2 + 1)).2 r4 n4 hcaw2
                split at h
                · rename_i r5
                  simp only [Except.ok.injEq, Prod.mk.injEq] at h
                  rw [← h.2.1]
                  simp only [List.length_cons] at hk2 hk4
                  omega
                · have := ihL (acc ++ [v0]) r4 n4 xs r' n' h
                  simp only [List.length_cons] at hk2
                  omega
            · exact Except.noConfusion h
      · intro rest n t r' n' h
        unfold parseInlineTable at h
        split at h
        rename_i r1 n1 hsk
        obtain ⟨k1, _, hk1⟩ := skipChars_consume isTomlWs (rest.drop 1) (n + 1) hsk
        have hd1 : (rest.drop 1).length ≤ rest.length := by
          simp [List.length_drop]
        split at h
        · exact Except.noConfusion h
        · rename_i r2
          simp only [Except.ok.injEq, Prod.mk.injEq] at h
          rw [← h.2.1]
          simp only [List.length_cons] at hk1
          omega
        · have := ihTL [] [] r1 n1 t r' n' h
          omega
      · intro nd fl rest n t r' n' h
        unfold parseInlineTableLoop at h
        split at h
        · exact Except.noConfusion h
        · rename_i key0 v0 r1 n1 heqkvp
          have hr1 := ihKVP rest n key0 v0 r1 n1 heqkvp
          split at h
          · exact Except.noConfusion h
          · split at h
            · exact Except.noConfusion h
            · split at h
              · exact Except.noConfusion h
              · exact Except.noConfusion h
              · exact Except.noConfusion h
              · rename_i nd' heqg
                obtain ⟨r2, n2, hsk2⟩ : ∃ a b, skipChars isTomlWs r1 n1 = (a, b) :=
                  ⟨_, _, rfl⟩
                obtain ⟨k2, _, hk2⟩ := skipChars_consume isTomlWs r1 n1 hsk2
                rw [hsk2] at h
                dsimp only at h
                split at h
                · rename_i r3
                  simp only [Except.ok.injEq, Prod.mk.injEq] at h
                  rw [← h.2.1]
                  simp only [List.length_cons] at hk2
                  omega
                · rename_i r3
                  obtain ⟨r4, n4, hsk4⟩ : ∃ a b,
                      skipChars isTomlWs r3 (n2 + 1) = (a, b) := ⟨_, _, rfl⟩
                  obtain ⟨k4, _, hk4⟩ := skipChars_consume isTomlWs r3 (n2 + 1) hsk4
                  rw [hsk4] at h
                  have := ihTL nd' _ r4 n4 t r' n' h
                  simp only [List.length_cons] at hk2
                  omega
                · exact Except.noConfusion h
      · intro rest n key v r' n' h
        unfold parseKeyValuePair at h
        split at h
        · exact Except.noConfusion h
        · rename_i key0 r1 n1 heqk
          have hr1 := (parseKey_good rest n).2 key0 r1 n1 heqk
          split at h
          · rename_i r2
            obtain ⟨r3, n3, hsk3⟩ : ∃ a b, skipChars isTomlWs r2 (n1 + 1) = (a, b) :=
              ⟨_, _, rfl⟩
            obtain ⟨k3, _, hk3⟩ := skipChars_consume isTomlWs r2 (n1 + 1) hsk3
            rw [hsk3] at h
            dsimp only at h
            split at h
            · exact Except.noConfusion h
            · rename_i v0 r4 n4 heqv
              have := ihV r3 n3 v0 r4 n4 heqv
              simp only [Except.ok.injEq, Prod.mk.injEq] at h
              rw [← h.2.2.1]
              simp only [List.length_cons] at hr1
              omega
          · exact Except.noConfusion h

/-- Fuel sufficiency for the recursive block: with fuel at least three
times the remaining input length plus a small constant, no production ever
raises the fuel marker.  The statement rules instantiate the block with
`3 * length + 10`, which satisfies every bound. -/
theorem parseBlock_fuel {F : Type} (pf : String → F) : ∀ (fuel : Nat),
    (∀ rest n, 3 * rest.length + 4 ≤ fuel →
      isOutOfFuel (parseValue pf fuel rest n) = false) ∧
    (∀ rest n, 3 * rest.length + 3 ≤ fuel →
      isOutOfFuel (parseArray pf fuel rest n) = false) ∧
    (∀ acc rest n, 3 * rest.length + 5 ≤ fuel →
      isOutOfFuel (parseArrayLoop pf fuel acc rest n) = false) ∧
    (∀ rest n, 3 * rest.length + 3 ≤ fuel →
      isOutOfFuel (parseInlineTable pf fuel rest n) = false) ∧
    (∀ nd fl rest n, 3 * rest.length + 5 ≤ fuel →
      isOutOfFuel (parseInlineTableLoop pf fuel nd fl rest n) = false) ∧
    (∀ rest n, 3 * rest.length + 4 ≤ fuel →
      isOutOfFuel (parseKeyValuePair pf fuel rest n) = false) := by
  intro fuel
  induction fuel with
  | zero =>
      refine ⟨fun rest n h => ?_, fun rest n h => ?_, fun acc rest n h => ?_,
        fun rest n h => ?_, fun nd fl rest n h => ?_, fun rest n h => ?_⟩
      all_goals omega
  | succ f ih =>
      obtain ⟨ihV, ihA, ihL, ihT, ihTL, ihKVP⟩ := ih
      have hVc := (parseBlock_consume pf f).1
      have hKVPc := (parseBlock_consume pf f).2.2.2.2.2
      refine ⟨?_, ?_, ?_, ?_, ?_, ?_⟩
      · intro rest n hb
        unfold parseValue
        dsimp only
        split
        · rename_i hq
          split
          · rename_i hq3
            rw [isOutOfFuel_map]
            obtain ⟨ra, hra⟩ := take1_shape hq
            subst hra
            obtain ⟨rb, hrb⟩ := take2_shape
              (show (ra.take 2 == ['"', '"']) = true from by simpa using hq3)
            subst hrb
            exact (parseMultilineStr_good false rb n).1
          · rw [isOutOfFuel_map]
            exact (parseBasicStr_good rest n).1
        · split
          · rename_i hq
            split
            · rename_i hq3
              rw [isOutOfFuel_map]
              obtain ⟨ra, hra⟩ := take1_shape hq
              subst hra
              obtain ⟨rb, hrb⟩ := take2_shape
                (show (ra.take 2 == ['\'', '\'']) = true from by simpa using hq3)
              subst hrb
              exact (parseMultilineStr_good true rb n).1
            · rw [isOutOfFuel_map]
              exact (parseLiteralStr_good rest n).1
          · split
            · rfl
            · split
              · rfl
              · split
                · rename_i res0 hsome
                  exact (parseDatetimeOrLocaltime_good hsome).1
                · split
                  · rename_i res0 hsome
                    exact (parseNumberValue_good hsome).1
                  · split
                    · rw [isOutOfFuel_map]
                      exact ihA rest n (by omega)
                    · split
                      · rw [isOutOfFuel_map]
                        exact ihT rest n (by omega)
                      · split
                        · rename_i res0 hsome
                          exact (parseSpecialFloat_good hsome).1
                        · rfl
      · intro rest n hb
        cases rest with
        | nil =>
            have hcaw : skipCommentsAndArrayWs (([] : List Char).drop 1) (n + 1) =
                .ok ([], n + 1) := by
              simp [skipCommentsAndArrayWs, skipCommentsAndArrayWsF, skipChars,
                skipComment]
            unfold parseArray
            rw [hcaw]
            dsimp only
            obtain ⟨f2, hf2⟩ : ∃ f2, f = f2 + 2 := ⟨f - 2, by omega⟩
            subst hf2
            rw [show parseArrayLoop pf (f2 + 2) ([] : List (Value F)) [] (n + 1) =
              .error (.decode .invalidValue (n + 1)) from rfl]
            rfl
        | cons c0 rs0 =>
            unfold parseArray
            cases hcaw : skipCommentsAndArrayWs ((c0 :: rs0).drop 1) (n + 1) with
            | error e =>
                have hoof := (skipCAW_good ((c0 :: rs0).drop 1) (n + 1)).1
                rw [hcaw] at hoof
                rw [isOutOfFuel_error e]
                exact hoof
            | ok x =>
                rcases x with ⟨r1, n1⟩
                obtain ⟨k1, _, hk1⟩ :=
                  (skipCAW_good ((c0 :: rs0).drop 1) (n + 1)).2 r1 n1 hcaw
                dsimp only
                split
                · rfl
                · refine ihL [] r1 n1 ?_
                  simp only [List.length_cons, List.length_drop] at hk1 hb ⊢
                  omega
      · intro acc rest n hb
        unfold parseArrayLoop
        cases hpv : parseValue pf f rest n with
        | error e =>
            have hoof := ihV rest n (by omega)
            rw [hpv] at hoof
            rw [isOutOfFuel_error e]
            exact hoof
        | ok x =>
            rcases x with ⟨v, r1, n1⟩
            have hr1 := hVc rest n v r1 n1 hpv
            dsimp only
            cases hcaw : skipCommentsAndArrayWs r1 n1 with
            | error e =>
                have hoof := (skipCAW_good r1 n1).1
                rw [hcaw] at hoof
                rw [isOutOfFuel_error e]
                exact hoof
            | ok y =>
                rcases y with ⟨r2, n2⟩
                obtain ⟨k2, _, hk2⟩ := (skipCAW_good r1 n1).2 r2 n2 hcaw
                dsimp only
                split
                · rfl
                · rename_i r3
                  cases hcaw2 : skipCommentsAndArrayWs r3 (n2 + 1) with
                  | error e =>
                      have hoof := (skipCAW_good r3 (n2 + 1)).1
                      rw [hcaw2] at hoof
                      rw [isOutOfFuel_error e]
                      exact hoof
                  | ok z =>
                      rcases z with ⟨r4, n4⟩
                      obtain ⟨k4, _, hk4⟩ := (skipCAW_good r3 (n2 + 1)).2 r4 n4 hcaw2
                      dsimp only
                      split
                      · rfl
                      · refine ihL (acc ++ [v]) r4 n4 ?_
                        simp only [List.length_cons] at hk2
                        omega
                · rfl
      · intro rest n hb
        cases rest with
        | nil =>
            rw [show parseInlineTable pf (f + 1) ([] : List Char) n =
              .error .bareUnclosedInlineTable from rfl]
            rfl
        | cons c0 rs0 =>
            unfold parseInlineTable
            obtain ⟨r1, n1, hsk⟩ : ∃ a b,
                skipChars isTomlWs ((c0 :: rs0).drop 1) (n + 1) = (a, b) := ⟨_, _, rfl⟩
            obtain ⟨k1, _, hk1⟩ :=
              skipChars_consume isTomlWs ((c0 :: rs0).drop 1) (n + 1) hsk
            rw [hsk]
            dsimp only
            split
            · rfl
            · rfl
            · refine ihTL [] [] r1 n1 ?_
              simp only [List.length_cons, List.length_drop] at hk1 hb ⊢
              omega
      · intro nd fl rest n hb
        unfold parseInlineTableLoop
        cases hkvp : parseKeyValuePair pf f rest n with
        | error e =>
            have hoof := ihKVP rest n (by omega)
            rw [hkvp] at hoof
            rw [isOutOfFuel_error e]
            exact hoof
        | ok x =>
            rcases x with ⟨key, v, r1, n1⟩
            have hr1 := hKVPc rest n key v r1 n1 hkvp
            dsimp only
            split
            · rfl
            · rename_i kp ks hsl
              split
              · rfl
              · split
                · rfl
                · rfl
                · rename_i e heqg
                  obtain ⟨nest, hf⟩ := getOrCreateNest_terr heqg
                  split at hf
                  · simp only [Except.error.injEq, NestErr.terr.injEq] at hf
                    rw [← hf]
                    rfl
                  · exact Except.noConfusion hf
                · rename_i nd' heqg
                  obtain ⟨r2, n2, hsk2⟩ : ∃ a b,
                      skipChars isTomlWs r1 n1 = (a, b) := ⟨_, _, rfl⟩
                  obtain ⟨k2, _, hk2⟩ := skipChars_consume isTomlWs r1 n1 hsk2
                  rw [hsk2]
                  dsimp only
                  split
                  · rfl
                  · rename_i r3
                    obtain ⟨r4, n4, hsk4⟩ : ∃ a b,
                        skipChars isTomlWs r3 (n2 + 1) = (a, b) := ⟨_, _, rfl⟩
                    obtain ⟨k4, _, hk4⟩ := skipChars_consume isTomlWs r3 (n2 + 1) hsk4
                    rw [hsk4]
                    refine ihTL nd' _ r4 n4 ?_
                    simp only [List.length_cons] at hk2
                    omega
                  · rfl
      · intro rest n hb
        unfold parseKeyValuePair
        cases hpk : parseKey rest n with
        | error e =>
            have hoof := (parseKey_good rest n).1
            rw [hpk] at hoof
            rw [isOutOfFuel_error e]
            exact hoof
        | ok x =>
            rcases x with ⟨key, r1, n1⟩
            have hr1 := (parseKey_good rest n).2 key r1 n1 hpk
            dsimp only
            split
            · rename_i r2
              obtain ⟨r3, n3, hsk3⟩ : ∃ a b,
                  skipChars isTomlWs r2 (n1 + 1) = (a, b) := ⟨_, _, rfl⟩
              obtain ⟨k3, _, hk3⟩ := skipChars_consume isTomlWs r2 (n1 + 1) hsk3
              rw [hsk3]
              dsimp only
              cases hpv : parseValue pf f r3 n3 with
              | error e =>
                  have hoof := ihV r3 n3 (by
                    simp only [List.length_cons] at hr1
                    omega)
                  rw [hpv] at hoof
                  rw [isOutOfFuel_error e]
                  exact hoof
              | ok y =>
                  rcases y with ⟨v, r4, n4⟩
                  rfl
            · rfl

/-- `key_value_rule` never raises the fuel marker (its block fuel
`3·length + 10` satisfies every bound) and always consumes at least one
character. -/
theorem keyValueRule_good {F : Type} (pf : String → F) (st : DocState F)
    (rest : List Char) (n : Nat) :
    isOutOfFuel (keyValueRule pf st rest n) = false ∧
    (∀ st' r' n', keyValueRule pf st rest n = .ok (st', r', n') →
      r'.length < rest.length) := by
  unfold keyValueRule
  cases hkvp : parseKeyValuePair pf (3 * rest.length + 10) rest n with
  | error e =>
      have hoof := (parseBlock_fuel pf (3 * rest.length + 10)).2.2.2.2.2 rest n
        (by omega)
      rw [hkvp] at hoof
      refine ⟨by rw [isOutOfFuel_error e]; exact hoof,
        fun st' r' n' h => Except.noConfusion h⟩
  | ok x =>
      rcases x with ⟨key, v, r1, n1⟩
      have hr1 := (parseBlock_consume pf (3 * rest.length + 10)).2.2.2.2.2
        rest n key v r1 n1 hkvp
      dsimp only
      split
      · exact ⟨rfl, fun st' r' n' h => Except.noConfusion h⟩
      · rename_i kp ks hsl
        split
        · exact ⟨rfl, fun st' r' n' h => Except.noConfusion h⟩
        · split
          · exact ⟨rfl, fun st' r' n' h => Except.noConfusion h⟩
          · exact ⟨rfl, fun st' r' n' h => Except.noConfusion h⟩
          · rename_i e heqg
            obtain ⟨nest, hf⟩ := getOrCreateNest_terr heqg
            split at hf
            · simp only [Except.error.injEq, NestErr.terr.injEq] at hf
              rw [← hf]
              exact ⟨rfl, fun st' r' n' h => Except.noConfusion h⟩
            · exact Except.noConfusion hf
          · rename_i out' heqg
            refine ⟨rfl, fun st' r' n' h => ?_⟩
            simp only [Except.ok.injEq, Prod.mk.injEq] at h
            rw [← h.2.1]
            exact hr1

/-- `create_dict_rule` never raises the fuel marker and always consumes at
least one character. -/
theorem createDictRule_good {F : Type} (st : DocState F) (rest : List Char)
    (n : Nat) :
    isOutOfFuel (createDictRule st rest n) = false ∧
    (∀ st' r' n', createDictRule st rest n = .ok (st', r', n') →
      r'.length < rest.length) := by
  unfold createDictRule
  obtain ⟨r1, n1, hsk⟩ : ∃ a b, skipChars isTomlWs (rest.drop 1) (n + 1) = (a, b) :=
    ⟨_, _, rfl⟩
  obtain ⟨k1, _, hk1⟩ := skipChars_consume isTomlWs (rest.drop 1) (n + 1) hsk
  have hd1 : (rest.drop 1).length ≤ rest.length := by
    simp [List.length_drop]
  rw [hsk]
  dsimp only
  cases hpk : parseKey r1 n1 with
  | error e =>
      have hoof := (parseKey_good r1 n1).1
      rw [hpk] at hoof
      refine ⟨by rw [isOutOfFuel_error e]; exact hoof,
        fun st' r' n' h => Except.noConfusion h⟩
  | ok x =>
      rcases x with ⟨key, r2, n2⟩
      have hr2 := (parseKey_good r1 n1).2 key r2 n2 hpk
      dsimp only
      split
      · exact ⟨rfl, fun st' r' n' h => Except.noConfusion h⟩
      · split
        · exact ⟨rfl, fun st' r' n' h => Except.noConfusion h⟩
        · exact ⟨rfl, fun st' r' n' h => Except.noConfusion h⟩
        · rename_i e heqg
          obtain ⟨nest, hf⟩ := getOrCreateNest_terr heqg
          exact Except.noConfusion hf
        · rename_i out' heqg
          split
          · rename_i r3
            refine ⟨rfl, fun st' r' n' h => ?_⟩
            simp only [Except.ok.injEq, Prod.mk.injEq] at h
            rw [← h.2.1]
            simp only [List.length_cons] at hr2
            omega
          · exact ⟨rfl, fun st' r' n' h => Except.noConfusion h⟩

/-- `create_list_rule` never raises the fuel marker and always consumes at
least one character. -/
theorem createListRule_good {F : Type} (st : DocState F) (rest : List Char)
    (n : Nat) :
    isOutOfFuel (createListRule st rest n) = false ∧
    (∀ st' r' n', createListRule st rest n = .ok (st', r', n') →
      r'.length < rest.length) := by
  unfold createListRule
  obtain ⟨r1, n1, hsk⟩ : ∃ a b, skipChars isTomlWs (rest.drop 2) (n + 2) = (a, b) :=
    ⟨_, _, rfl⟩
  obtain ⟨k1, _, hk1⟩ := skipChars_consume isTomlWs (rest.drop 2) (n + 2) hsk
  have hd1 : (rest.drop 2).length + 2 ≤ rest.length ∨ rest.length < 2 := by
    simp only [List.length_drop]
    omega
  rw [hsk]
  dsimp only
  cases hpk : parseKey r1 n1 with
  | error e =>
      have hoof := (parseKey_good r1 n1).1
      rw [hpk] at hoof
      refine ⟨by rw [isOutOfFuel_error e]; exact hoof,
        fun st' r' n' h => Except.noConfusion h⟩
  | ok x =>
      rcases x with ⟨key, r2, n2⟩
      have hr2 := (parseKey_good r1 n1).2 key r2 n2 hpk
      dsimp only
      split
      · exact ⟨rfl, fun st' r' n' h => Except.noConfusion h⟩
      · split
        · exact ⟨rfl, fun st' r' n' h => Except.noConfusion h⟩
        · exact ⟨rfl, fun st' r' n' h => Except.noConfusion h⟩
        · rename_i e heqg
          unfold appendNestToList at heqg
          split at heqg
          · simp at heqg
          · obtain ⟨nest, hf⟩ := getOrCreateNest_terr heqg
            split at hf
            · exact Except.noConfusion hf
            · simp at hf
            · exact Except.noConfusion hf
        · rename_i out' heqg
          split
          · refine ⟨rfl, fun st' r' n' h => ?_⟩
            simp only [Except.ok.injEq, Prod.mk.injEq] at h
            rw [← h.2.1]
            simp only [List.length_drop] at hk1 ⊢
            omega
          · exact ⟨rfl, fun st' r' n' h => Except.noConfusion h⟩

/-- The statement loop never raises the fuel marker within fuel
`length + 1`: every iteration either consumes at least one character,
returns, or raises a decode error. -/
theorem parseStatements_fuel {F : Type} (pf : String → F) : ∀ (fuel : Nat)
    (st : DocState F) (rest : List Char) (n : Nat), rest.length + 1 ≤ fuel →
    isOutOfFuel (parseStatements pf fuel st rest n) = false := by
  intro fuel
  induction fuel with
  | zero =>
      intro st rest n h
      omega
  | succ f ih =>
      intro st rest n hf
      unfold parseStatements
      obtain ⟨r1, n1, hsk⟩ : ∃ a b, skipChars isTomlWs rest n = (a, b) := ⟨_, _, rfl⟩
      obtain ⟨k1, _, hk1⟩ := skipChars_consume isTomlWs rest n hsk
      rw [hsk]
      dsimp only
      split
      · rfl
      · rename_i r
        refine ih st r (n1 + 1) ?_
        simp only [List.length_cons] at hk1
        omega
      · rename_i r1x c tail hcne
        split
        · rename_i e heq
          split at heq
          · have hoof : isOutOfFuel ((commentRule (c :: tail) n1).map
                (fun x => (st, x.1, x.2))) = false := by
              rw [isOutOfFuel_map]
              exact commentRule_notOOF _ _
            rw [heq] at hoof
            rw [isOutOfFuel_error e]
            exact hoof
          · split at heq
            · have hoof := (keyValueRule_good pf st (c :: tail) n1).1
              rw [heq] at hoof
              rw [isOutOfFuel_error e]
              exact hoof
            · split at heq
              · have hoof := (createListRule_good st (c :: tail) n1).1
                rw [heq] at hoof
                rw [isOutOfFuel_error e]
                exact hoof
              · split at heq
                · have hoof := (createDictRule_good st (c :: tail) n1).1
                  rw [heq] at hoof
                  rw [isOutOfFuel_error e]
                  exact hoof
                · simp only [Except.error.injEq] at heq
                  rw [← heq]
                  rfl
        · rename_i st' r2 n2 heq
          have hr2 : r2.length < (c :: tail).length := by
            split at heq
            · obtain ⟨x, hx, hy⟩ := exceptMap_ok heq
              rcases x with ⟨x1, x2⟩
              simp only [Prod.mk.injEq] at hy
              obtain ⟨k, hk, _, hkc⟩ := commentRule_consume hx
              rw [hy.2.1]
              simp only [List.length_cons] at hkc ⊢
              omega
            · split at heq
              · exact (keyValueRule_good pf st (c :: tail) n1).2 st' r2 n2 heq
              · split at heq
                · exact (createListRule_good st (c :: tail) n1).2 st' r2 n2 heq
                · split at heq
                  · exact (createDictRule_good st (c :: tail) n1).2 st' r2 n2 heq
                  · exact Except.noConfusion heq
          obtain ⟨r3, n3, hsk3⟩ : ∃ a b, skipChars isTomlWs r2 n2 = (a, b) :=
            ⟨_, _, rfl⟩
          obtain ⟨k3, _, hk3⟩ := skipChars_consume isTomlWs r2 n2 hsk3
          rw [hsk3]
          dsimp only
          cases hsc : skipComment r3 n3 with
          | error e =>
              have hoof := skipComment_notOOF r3 n3
              rw [hsc] at hoof
              rw [isOutOfFuel_error e]
              exact hoof
          | ok y =>
              rcases y with ⟨r4, n4⟩
              obtain ⟨k4, _, hk4⟩ := skipComment_consume hsc
              dsimp only
              split
              · rfl
              · rename_i r5
                refine ih st' r5 (n4 + 1) ?_
                simp only [List.length_cons] at hr2 hk4 hk1 ⊢
                omega
              · rfl

/-- C9's driver statement: `loads` never raises the fuel marker, for any
input and any `parse_float`. -/
theorem loadsNeverOutOfFuel {F : Type} (pf : String → F) (s : String) :
    isOutOfFuel (loads pf s) = false := by
  unfold loads
  exact parseStatements_fuel pf ((normNewlines s.data).length + 1) ⟨[], [], []⟩
    (normNewlines s.data) 0 (Nat.le_refl _)

/-- C9: the parse terminates for every input string and every (pure)
`parse_float`: `loads` never exhausts its fuel — so the embedded recursion,
and with it the source's, always bottoms out — because each successful
top-level statement rule strictly advances the cursor, and every
successful value production (arrays and inline tables included) consumes
at least one character per nesting level. -/
theorem parse_terminates {F : Type} (pf : String → F) :
    (∀ s, isOutOfFuel (loads pf s) = false) ∧
    (∀ (st : DocState F) rest n st' r' n',
      keyValueRule pf st rest n = .ok (st', r', n') → r'.length < rest.length) ∧
    (∀ (st : DocState F) rest n st' r' n',
      createDictRule st rest n = .ok (st', r', n') → r'.length < rest.length) ∧
    (∀ (st : DocState F) rest n st' r' n',
      createListRule st rest n = .ok (st', r', n') → r'.length < rest.length) ∧
    (∀ fuel rest n v r' n',
      parseValue pf fuel rest n = .ok (v, r', n') → r'.length < rest.length) :=
  ⟨fun s => loadsNeverOutOfFuel pf s,
   fun st rest n st' r' n' h => (keyValueRule_good pf st rest n).2 st' r' n' h,
   fun st rest n st' r' n' h => (createDictRule_good st rest n).2 st' r' n' h,
   fun st rest n st' r' n' h => (createListRule_good st rest n).2 st' r' n' h,
   fun fuel rest n v r' n' h => (parseBlock_consume pf fuel).1 rest n v r' n' h⟩

/-- Witness for C9 at concrete inputs: the statement rules on `a = 1`,
`[t]` and `[[t]]` and the value production on `1` all consume input. -/
theorem parse_terminates_witness :
    ([] : List Char).length < "a = 1".data.length ∧
    ([] : List Char).length < "[t]".data.length ∧
    ([] : List Char).length < "[[t]]".data.length ∧
    ([] : List Char).length < "1".data.length :=
  ⟨(parse_terminates id).2.1 ⟨[], [], []⟩ "a = 1".data 0
      ⟨[("a", .int 1)], [("a", .mk [1] [] [])], []⟩ [] 5 rfl,
   (parse_terminates id).2.2.1 (⟨[], [], []⟩ : DocState String) "[t]".data 0
      ⟨[("t", .table [])], [("t", .mk [1] [] [])], ["t"]⟩ [] 3 rfl,
   (parse_terminates id).2.2.2.1 (⟨[], [], []⟩ : DocState String) "[[t]]".data 0
      ⟨[("t", .arr [.table []])], [("t", .mk [1] [] [])], ["t"]⟩ [] 5 rfl,
   (parse_terminates id).2.2.2.2 10 "1".data 0 (.int 1) [] 1 rfl⟩
